import Mathlib

/-!
# Segment trees of `segtree.h`

A shallow embedding of the two class templates of `src/segtree.h`:

* `SegmentTree<T>`: point update / range fold over a flat array of `2n` nodes;
* `LazySegmentTree<T, E>`: the same with range updates through a parallel
  array of pending effects.

Modelling conventions.

* `std::vector` is a `List`; a write is `List.set`, a read is `List.getD` (the
  default is only returned outside the bounds, where the C++ read is undefined).
* The node indices computed inside the class are natural numbers; the
  arguments of the public operations are `Int`, because the assertions test
  `0 <= idx` explicitly.  A failed assertion is the result `none`.
* The operators `f`, `g`, `h` and the identities `ti`, `ei` are members that are
  set by the constructor and never written again; they are passed to every
  operation as one record (`Ops`, `LazyOps`).
* `while`/`for` loops whose trip count is not a compile-time constant take a
  fuel argument and return `none` when it runs out.  The public operations
  supply `2 * n` (the loops halve an index below `2n`).
* Bit operations are the ones of the source: `<<<`, `>>>`, `&&&`, `^^^`.
* Indices are unbounded.  For an input of at most `2^30` elements `n` is at
  most `2^30`, every node index is below `2^31`, and the `int` arithmetic of
  the source does not overflow; the reachable states of the lazy tree are
  restricted to such inputs, because the loop of `LazyPropagateFromRoot`
  starts at bit `31`.
-/

set_option autoImplicit false

/-! ## Plain segment tree -/

/-- Members `f` and `ti` of `SegmentTree<T>`. -/
structure Ops (T : Type) where
  f : T → T → T
  ti : T

/-- Members `data` and `n` of `SegmentTree<T>`. -/
structure SegmentTree (T : Type) where
  data : List T
  n : Nat
  deriving DecidableEq

/-- The loop `while (n < d.size()) n <<= 1;` of both constructors. -/
def sizeLoop : Nat → Nat → Nat → Option Nat
  | 0, n, len => if n < len then none else some n
  | fuel + 1, n, len => if n < len then sizeLoop fuel (n <<< 1) len else some n

/-- The loop `for (i = 0; i < d.size(); i++) data[n+i] = d[i];`, the list being
the part of `d` from position `i` on. -/
def copyLeaves {T : Type} (n : Nat) : List T → Nat → List T → List T
  | [], _, data => data
  | x :: xs, i, data => copyLeaves n xs (i + 1) (data.set (n + i) x)

/-- The loop `for (i = n-1; i > 0; i--) data[i] = f(data[i<<1], data[(i<<1)+1]);`
started at `i`. -/
def fillUp {T : Type} (o : Ops T) : Nat → List T → List T
  | 0, data => data
  | i + 1, data =>
    fillUp o i (data.set (i + 1)
      (o.f (data.getD ((i + 1) <<< 1) o.ti) (data.getD (((i + 1) <<< 1) + 1) o.ti)))

/-- Constructor `SegmentTree<T>::SegmentTree(d, ti, f)`. -/
def SegmentTree.construct {T : Type} (o : Ops T) (d : List T) : Option (SegmentTree T) :=
  (sizeLoop d.length 1 d.length).map fun n =>
    { data := fillUp o (n - 1) (copyLeaves n d 0 (List.replicate (2 * n) o.ti)), n := n }

/-- The loop of `SegmentTree<T>::SetVal`:
`for (i = ...; i > 0; i >>= 1) data[i] = f(data[i<<1], data[(i<<1)+1]);`. -/
def setValLoop {T : Type} (o : Ops T) : Nat → Nat → List T → Option (List T)
  | 0, i, data => if 0 < i then none else some data
  | fuel + 1, i, data =>
    if 0 < i then
      setValLoop o fuel (i >>> 1)
        (data.set i (o.f (data.getD (i <<< 1) o.ti) (data.getD ((i <<< 1) + 1) o.ti)))
    else some data

/-- Method `SegmentTree<T>::SetVal(idx, x)`. -/
def SegmentTree.SetVal {T : Type} (o : Ops T) (s : SegmentTree T) (idx : Int) (x : T) :
    Option (SegmentTree T) :=
  if 0 ≤ idx ∧ idx < (s.n : Int) then
    (setValLoop o (2 * s.n) ((s.n + idx.toNat) >>> 1) (s.data.set (s.n + idx.toNat) x)).map
      fun d => { s with data := d }
  else none

/-- The two-pointer loop shared by both `Query` methods:
`for (; l<=r; l>>=1, r>>=1) { if (l&1) { vl = f(vl, data[l]); l++; }
 if (!(r&1)) { vr = f(vr, data[r]); r--; } } return f(vl, vr);`. -/
def queryLoop {T : Type} (f : T → T → T) (ti : T) (data : List T) :
    Nat → Nat → Nat → T → T → Option T
  | 0, l, r, vl, vr => if l ≤ r then none else some (f vl vr)
  | fuel + 1, l, r, vl, vr =>
    if l ≤ r then
      queryLoop f ti data fuel
        ((if l &&& 1 ≠ 0 then l + 1 else l) >>> 1)
        ((if r &&& 1 = 0 then r - 1 else r) >>> 1)
        (if l &&& 1 ≠ 0 then f vl (data.getD l ti) else vl)
        (if r &&& 1 = 0 then f vr (data.getD r ti) else vr)
    else some (f vl vr)

/-- Method `SegmentTree<T>::Query(l, r)`. -/
def SegmentTree.Query {T : Type} (o : Ops T) (s : SegmentTree T) (l r : Int) : Option T :=
  if ((0 ≤ l ∧ l < (s.n : Int)) ∧ (0 ≤ r ∧ r < (s.n : Int))) ∧ l < r then
    queryLoop o.f o.ti s.data (2 * s.n) (l.toNat + s.n) (r.toNat + (s.n - 1)) o.ti o.ti
  else none

/-! ## Lazy segment tree -/

/-- Members `f`, `g`, `h`, `ti`, `ei` of `LazySegmentTree<T, E>`. -/
structure LazyOps (T E : Type) where
  f : T → T → T
  g : T → E → T
  h : E → E → E
  ti : T
  ei : E

/-- Members `data`, `lazy` and `n` of `LazySegmentTree<T, E>`. -/
structure LazySegmentTree (T E : Type) where
  data : List T
  lazy : List E
  n : Nat
  deriving DecidableEq

/-- The value `std::numeric_limits<int>::digits` for a 32-bit `int`. -/
def intDigits : Nat := 31

/-- Constructor `LazySegmentTree<T, E>::LazySegmentTree(d, ti, ei, f, g, h)`. -/
def LazySegmentTree.construct {T E : Type} (o : LazyOps T E) (d : List T) :
    Option (LazySegmentTree T E) :=
  (sizeLoop d.length 1 d.length).map fun n =>
    { data := fillUp ⟨o.f, o.ti⟩ (n - 1) (copyLeaves n d 0 (List.replicate (2 * n) o.ti)),
      lazy := List.replicate (2 * n) o.ei,
      n := n }

/-- Method `Operate(idx)`: `data[idx] = g(data[idx], lazy[idx]); lazy[idx] = ei;`. -/
def LazySegmentTree.Operate {T E : Type} (o : LazyOps T E) (s : LazySegmentTree T E)
    (idx : Nat) : LazySegmentTree T E :=
  { s with
    data := s.data.set idx (o.g (s.data.getD idx o.ti) (s.lazy.getD idx o.ei)),
    lazy := s.lazy.set idx o.ei }

/-- Method `Propagate(idx)`: returns at once when `idx >= n`, else composes
`lazy[idx]` onto `lazy[idx<<1]` and then onto `lazy[(idx<<1)+1]`. -/
def LazySegmentTree.Propagate {T E : Type} (o : LazyOps T E) (s : LazySegmentTree T E)
    (idx : Nat) : LazySegmentTree T E :=
  if idx ≥ s.n then s
  else
    let lz1 := s.lazy.set (idx <<< 1) (o.h (s.lazy.getD (idx <<< 1) o.ei) (s.lazy.getD idx o.ei))
    { s with
      lazy := lz1.set ((idx <<< 1) + 1)
        (o.h (lz1.getD ((idx <<< 1) + 1) o.ei) (lz1.getD idx o.ei)) }

/-- Method `PropagateAndOperate(idx)`. -/
def LazySegmentTree.PropagateAndOperate {T E : Type} (o : LazyOps T E)
    (s : LazySegmentTree T E) (idx : Nat) : LazySegmentTree T E :=
  LazySegmentTree.Operate o (LazySegmentTree.Propagate o s idx) idx

/-- The loop of `LazyPropagateFromRoot`, the counter `i` running from its
first argument down to `1`:
`if ((idx>>i) == 0) continue; PropagateAndOperate(idx>>(i-1));
 PropagateAndOperate((idx>>(i-1))^1);`. -/
def lazyPropagateLoop {T E : Type} (o : LazyOps T E) (idx : Nat) :
    Nat → LazySegmentTree T E → LazySegmentTree T E
  | 0, s => s
  | i + 1, s =>
    if idx >>> (i + 1) = 0 then lazyPropagateLoop o idx i s
    else
      lazyPropagateLoop o idx i
        (LazySegmentTree.PropagateAndOperate o
          (LazySegmentTree.PropagateAndOperate o s (idx >>> i)) ((idx >>> i) ^^^ 1))

/-- Method `LazyPropagateFromRoot(idx)`. -/
def LazySegmentTree.LazyPropagateFromRoot {T E : Type} (o : LazyOps T E)
    (s : LazySegmentTree T E) (idx : Nat) : LazySegmentTree T E :=
  lazyPropagateLoop o idx intDigits (LazySegmentTree.PropagateAndOperate o s 1)

/-- The loop of `DataPropagateFromLeaf`:
`for (; idx >= 1; idx >>= 1) if (idx != 1)
   data[idx>>1] = f(g(data[idx], lazy[idx]), g(data[idx^1], lazy[idx^1]));`. -/
def dataPropagateLoop {T E : Type} (o : LazyOps T E) :
    Nat → Nat → LazySegmentTree T E → Option (LazySegmentTree T E)
  | 0, idx, s => if 1 ≤ idx then none else some s
  | fuel + 1, idx, s =>
    if 1 ≤ idx then
      dataPropagateLoop o fuel (idx >>> 1)
        (if idx ≠ 1 then
          { s with
            data := s.data.set (idx >>> 1)
              (o.f (o.g (s.data.getD idx o.ti) (s.lazy.getD idx o.ei))
                (o.g (s.data.getD (idx ^^^ 1) o.ti) (s.lazy.getD (idx ^^^ 1) o.ei))) }
        else s)
    else some s

/-- Method `DataPropagateFromLeaf(idx)`. -/
def LazySegmentTree.DataPropagateFromLeaf {T E : Type} (o : LazyOps T E)
    (s : LazySegmentTree T E) (idx : Nat) : Option (LazySegmentTree T E) :=
  dataPropagateLoop o (2 * s.n) idx s

/-- Method `LazySegmentTree<T, E>::SetVal(idx, x)`: the leaf is written first,
then `LazyPropagateFromRoot` and `DataPropagateFromLeaf` run on it. -/
def LazySegmentTree.SetVal {T E : Type} (o : LazyOps T E) (s : LazySegmentTree T E)
    (idx : Int) (x : T) : Option (LazySegmentTree T E) :=
  if 0 ≤ idx ∧ idx < (s.n : Int) then
    LazySegmentTree.DataPropagateFromLeaf o
      (LazySegmentTree.LazyPropagateFromRoot o
        { s with data := s.data.set (s.n + idx.toNat) x } (s.n + idx.toNat))
      (s.n + idx.toNat)
  else none

/-- The two-pointer loop of `Update`:
`for (; l<=r; l>>=1, r>>=1) { if (l&1) { lazy[l] = h(lazy[l], x); l++; }
 if (!(r&1)) { lazy[r] = h(lazy[r], x); r--; } }`. -/
def updateLoop {E : Type} (h : E → E → E) (ei : E) (x : E) :
    Nat → Nat → Nat → List E → Option (List E)
  | 0, l, r, lz => if l ≤ r then none else some lz
  | fuel + 1, l, r, lz =>
    if l ≤ r then
      let lz1 := if l &&& 1 ≠ 0 then lz.set l (h (lz.getD l ei) x) else lz
      let l1 := if l &&& 1 ≠ 0 then l + 1 else l
      let lz2 := if r &&& 1 = 0 then lz1.set r (h (lz1.getD r ei) x) else lz1
      let r1 := if r &&& 1 = 0 then r - 1 else r
      updateLoop h ei x fuel (l1 >>> 1) (r1 >>> 1) lz2
    else some lz

/-- Method `LazySegmentTree<T, E>::Update(l, r, x)`. -/
def LazySegmentTree.Update {T E : Type} (o : LazyOps T E) (s : LazySegmentTree T E)
    (l r : Int) (x : E) : Option (LazySegmentTree T E) :=
  if ((0 ≤ l ∧ l < (s.n : Int)) ∧ (0 < r ∧ r ≤ (s.n : Int))) ∧ l < r then
    let l_ := l.toNat + s.n
    let r_ := r.toNat + (s.n - 1)
    let s1 := LazySegmentTree.LazyPropagateFromRoot o s l_
    let s2 := LazySegmentTree.LazyPropagateFromRoot o s1 r_
    (updateLoop o.h o.ei x (2 * s.n) l_ r_ s2.lazy).bind fun lz =>
      (LazySegmentTree.DataPropagateFromLeaf o { s2 with lazy := lz } l_).bind fun s4 =>
        LazySegmentTree.DataPropagateFromLeaf o s4 r_
  else none

/-- Method `LazySegmentTree<T, E>::Query(l, r)`: the returned value and the
state left behind by the two `LazyPropagateFromRoot` calls. -/
def LazySegmentTree.Query {T E : Type} (o : LazyOps T E) (s : LazySegmentTree T E)
    (l r : Int) : Option (T × LazySegmentTree T E) :=
  if ((0 ≤ l ∧ l < (s.n : Int)) ∧ (0 < r ∧ r ≤ (s.n : Int))) ∧ l < r then
    let l_ := l.toNat + s.n
    let r_ := r.toNat + (s.n - 1)
    let s1 := LazySegmentTree.LazyPropagateFromRoot o s l_
    let s2 := LazySegmentTree.LazyPropagateFromRoot o s1 r_
    (queryLoop o.f o.ti s2.data (2 * s.n) l_ r_ o.ti o.ti).map fun v => (v, s2)
  else none

/-! ## Specification vocabulary -/

/-- Fold of `f` over the `k` values `a l, a (l+1), ..., a (l+k-1)` in this
order, nested to the right with `ti` innermost. -/
def foldFrom {T : Type} (f : T → T → T) (ti : T) (a : Nat → T) : Nat → Nat → T
  | _, 0 => ti
  | l, k + 1 => f (a l) (foldFrom f ti a (l + 1) k)

/-- Fold of `f` over the half-open range `[l, r)` of `a`:
`f (a l) (f (a (l+1)) (... (f (a (r-1)) ti)))`. -/
def foldRange {T : Type} (f : T → T → T) (ti : T) (a : Nat → T) (l r : Nat) : T :=
  foldFrom f ti a l (r - l)

/-- The laws of a commutative monoid `(f, ti)`. -/
structure CommMonoidLaws {T : Type} (f : T → T → T) (ti : T) : Prop where
  assoc : ∀ a b c, f (f a b) c = f a (f b c)
  comm : ∀ a b, f a b = f b a
  right_id : ∀ a, f a ti = a

/-- The operator laws of the lazy tree: `f` is a commutative monoid with
identity `ti`, `h` is a monoid with identity `ei`, `g x ei = x`,
`g (g x e1) e2 = g x (h e1 e2)` and `g` distributes over `f`. -/
structure LazyLaws {T E : Type} (o : LazyOps T E) : Prop where
  f_laws : CommMonoidLaws o.f o.ti
  h_assoc : ∀ a b c, o.h (o.h a b) c = o.h a (o.h b c)
  h_left_id : ∀ e, o.h o.ei e = e
  h_right_id : ∀ e, o.h e o.ei = e
  g_id : ∀ x, o.g x o.ei = x
  g_comp : ∀ x e1 e2, o.g (o.g x e1) e2 = o.g x (o.h e1 e2)
  g_distrib : ∀ a b e, o.g (o.f a b) e = o.f (o.g a e) (o.g b e)

/-- The value `y` after the pending effects of node `i` and of all its
ancestors have been applied to it, from `i` upwards to the root. -/
def pendingUp {T E : Type} (g : T → E → T) (ei : E) (lz : List E) (i : Nat) (y : T) : T :=
  if i = 0 then y else pendingUp g ei lz (i / 2) (g y (lz.getD i ei))
termination_by i
decreasing_by omega

/-- The logical value of element `j` of a lazy tree: the stored leaf with
every pending effect on its root path applied. -/
def LazySegmentTree.leafValue {T E : Type} (o : LazyOps T E) (s : LazySegmentTree T E)
    (j : Nat) : T :=
  pendingUp o.g o.ei s.lazy (s.n + j) (s.data.getD (s.n + j) o.ti)

/-- The value that `Query(j, j+1)` returns in state `s` (`ti` if it fails). -/
def LazySegmentTree.elementAt {T E : Type} (o : LazyOps T E) (s : LazySegmentTree T E)
    (j : Nat) : T :=
  match LazySegmentTree.Query o s (j : Int) ((j : Int) + 1) with
  | some p => p.1
  | none => o.ti

/-- States of the plain tree reachable from the constructor by `SetVal`. -/
inductive SegmentTree.Reachable {T : Type} (o : Ops T) : SegmentTree T → Prop
  | construct (d : List T) (s : SegmentTree T) :
      SegmentTree.construct o d = some s → SegmentTree.Reachable o s
  | setVal (s s' : SegmentTree T) (idx : Int) (x : T) :
      SegmentTree.Reachable o s → SegmentTree.SetVal o s idx x = some s' →
      SegmentTree.Reachable o s'

/-- States of the lazy tree reachable from the constructor by the public
operations `SetVal`, `Update` and `Query`.  The input has at most `2^30`
elements, so that every node index `< 2n` fits in a 32-bit `int`. -/
inductive LazySegmentTree.Reachable {T E : Type} (o : LazyOps T E) :
    LazySegmentTree T E → Prop
  | construct (d : List T) (s : LazySegmentTree T E) :
      d.length ≤ 2 ^ 30 → LazySegmentTree.construct o d = some s →
      LazySegmentTree.Reachable o s
  | setVal (s s' : LazySegmentTree T E) (idx : Int) (x : T) :
      LazySegmentTree.Reachable o s → LazySegmentTree.SetVal o s idx x = some s' →
      LazySegmentTree.Reachable o s'
  | update (s s' : LazySegmentTree T E) (l r : Int) (x : E) :
      LazySegmentTree.Reachable o s → LazySegmentTree.Update o s l r x = some s' →
      LazySegmentTree.Reachable o s'
  | query (s s' : LazySegmentTree T E) (l r : Int) (v : T) :
      LazySegmentTree.Reachable o s → LazySegmentTree.Query o s l r = some (v, s') →
      LazySegmentTree.Reachable o s'

/-- The stored-aggregate invariant of the plain tree at node `i`. -/
def SegmentTree.InvAt {T : Type} (o : Ops T) (s : SegmentTree T) (i : Nat) : Prop :=
  s.data.getD i o.ti = o.f (s.data.getD (2 * i) o.ti) (s.data.getD (2 * i + 1) o.ti)

/-- The stored-aggregate invariant of the lazy tree at node `i`: the stored
value is the combination of the children's effective values. -/
def LazySegmentTree.InvAt {T E : Type} (o : LazyOps T E) (s : LazySegmentTree T E)
    (i : Nat) : Prop :=
  s.data.getD i o.ti =
    o.f (o.g (s.data.getD (2 * i) o.ti) (s.lazy.getD (2 * i) o.ei))
      (o.g (s.data.getD (2 * i + 1) o.ti) (s.lazy.getD (2 * i + 1) o.ei))

/-- Shape of a lazy tree: both arrays have `2n` entries and `n` is a power of
two not above `2^30`. -/
def LazySegmentTree.WF {T E : Type} (s : LazySegmentTree T E) : Prop :=
  s.data.length = 2 * s.n ∧ s.lazy.length = 2 * s.n ∧ ∃ k, k ≤ 30 ∧ s.n = 2 ^ k

/-- The nodes on the path from `a` to the root together with their siblings. -/
def NearPath (a i : Nat) : Prop :=
  ∃ k, (1 ≤ a >>> k ∧ i = a >>> k) ∨ (2 ≤ a >>> k ∧ i = (a >>> k) ^^^ 1)

/-- A set of nodes that contains the parent and the sibling of each of its
members other than the root. -/
structure ClosedSet (C : Nat → Prop) : Prop where
  parent : ∀ i, 2 ≤ i → C i → C (i / 2)
  sibling : ∀ i, 2 ≤ i → C i → C (i ^^^ 1)

/-- The left pointer of the walk is in the set or just right of a member. -/
def LeftOK (C : Nat → Prop) (l : Nat) : Prop := C l ∨ (2 ≤ l ∧ C (l - 1))

/-- The right pointer of the walk is in the set or just left of a member. -/
def RightOK (C : Nat → Prop) (r : Nat) : Prop := C r ∨ C (r + 1)


/-- Shape and stored-aggregate invariant of a plain tree. -/
def SegmentTree.Good {T : Type} (o : Ops T) (s : SegmentTree T) : Prop :=
  1 ≤ s.n ∧ s.data.length = 2 * s.n ∧ ∀ i, 1 ≤ i → i < s.n → SegmentTree.InvAt o s i

/-- The logical aggregate of node `i` of a lazy tree: the stored value with
the pending effects of `i` and of its ancestors applied. -/
def LazySegmentTree.nodeValue {T E : Type} (o : LazyOps T E) (s : LazySegmentTree T E)
    (i : Nat) : T :=
  pendingUp o.g o.ei s.lazy i (s.data.getD i o.ti)

/-- Shape and stored-aggregate invariant of a lazy tree. -/
def LazySegmentTree.Good {T E : Type} (o : LazyOps T E) (s : LazySegmentTree T E) : Prop :=
  LazySegmentTree.WF s ∧ ∀ i, 1 ≤ i → i < s.n → LazySegmentTree.InvAt o s i

/-- The assertion of the plain `Query`: `0 <= l < n`, `0 <= r < n`, `l < r`. -/
def SegmentTree.ValidRange {T : Type} (s : SegmentTree T) (l r : Int) : Prop :=
  ((0 ≤ l ∧ l < (s.n : Int)) ∧ (0 ≤ r ∧ r < (s.n : Int))) ∧ l < r

/-- The assertion of `Update` and of the lazy `Query`:
`0 <= l < n`, `0 < r <= n`, `l < r`. -/
def LazySegmentTree.ValidRange {T E : Type} (s : LazySegmentTree T E) (l r : Int) : Prop :=
  ((0 ≤ l ∧ l < (s.n : Int)) ∧ (0 < r ∧ r ≤ (s.n : Int))) ∧ l < r

/-! ## Instances of the tests -/

/-- The operators of `TEST(SEGTREE, rmq)` on the non-negative `int` values:
`f_min` with identity `INT_MAX`. -/
def rmqOps : Ops (Fin 2147483648) := ⟨fun a b => if a < b then a else b, 2147483647⟩

/-- The operators of `TEST(LAZYSEGTREE, rmq)` on the non-negative `int` values:
`f_min`, `g_min`, `h_min` with identities `INT_MAX`. -/
def lazyRmqOps : LazyOps (Fin 2147483648) (Fin 2147483648) :=
  ⟨fun a b => if a < b then a else b, fun a b => if b = 2147483647 then a else b,
   fun a b => if b = 2147483647 then a else b, 2147483647, 2147483647⟩

/-- The input vector of the tests. -/
def testInput : List (Fin 2147483648) := [3, 4, 2, 0, 1, 9, 4, 8, 3, 3]

/-- The plain tree built from `[3, 4, 2, 0]` with `rmqOps`. -/
def rmqTree : SegmentTree (Fin 2147483648) :=
  ⟨[2147483647, 0, 3, 0, 3, 4, 2, 0], 4⟩

/-- The lazy tree built from `[3, 4, 2, 0]` with `lazyRmqOps`. -/
def lazyRmqTree : LazySegmentTree (Fin 2147483648) (Fin 2147483648) :=
  ⟨[2147483647, 0, 3, 0, 3, 4, 2, 0], List.replicate 8 2147483647, 4⟩

/-- A monoid that is not commutative: lists under concatenation, with an
effect type that has a single value. -/
def concatOps : LazyOps (List Nat) Unit :=
  ⟨fun a b => a ++ b, fun a _ => a, fun _ _ => (), [], ()⟩

instance {T : Type} (s : SegmentTree T) (l r : Int) :
    Decidable (SegmentTree.ValidRange s l r) :=
  inferInstanceAs (Decidable (((0 ≤ l ∧ l < (s.n : Int)) ∧ (0 ≤ r ∧ r < (s.n : Int))) ∧ l < r))

instance {T E : Type} (s : LazySegmentTree T E) (l r : Int) :
    Decidable (LazySegmentTree.ValidRange s l r) :=
  inferInstanceAs (Decidable (((0 ≤ l ∧ l < (s.n : Int)) ∧ (0 < r ∧ r ≤ (s.n : Int))) ∧ l < r))

/-! ## The variant of `LazyPropagateFromRoot` with an exact loop bound -/

/-- The loop of the variant described by the specification, the counter `i`
running from its first argument down to `1` with no skip test:
`PropagateAndOperate(idx>>(i-1)); PropagateAndOperate((idx>>(i-1))^1);`. -/
def lazyPropagateLoopExact {T E : Type} (o : LazyOps T E) (idx : Nat) :
    Nat → LazySegmentTree T E → LazySegmentTree T E
  | 0, s => s
  | i + 1, s =>
    lazyPropagateLoopExact o idx i
      (LazySegmentTree.PropagateAndOperate o
        (LazySegmentTree.PropagateAndOperate o s (idx >>> i)) ((idx >>> i) ^^^ 1))

/-- The variant of `LazyPropagateFromRoot(idx)` whose loop counter starts at
`log2(n)` instead of the bit width of `int`. -/
def LazySegmentTree.LazyPropagateFromRootExact {T E : Type} (o : LazyOps T E)
    (s : LazySegmentTree T E) (idx : Nat) : LazySegmentTree T E :=
  lazyPropagateLoopExact o idx (Nat.log2 s.n) (LazySegmentTree.PropagateAndOperate o s 1)

/-- A tree of size `2` over lists with one element in each leaf. -/
def concatTree : LazySegmentTree (List Nat) Unit :=
  ⟨[[], [0, 1], [0], [1]], [(), (), (), ()], 2⟩

/-- A lazy tree of size `4` with pending effects at the nodes `1`, `2`, `4`,
`6` and `7`. -/
def pendingTree : LazySegmentTree (Fin 2147483648) (Fin 2147483648) :=
  ⟨[2147483647, 0, 3, 0, 3, 4, 2, 0], [2147483647, 7, 5, 2147483647, 1, 2147483647, 2, 3], 4⟩

/-! ## Indices used by the lazy operations

The control flow of the lazy tree depends on `n` and on the index arguments
only, never on the contents of the arrays.  The functions below follow the
methods statement by statement and list, in program order, the index of
every read and write of `data` and `lazy`. -/

/-- Indices used by `Operate(idx)`:
`data[idx] = g(data[idx], lazy[idx]); lazy[idx] = ei;`. -/
def operateAccess (idx : Nat) : List Nat := [idx, idx, idx, idx]

/-- Indices used by `Propagate(idx)`: none when `idx >= n`, else those of
`lazy[idx<<1] = h(lazy[idx<<1], lazy[idx]);
 lazy[(idx<<1)+1] = h(lazy[(idx<<1)+1], lazy[idx]);`. -/
def propagateAccess (n idx : Nat) : List Nat :=
  if idx ≥ n then []
  else [idx <<< 1, idx <<< 1, idx, (idx <<< 1) + 1, (idx <<< 1) + 1, idx]

/-- Indices used by `PropagateAndOperate(idx)`. -/
def propagateAndOperateAccess (n idx : Nat) : List Nat :=
  propagateAccess n idx ++ operateAccess idx

/-- Indices used by the loop of `LazyPropagateFromRoot`, the counter running
from the last argument down to `1`. -/
def lazyPropagateLoopAccess (n idx : Nat) : Nat → List Nat
  | 0 => []
  | i + 1 =>
    if idx >>> (i + 1) = 0 then lazyPropagateLoopAccess n idx i
    else
      propagateAndOperateAccess n (idx >>> i) ++
        propagateAndOperateAccess n ((idx >>> i) ^^^ 1) ++ lazyPropagateLoopAccess n idx i

/-- Indices used by `LazyPropagateFromRoot(idx)`. -/
def lazyPropagateFromRootAccess (n idx : Nat) : List Nat :=
  propagateAndOperateAccess n 1 ++ lazyPropagateLoopAccess n idx intDigits

/-- Indices used by the loop of `DataPropagateFromLeaf`:
`data[idx>>1] = f(g(data[idx], lazy[idx]), g(data[idx^1], lazy[idx^1]));`
when `idx != 1`. -/
def dataPropagateLoopAccess : Nat → Nat → Option (List Nat)
  | 0, idx => if 1 ≤ idx then none else some []
  | fuel + 1, idx =>
    if 1 ≤ idx then
      (dataPropagateLoopAccess fuel (idx >>> 1)).map fun t =>
        (if idx ≠ 1 then [idx >>> 1, idx, idx, idx ^^^ 1, idx ^^^ 1] else []) ++ t
    else some []

/-- Indices used by the two-pointer loop of `Update` and `Query`: `l` when
`l & 1`, then `r` when `!(r & 1)`, in every iteration. -/
def walkAccess : Nat → Nat → Nat → Option (List Nat)
  | 0, l, r => if l ≤ r then none else some []
  | fuel + 1, l, r =>
    if l ≤ r then
      (walkAccess fuel ((if l &&& 1 ≠ 0 then l + 1 else l) >>> 1)
        ((if r &&& 1 = 0 then r - 1 else r) >>> 1)).map fun t =>
        (if l &&& 1 ≠ 0 then [l] else []) ++ (if r &&& 1 = 0 then [r] else []) ++ t
    else some []

/-- Indices used by the lazy `SetVal(idx, x)` on a tree of size `n`. -/
def setValAccess (n : Nat) (idx : Int) : Option (List Nat) :=
  if 0 ≤ idx ∧ idx < (n : Int) then
    (dataPropagateLoopAccess (2 * n) (n + idx.toNat)).map fun t =>
      [n + idx.toNat] ++ lazyPropagateFromRootAccess n (n + idx.toNat) ++ t
  else none

/-- Indices used by `Update(l, r, x)` on a tree of size `n`. -/
def updateAccess (n : Nat) (l r : Int) : Option (List Nat) :=
  if ((0 ≤ l ∧ l < (n : Int)) ∧ (0 < r ∧ r ≤ (n : Int))) ∧ l < r then
    (walkAccess (2 * n) (l.toNat + n) (r.toNat + (n - 1))).bind fun w =>
      (dataPropagateLoopAccess (2 * n) (l.toNat + n)).bind fun t1 =>
        (dataPropagateLoopAccess (2 * n) (r.toNat + (n - 1))).map fun t2 =>
          lazyPropagateFromRootAccess n (l.toNat + n) ++
            lazyPropagateFromRootAccess n (r.toNat + (n - 1)) ++ w ++ t1 ++ t2
  else none

/-- Indices used by the lazy `Query(l, r)` on a tree of size `n`. -/
def queryAccess (n : Nat) (l r : Int) : Option (List Nat) :=
  if ((0 ≤ l ∧ l < (n : Int)) ∧ (0 < r ∧ r ≤ (n : Int))) ∧ l < r then
    (walkAccess (2 * n) (l.toNat + n) (r.toNat + (n - 1))).map fun w =>
      lazyPropagateFromRootAccess n (l.toNat + n) ++
        lazyPropagateFromRootAccess n (r.toNat + (n - 1)) ++ w
  else none

/-! ## The range-add / range-sum scenario -/

/-- The operators of `TEST(LAZYSEGTREE, rsq)` over unbounded integers, a value
being a pair `(val, cnt)`: `f_sum`, `g_sum`, `h_sum`, `ti = T(0, 1)`,
`ei = 0`. -/
def rsqOps : LazyOps (Int × Int) Int :=
  ⟨fun a b => (a.1 + b.1, a.2 + b.2), fun a b => (a.1 + a.2 * b, a.2), fun a b => a + b,
   (0, 1), 0⟩

/-- The operators `rsqOps` with the identity `(0, 0)` of `f_sum` in the place
of `ti`. -/
def rsqOps0 : LazyOps (Int × Int) Int :=
  ⟨rsqOps.f, rsqOps.g, rsqOps.h, (0, 0), rsqOps.ei⟩

/-- A call of the scenario: `SetVal(i, T(x, 1))`, `Update(l, r, e)` or
`Query(l, r)`. -/
inductive RsqCall where
  | setVal (i : Int) (x : Int)
  | update (l r : Int) (e : Int)
  | query (l r : Int)

/-- Whether the call is a `SetVal`. -/
def RsqCall.isSetVal : RsqCall → Bool
  | RsqCall.setVal _ _ => true
  | _ => false

/-- The assertion of the call on a tree of size `n`. -/
def RsqCall.valid (n : Nat) : RsqCall → Prop
  | RsqCall.setVal i _ => 0 ≤ i ∧ i < (n : Int)
  | RsqCall.update l r _ => ((0 ≤ l ∧ l < (n : Int)) ∧ (0 < r ∧ r ≤ (n : Int))) ∧ l < r
  | RsqCall.query l r => ((0 ≤ l ∧ l < (n : Int)) ∧ (0 < r ∧ r ≤ (n : Int))) ∧ l < r

instance (n : Nat) : (c : RsqCall) → Decidable (RsqCall.valid n c)
  | RsqCall.setVal i _ => inferInstanceAs (Decidable (0 ≤ i ∧ i < (n : Int)))
  | RsqCall.update l r _ =>
    inferInstanceAs (Decidable (((0 ≤ l ∧ l < (n : Int)) ∧ (0 < r ∧ r ≤ (n : Int))) ∧ l < r))
  | RsqCall.query l r =>
    inferInstanceAs (Decidable (((0 ≤ l ∧ l < (n : Int)) ∧ (0 < r ∧ r ≤ (n : Int))) ∧ l < r))

/-- Runs the calls on the lazy tree and collects the `val` component of the
result of each `Query`; `none` when an assertion fails. -/
def runRsq : LazySegmentTree (Int × Int) Int → List RsqCall → Option (List Int)
  | _, [] => some []
  | s, RsqCall.setVal i x :: cs =>
    (LazySegmentTree.SetVal rsqOps s i (x, 1)).bind fun s' => runRsq s' cs
  | s, RsqCall.update l r e :: cs =>
    (LazySegmentTree.Update rsqOps s l r e).bind fun s' => runRsq s' cs
  | s, RsqCall.query l r :: cs =>
    (LazySegmentTree.Query rsqOps s l r).bind fun p => (runRsq p.2 cs).map fun t => p.1.1 :: t

/-- The same calls on a plain array `a`, given as a function of the index:
a point write, an addition on `[l, r)`, and the sum over `[l, r)`. -/
def runNaive : (Nat → Int) → List RsqCall → List Int
  | _, [] => []
  | a, RsqCall.setVal i x :: cs => runNaive (fun j => if (j : Int) = i then x else a j) cs
  | a, RsqCall.update l r e :: cs =>
    runNaive (fun j => if l ≤ (j : Int) ∧ (j : Int) < r then a j + e else a j) cs
  | a, RsqCall.query l r :: cs =>
    ((List.range' l.toNat (r.toNat - l.toNat)).map a).sum :: runNaive a cs

/-- The tree `s` of size `n` represents the array `a` with count `1` in every
element. -/
def RsqSim (n : Nat) (s : LazySegmentTree (Int × Int) Int) (a : Nat → Int) : Prop :=
  LazySegmentTree.Good rsqOps0 s ∧ s.n = n ∧
    ∀ j, j < n → LazySegmentTree.leafValue rsqOps0 s j = (a j, 1)

/-- The input vector of the tests, as unbounded integers. -/
def testInputInt : List Int := [3, 4, 2, 0, 1, 9, 4, 8, 3, 3]
/-! ## Arithmetic of node indices -/

theorem shl_one (x : Nat) : x <<< 1 = 2 * x := by
  rw [Nat.shiftLeft_eq]; omega

theorem shr_one (x : Nat) : x >>> 1 = x / 2 := by
  rw [Nat.shiftRight_eq_div_pow]

theorem and_one (x : Nat) : x &&& 1 = x % 2 := Nat.and_one_is_mod x

theorem xor_one (x : Nat) : x ^^^ 1 = if x % 2 = 0 then x + 1 else x - 1 := by
  apply Nat.eq_of_testBit_eq
  intro i
  rw [Nat.testBit_xor]
  cases i with
  | zero =>
    split <;> rename_i h
    · have h2 : (x + 1) % 2 = 1 := by omega
      simp [Nat.testBit_zero, h, h2]
    · have h1 : x % 2 = 1 := by omega
      have h2 : (x - 1) % 2 = 0 := by omega
      simp [Nat.testBit_zero, h1, h2]
  | succ i =>
    have h1 : Nat.testBit 1 (i + 1) = false := by
      rw [Nat.testBit_succ]; simp
    rw [h1, Bool.xor_false]
    split <;> rename_i h
    · rw [Nat.testBit_succ, Nat.testBit_succ]
      have : (x + 1) / 2 = x / 2 := by omega
      rw [this]
    · rw [Nat.testBit_succ, Nat.testBit_succ]
      have : (x - 1) / 2 = x / 2 := by omega
      rw [this]

theorem shr_succ (x k : Nat) : x >>> (k + 1) = (x >>> k) / 2 := by
  rw [Nat.shiftRight_succ]

theorem shr_succ_left (x k : Nat) : x >>> (k + 1) = (x / 2) >>> k := by
  rw [Nat.add_comm, Nat.shiftRight_add, shr_one]

theorem shr_le (x k : Nat) : x >>> k ≤ x := by
  rw [Nat.shiftRight_eq_div_pow]; exact Nat.div_le_self _ _

/-! ## Lists as arrays -/

theorem getD_set_eq {α : Type} (l : List α) (i : Nat) (v d : α) (h : i < l.length) :
    (l.set i v).getD i d = v := by
  simp [List.getD_eq_getElem?_getD, List.getElem?_set_self h]

theorem getD_set_ne {α : Type} (l : List α) (i j : Nat) (v d : α) (h : i ≠ j) :
    (l.set i v).getD j d = l.getD j d := by
  simp [List.getD_eq_getElem?_getD, List.getElem?_set_ne h]

theorem getD_set {α : Type} (l : List α) (i j : Nat) (v d : α) (h : i < l.length) :
    (l.set i v).getD j d = if j = i then v else l.getD j d := by
  split
  · rename_i e; subst e; exact getD_set_eq l j v d h
  · rename_i e; exact getD_set_ne l i j v d (fun c => e c.symm)

theorem getD_replicate {α : Type} (n i : Nat) (v : α) : (List.replicate n v).getD i v = v := by
  rw [List.getD_eq_getElem?_getD]
  by_cases h : i < n
  · simp [List.getElem?_replicate, h]
  · simp [List.getElem?_replicate, h]

/-! ## Folds over index ranges -/

theorem left_id {T : Type} {f : T → T → T} {ti : T} (m : CommMonoidLaws f ti) (a : T) :
    f ti a = a := by
  rw [m.comm]; exact m.right_id a

theorem foldFrom_congr {T : Type} (f : T → T → T) (ti : T) (a b : Nat → T) (k l : Nat)
    (hab : ∀ i, l ≤ i → i < l + k → a i = b i) : foldFrom f ti a l k = foldFrom f ti b l k := by
  induction k generalizing l with
  | zero => rfl
  | succ k ih =>
    simp only [foldFrom]
    rw [hab l (Nat.le_refl _) (by omega), ih (l + 1) (fun i h1 h2 => hab i (by omega) (by omega))]

theorem foldFrom_append {T : Type} {f : T → T → T} {ti : T} (m : CommMonoidLaws f ti)
    (a : Nat → T) (j k l : Nat) :
    foldFrom f ti a l (j + k) = f (foldFrom f ti a l j) (foldFrom f ti a (l + j) k) := by
  induction j generalizing l with
  | zero => simp [foldFrom, left_id m]
  | succ j ih =>
    have e : j + 1 + k = (j + k) + 1 := by omega
    rw [e]
    simp only [foldFrom]
    rw [ih (l + 1), m.assoc]
    have e2 : l + 1 + j = l + (j + 1) := by omega
    rw [e2]

theorem foldFrom_one {T : Type} {f : T → T → T} {ti : T} (m : CommMonoidLaws f ti)
    (a : Nat → T) (l : Nat) : foldFrom f ti a l 1 = a l := by
  simp [foldFrom, m.right_id]

theorem foldFrom_snoc {T : Type} {f : T → T → T} {ti : T} (m : CommMonoidLaws f ti)
    (a : Nat → T) (k l : Nat) :
    foldFrom f ti a l (k + 1) = f (foldFrom f ti a l k) (a (l + k)) := by
  rw [foldFrom_append m, foldFrom_one m]

theorem foldFrom_pair {T : Type} {f : T → T → T} {ti : T} (m : CommMonoidLaws f ti)
    (V : Nat → T) (k x : Nat)
    (hV : ∀ i, x ≤ i → i < x + k → V i = f (V (2 * i)) (V (2 * i + 1))) :
    foldFrom f ti V (2 * x) (2 * k) = foldFrom f ti V x k := by
  induction k generalizing x with
  | zero => rfl
  | succ k ih =>
    have e : 2 * (k + 1) = (2 * k + 1) + 1 := by omega
    rw [e]
    simp only [foldFrom]
    rw [hV x (Nat.le_refl _) (by omega), m.assoc]
    have e2 : 2 * x + 1 + 1 = 2 * (x + 1) := by omega
    rw [e2, ih (x + 1) (fun i h1 h2 => hV i (by omega) (by omega))]

theorem foldFrom_shift {T : Type} (f : T → T → T) (ti : T) (a : Nat → T) (c k l : Nat) :
    foldFrom f ti (fun p => a (p + c)) l k = foldFrom f ti a (l + c) k := by
  induction k generalizing l with
  | zero => rfl
  | succ k ih =>
    simp only [foldFrom]
    rw [ih (l + 1)]
    have e : l + 1 + c = l + c + 1 := by omega
    rw [e]

/-! ## The two-pointer walk -/

theorem leftOK_odd {C : Nat → Prop} (hC : ClosedSet C) {l : Nat} (h : LeftOK C l)
    (hodd : l % 2 = 1) : C l := by
  rcases h with h | ⟨h2, h⟩
  · exact h
  · have := hC.sibling (l - 1) (by omega) h
    have hx : (l - 1) % 2 = 0 := by omega
    rw [xor_one, if_pos hx] at this
    have e : l - 1 + 1 = l := by omega
    rwa [e] at this

theorem rightOK_even {C : Nat → Prop} (hC : ClosedSet C) {r : Nat} (h1 : 1 ≤ r)
    (h : RightOK C r) (heven : r % 2 = 0) : C r := by
  rcases h with h | h
  · exact h
  · have := hC.sibling (r + 1) (by omega) h
    have hx : ¬ (r + 1) % 2 = 0 := by omega
    rw [xor_one, if_neg hx] at this
    simpa using this

theorem leftOK_next {C : Nat → Prop} (hC : ClosedSet C) {l : Nat} (h1 : 1 ≤ l)
    (h : LeftOK C l) : LeftOK C ((if l % 2 = 1 then l + 1 else l) / 2) := by
  by_cases hodd : l % 2 = 1
  · rw [if_pos hodd]
    have hl := leftOK_odd hC h hodd
    by_cases h3 : l = 1
    · subst h3; left; exact hl
    · right
      refine ⟨by omega, ?_⟩
      have := hC.parent l (by omega) hl
      have e : (l + 1) / 2 - 1 = l / 2 := by omega
      rwa [e]
  · rw [if_neg hodd]
    rcases h with h | ⟨h2, h⟩
    · left; exact hC.parent l (by omega) h
    · by_cases h3 : l = 2
      · subst h3; left; exact h
      · right
        refine ⟨by omega, ?_⟩
        have := hC.parent (l - 1) (by omega) h
        have e : l / 2 - 1 = (l - 1) / 2 := by omega
        rwa [e]

theorem rightOK_next {C : Nat → Prop} (hC : ClosedSet C) {r : Nat} (h1 : 1 ≤ r)
    (h : RightOK C r) : RightOK C ((if r % 2 = 0 then r - 1 else r) / 2) := by
  by_cases hev : r % 2 = 0
  · rw [if_pos hev]
    have hr := rightOK_even hC h1 h hev
    right
    have := hC.parent r (by omega) hr
    have e : (r - 1) / 2 + 1 = r / 2 := by omega
    rwa [e]
  · rw [if_neg hev]
    rcases h with h | h
    · by_cases h3 : r = 1
      · subst h3; right; exact h
      · left; exact hC.parent r (by omega) h
    · right
      have := hC.parent (r + 1) (by omega) h
      have e : r / 2 + 1 = (r + 1) / 2 := by omega
      rwa [e]

theorem closedSet_univ : ClosedSet (fun _ => True) := ⟨fun _ _ _ => trivial, fun _ _ _ => trivial⟩

theorem queryLoop_succ {T : Type} (f : T → T → T) (ti : T) (data : List T)
    (fuel l r : Nat) (vl vr : T) :
    queryLoop f ti data (fuel + 1) l r vl vr =
      if l ≤ r then
        queryLoop f ti data fuel ((if l % 2 = 1 then l + 1 else l) / 2)
          ((if r % 2 = 0 then r - 1 else r) / 2)
          (if l % 2 = 1 then f vl (data.getD l ti) else vl)
          (if r % 2 = 0 then f vr (data.getD r ti) else vr)
      else some (f vl vr) := by
  have e : (l % 2 ≠ 0) = (l % 2 = 1) := by
    apply propext; omega
  simp only [queryLoop, and_one, shr_one, e]

theorem foldFrom_succ {T : Type} (f : T → T → T) (ti : T) (a : Nat → T) (l k : Nat) :
    foldFrom f ti a l (k + 1) = f (a l) (foldFrom f ti a (l + 1) k) := rfl

theorem foldRange_empty {T : Type} (f : T → T → T) (ti : T) (a : Nat → T) (l r : Nat)
    (h : r ≤ l) : foldRange f ti a l r = ti := by
  have e : r - l = 0 := by omega
  simp [foldRange, e, foldFrom]

/-- One level of the walk: the fold over the nodes `l..r` of a level is the
node `l` when it is a right child, the fold over the parents of the remaining
nodes, and the node `r` when it is a left child. -/
theorem foldRange_level {T : Type} {f : T → T → T} {ti : T} (m : CommMonoidLaws f ti)
    (V : Nat → T) (n l r : Nat)
    (hV : ∀ i, 1 ≤ i → i < n → V i = f (V (2 * i)) (V (2 * i + 1)))
    (hl1 : 1 ≤ l) (hlr : l ≤ r) (hr : r < 2 * n) :
    foldRange f ti V l (r + 1) =
      f (if l % 2 = 1 then V l else ti)
        (f (foldRange f ti V ((if l % 2 = 1 then l + 1 else l) / 2)
              ((if r % 2 = 0 then r - 1 else r) / 2 + 1))
           (if r % 2 = 0 then V r else ti)) := by
  -- the remaining nodes form the even-aligned block `[2a, 2b)`
  have key : ∀ a b, 1 ≤ a → a ≤ b → b ≤ n →
      foldFrom f ti V (2 * a) (2 * b - 2 * a) = foldFrom f ti V a (b - a) := by
    intro a b ha hab hb
    have e : 2 * b - 2 * a = 2 * (b - a) := by omega
    rw [e]
    exact foldFrom_pair m V (b - a) a (fun i h1 h2 => hV i (by omega) (by omega))
  unfold foldRange
  by_cases hlo : l % 2 = 1 <;> by_cases hre : r % 2 = 0
  · -- l odd, r even
    rw [if_pos hlo, if_pos hlo, if_pos hre, if_pos hre]
    obtain ⟨a, ha⟩ : ∃ a, l + 1 = 2 * a := ⟨(l + 1) / 2, by omega⟩
    obtain ⟨b, hb⟩ : ∃ b, r = 2 * b := ⟨r / 2, by omega⟩
    have e1 : r + 1 - l = (2 * b - 2 * a) + 1 + 1 := by omega
    have e2 : (l + 1) / 2 = a := by omega
    have e3 : (r - 1) / 2 + 1 - a = b - a := by omega
    rw [e1, e2, e3, foldFrom_succ, foldFrom_snoc m, ha, key a b (by omega) (by omega) (by omega)]
    have e4 : 2 * a + (2 * b - 2 * a) = r := by omega
    rw [e4]
  · -- l odd, r odd
    rw [if_pos hlo, if_pos hlo, if_neg hre, if_neg hre]
    obtain ⟨a, ha⟩ : ∃ a, l + 1 = 2 * a := ⟨(l + 1) / 2, by omega⟩
    obtain ⟨b, hb⟩ : ∃ b, r + 1 = 2 * b := ⟨(r + 1) / 2, by omega⟩
    have e1 : r + 1 - l = (2 * b - 2 * a) + 1 := by omega
    have e2 : (l + 1) / 2 = a := by omega
    have e3 : r / 2 + 1 - a = b - a := by omega
    rw [e1, e2, e3, foldFrom_succ, ha, key a b (by omega) (by omega) (by omega), m.right_id]
  · -- l even, r even
    rw [if_neg hlo, if_neg hlo, if_pos hre, if_pos hre]
    obtain ⟨a, ha⟩ : ∃ a, l = 2 * a := ⟨l / 2, by omega⟩
    obtain ⟨b, hb⟩ : ∃ b, r = 2 * b := ⟨r / 2, by omega⟩
    have e1 : r + 1 - l = (2 * b - 2 * a) + 1 := by omega
    have e2 : l / 2 = a := by omega
    have e3 : (r - 1) / 2 + 1 - a = b - a := by omega
    rw [e1, e2, e3, foldFrom_snoc m, ha, key a b (by omega) (by omega) (by omega), left_id m]
    have e4 : 2 * a + (2 * b - 2 * a) = r := by omega
    rw [e4]
  · -- l even, r odd
    rw [if_neg hlo, if_neg hlo, if_neg hre, if_neg hre]
    obtain ⟨a, ha⟩ : ∃ a, l = 2 * a := ⟨l / 2, by omega⟩
    obtain ⟨b, hb⟩ : ∃ b, r + 1 = 2 * b := ⟨(r + 1) / 2, by omega⟩
    have e1 : r + 1 - l = 2 * b - 2 * a := by omega
    have e2 : l / 2 = a := by omega
    have e3 : r / 2 + 1 - a = b - a := by omega
    rw [e1, e2, e3, ha, key a b (by omega) (by omega) (by omega), left_id m, m.right_id]

/-- The two-pointer loop returns the fold over the nodes `l..r` of the
current level, combined with the accumulators, whenever every node it reads
holds its aggregate `V`.  Fuel above `r` is enough. -/
theorem queryLoop_spec {T : Type} {f : T → T → T} {ti : T} (m : CommMonoidLaws f ti)
    (data : List T) (V : Nat → T) (n : Nat) (C : Nat → Prop) (hC : ClosedSet C)
    (hV : ∀ i, 1 ≤ i → i < n → V i = f (V (2 * i)) (V (2 * i + 1)))
    (hD : ∀ i, C i → data.getD i ti = V i)
    (fuel l r : Nat) (vl vr : T) (hl1 : 1 ≤ l) (hr : r < 2 * n) (hfuel : r < fuel)
    (hL : LeftOK C l) (hR : RightOK C r) :
    queryLoop f ti data fuel l r vl vr = some (f vl (f (foldRange f ti V l (r + 1)) vr)) := by
  induction fuel generalizing l r vl vr with
  | zero => omega
  | succ fuel ih =>
    rw [queryLoop_succ]
    by_cases hlr : l ≤ r
    · rw [if_pos hlr]
      rw [ih _ _ _ _ (by split <;> omega) (by split <;> omega) (by split <;> omega)
        (leftOK_next hC hl1 hL) (rightOK_next hC (by omega) hR)]
      rw [foldRange_level m V n l r hV hl1 hlr hr]
      congr 1
      have hvl : (if l % 2 = 1 then f vl (data.getD l ti) else vl)
          = f vl (if l % 2 = 1 then V l else ti) := by
        split
        · rename_i h; rw [hD l (leftOK_odd hC hL h)]
        · rw [m.right_id]
      have hvr : (if r % 2 = 0 then f vr (data.getD r ti) else vr)
          = f vr (if r % 2 = 0 then V r else ti) := by
        split
        · rename_i h; rw [hD r (rightOK_even hC (by omega) hR h)]
        · rw [m.right_id]
      rw [hvl, hvr]
      generalize (if l % 2 = 1 then V l else ti) = X
      generalize (if r % 2 = 0 then V r else ti) = Y
      generalize foldRange f ti V ((if l % 2 = 1 then l + 1 else l) / 2)
        ((if r % 2 = 0 then r - 1 else r) / 2 + 1) = F
      rw [m.assoc, m.assoc, m.assoc]
      congr 2
      rw [m.comm vr Y]
    · rw [if_neg hlr, foldRange_empty f ti V l (r + 1) (by omega), left_id m]

/-! ## The constructors -/

theorem sizeLoop_spec (fuel n len : Nat) (hn : 1 ≤ n) (hf : len ≤ n + fuel) :
    ∃ m k, sizeLoop fuel n len = some m ∧ m = n * 2 ^ k ∧ len ≤ m ∧ (m = n ∨ m < 2 * len) := by
  induction fuel generalizing n with
  | zero =>
    refine ⟨n, 0, ?_, by simp, by omega, Or.inl rfl⟩
    simp only [sizeLoop]
    rw [if_neg (by omega)]
  | succ fuel ih =>
    simp only [sizeLoop, shl_one]
    by_cases h : n < len
    · rw [if_pos h]
      obtain ⟨m, k, h1, h2, h3, h4⟩ := ih (2 * n) (by omega) (by omega)
      refine ⟨m, k + 1, h1, ?_, h3, ?_⟩
      · rw [h2, pow_succ]; ring
      · right; omega
    · rw [if_neg h]
      exact ⟨n, 0, rfl, by simp, by omega, Or.inl rfl⟩

theorem copyLeaves_length {T : Type} (n : Nat) (xs : List T) (i : Nat) (data : List T) :
    (copyLeaves n xs i data).length = data.length := by
  induction xs generalizing i data with
  | nil => rfl
  | cons x xs ih => simp only [copyLeaves]; rw [ih]; simp

theorem copyLeaves_getD {T : Type} (n : Nat) (xs : List T) (i : Nat) (data : List T) (d : T)
    (hlen : n + i + xs.length ≤ data.length) (j : Nat) :
    (copyLeaves n xs i data).getD j d =
      if n + i ≤ j ∧ j < n + i + xs.length then xs.getD (j - (n + i)) d else data.getD j d := by
  induction xs generalizing i data with
  | nil =>
    simp only [copyLeaves, List.length_nil]
    rw [if_neg (by omega)]
  | cons x xs ih =>
    simp only [copyLeaves, List.length_cons] at *
    rw [ih (i + 1) (data.set (n + i) x) (by simp; omega)]
    by_cases hj : j = n + i
    · subst hj
      rw [if_neg (by omega), if_pos (by omega), getD_set_eq _ _ _ _ (by omega)]
      simp
    · rw [getD_set_ne _ _ _ _ _ (fun c => hj c.symm)]
      by_cases h2 : n + i ≤ j ∧ j < n + i + (xs.length + 1)
      · rw [if_pos (by omega), if_pos h2]
        obtain ⟨t, ht⟩ : ∃ t, j - (n + i) = t + 1 := ⟨j - (n + i) - 1, by omega⟩
        have e : j - (n + (i + 1)) = t := by omega
        rw [ht, e]
        simp
      · rw [if_neg (by omega), if_neg h2]

theorem fillUp_spec {T : Type} (o : Ops T) (k : Nat) (data : List T)
    (hk : 2 * k + 1 < data.length) :
    (fillUp o k data).length = data.length ∧
    (∀ j, k < j → (fillUp o k data).getD j o.ti = data.getD j o.ti) ∧
    (∀ j, 1 ≤ j → j ≤ k → (fillUp o k data).getD j o.ti =
      o.f ((fillUp o k data).getD (2 * j) o.ti) ((fillUp o k data).getD (2 * j + 1) o.ti)) := by
  induction k generalizing data with
  | zero =>
    refine ⟨rfl, fun j _ => rfl, fun j h1 h2 => by omega⟩
  | succ k ih =>
    simp only [fillUp, shl_one]
    obtain ⟨h1, h2, h3⟩ := ih (data.set (k + 1)
      (o.f (data.getD (2 * (k + 1)) o.ti) (data.getD (2 * (k + 1) + 1) o.ti)))
      (by simp; omega)
    refine ⟨by rw [h1]; simp, ?_, ?_⟩
    · intro j hj
      rw [h2 j (by omega), getD_set_ne _ _ _ _ _ (by omega)]
    · intro j hj1 hj2
      by_cases hj : j = k + 1
      · subst hj
        rw [h2 _ (by omega), h2 _ (by omega), h2 _ (by omega),
          getD_set_eq _ _ _ _ (by omega), getD_set_ne _ _ _ _ _ (by omega),
          getD_set_ne _ _ _ _ _ (by omega)]
      · exact h3 j hj1 (by omega)

/-- The array built by both constructors for the padded size `n`. -/
theorem built_data_spec {T : Type} (o : Ops T) (d : List T) (n : Nat) (hn : 1 ≤ n)
    (hlen : d.length ≤ n) :
    (fillUp o (n - 1) (copyLeaves n d 0 (List.replicate (2 * n) o.ti))).length = 2 * n ∧
    (∀ j, j < n → (fillUp o (n - 1) (copyLeaves n d 0 (List.replicate (2 * n) o.ti))).getD
        (n + j) o.ti = d.getD j o.ti) ∧
    (∀ i, 1 ≤ i → i < n →
      (fillUp o (n - 1) (copyLeaves n d 0 (List.replicate (2 * n) o.ti))).getD i o.ti =
        o.f ((fillUp o (n - 1) (copyLeaves n d 0 (List.replicate (2 * n) o.ti))).getD (2 * i) o.ti)
          ((fillUp o (n - 1) (copyLeaves n d 0 (List.replicate (2 * n) o.ti))).getD
            (2 * i + 1) o.ti)) := by
  have hcl : (copyLeaves n d 0 (List.replicate (2 * n) o.ti)).length = 2 * n := by
    rw [copyLeaves_length]; simp
  obtain ⟨h1, h2, h3⟩ := fillUp_spec o (n - 1) (copyLeaves n d 0 (List.replicate (2 * n) o.ti))
    (by rw [hcl]; omega)
  refine ⟨by rw [h1, hcl], ?_, fun i hi1 hi2 => h3 i hi1 (by omega)⟩
  intro j hj
  rw [h2 (n + j) (by omega), copyLeaves_getD n d 0 _ o.ti (by simp; omega)]
  by_cases hjd : j < d.length
  · rw [if_pos (by omega)]
    have e : n + j - (n + 0) = j := by omega
    rw [e]
  · rw [if_neg (by omega), getD_replicate]
    rw [List.getD_eq_getElem?_getD, List.getElem?_eq_none (by omega)]
    rfl

/-! ## Plain tree: construction, point update, query -/

theorem SegmentTree.plain_construct_spec {T : Type} (o : Ops T) (d : List T) :
    ∃ s, SegmentTree.construct o d = some s ∧ SegmentTree.Good o s ∧ d.length ≤ s.n ∧
      ∀ j, j < s.n → s.data.getD (s.n + j) o.ti = d.getD j o.ti := by
  obtain ⟨m, k, h1, h2, h3, _⟩ := sizeLoop_spec d.length 1 d.length (Nat.le_refl _) (by omega)
  have hm : 1 ≤ m := by rw [h2]; simpa using Nat.one_le_two_pow
  obtain ⟨b1, b2, b3⟩ := built_data_spec o d m hm h3
  refine ⟨_, by simp only [SegmentTree.construct, h1, Option.map_some']; rfl, ?_, h3, b2⟩
  exact ⟨hm, b1, b3⟩

theorem setValLoop_spec {T : Type} (o : Ops T) (n fuel i : Nat) (data : List T)
    (hi : i < n) (hlen : data.length = 2 * n) (hfuel : i < fuel)
    (hInv : ∀ j, 1 ≤ j → j < n → (∀ k, j ≠ i >>> k) → SegmentTree.InvAt o ⟨data, n⟩ j) :
    ∃ data', setValLoop o fuel i data = some data' ∧ data'.length = 2 * n ∧
      (∀ j, n ≤ j → data'.getD j o.ti = data.getD j o.ti) ∧
      ∀ j, 1 ≤ j → j < n → SegmentTree.InvAt o ⟨data', n⟩ j := by
  induction fuel generalizing i data with
  | zero => omega
  | succ fuel ih =>
    simp only [setValLoop, shl_one, shr_one]
    by_cases h0 : 0 < i
    · rw [if_pos h0]
      obtain ⟨data', e1, e2, e3, e4⟩ := ih (i / 2)
        (data.set i (o.f (data.getD (2 * i) o.ti) (data.getD (2 * i + 1) o.ti)))
        (by omega) (by simp [hlen]) (by omega) (by
          intro j hj1 hj2 hk
          have hji : j ≠ i / 2 := by simpa using hk 0
          by_cases hj : j = i
          · subst hj
            simp only [SegmentTree.InvAt]
            rw [getD_set_eq _ _ _ _ (by omega), getD_set_ne _ _ _ _ _ (by omega),
              getD_set_ne _ _ _ _ _ (by omega)]
          · have := hInv j hj1 hj2 (by
              intro k
              cases k with
              | zero => simpa using hj
              | succ k => rw [shr_succ_left]; exact hk k)
            simp only [SegmentTree.InvAt] at this ⊢
            rw [getD_set_ne _ _ _ _ _ (fun c => hj c.symm), getD_set_ne _ _ _ _ _ (by omega),
              getD_set_ne _ _ _ _ _ (by omega)]
            exact this)
      refine ⟨data', e1, e2, ?_, e4⟩
      intro j hj
      rw [e3 j hj, getD_set_ne _ _ _ _ _ (by omega)]
    · rw [if_neg h0]
      have hi0 : i = 0 := by omega
      subst hi0
      exact ⟨data, rfl, hlen, fun _ _ => rfl, fun j hj1 hj2 =>
        hInv j hj1 hj2 (fun k => by simp; omega)⟩

theorem SegmentTree.plain_SetVal_spec {T : Type} (o : Ops T) (s : SegmentTree T)
    (hs : SegmentTree.Good o s) (idx : Nat) (hidx : idx < s.n) (x : T) :
    ∃ s', SegmentTree.SetVal o s (idx : Int) x = some s' ∧ SegmentTree.Good o s' ∧
      s'.n = s.n ∧
      ∀ j, j < s.n → s'.data.getD (s.n + j) o.ti = if j = idx then x else
        s.data.getD (s.n + j) o.ti := by
  obtain ⟨hn, hlen, hinv⟩ := hs
  obtain ⟨data', e1, e2, e3, e4⟩ := setValLoop_spec o s.n (2 * s.n) ((s.n + idx) / 2)
    (s.data.set (s.n + idx) x) (by omega) (by simp [hlen]) (by omega) (by
      intro j hj1 hj2 hk
      have := hinv j hj1 hj2
      simp only [SegmentTree.InvAt] at this ⊢
      have hji : j ≠ (s.n + idx) / 2 := by simpa using hk 0
      rw [getD_set_ne _ _ _ _ _ (by omega), getD_set_ne _ _ _ _ _ (by omega),
        getD_set_ne _ _ _ _ _ (by omega)]
      exact this)
  refine ⟨⟨data', s.n⟩, ?_, ⟨hn, e2, e4⟩, rfl, ?_⟩
  · simp only [SegmentTree.SetVal]
    rw [if_pos (by omega)]
    simp only [Int.toNat_ofNat, shr_one, e1, Option.map_some']
  · intro j hj
    show data'.getD (s.n + j) o.ti = _
    rw [e3 _ (by omega)]
    by_cases h : j = idx
    · subst h; rw [if_pos rfl, getD_set_eq _ _ _ _ (by omega)]
    · rw [if_neg h, getD_set_ne _ _ _ _ _ (by omega)]

theorem SegmentTree.plain_Reachable_good {T : Type} (o : Ops T) (s : SegmentTree T)
    (h : SegmentTree.Reachable o s) : SegmentTree.Good o s := by
  induction h with
  | construct d s hd =>
    obtain ⟨s', e1, e2, _⟩ := SegmentTree.plain_construct_spec o d
    rw [hd] at e1
    cases e1
    exact e2
  | setVal s s' idx x _ hset ih =>
    by_cases hv : 0 ≤ idx ∧ idx < (s.n : Int)
    · obtain ⟨i, rfl⟩ := Int.eq_ofNat_of_zero_le hv.1
      obtain ⟨s'', e1, e2, _⟩ := SegmentTree.plain_SetVal_spec o s ih i (by omega) x
      rw [hset] at e1
      cases e1
      exact e2
    · simp [SegmentTree.SetVal, hv] at hset

/-- The plain `Query(l, r)` with `0 <= l < r < n` returns the fold of the
leaves `l, ..., r-1`. -/
theorem SegmentTree.plain_Query_spec {T : Type} (o : Ops T) (m : CommMonoidLaws o.f o.ti)
    (s : SegmentTree T) (hs : SegmentTree.Good o s) (l r : Nat) (hlr : l < r) (hr : r < s.n) :
    SegmentTree.Query o s (l : Int) (r : Int) =
      some (foldRange o.f o.ti (fun j => s.data.getD (s.n + j) o.ti) l r) := by
  obtain ⟨hn, hlen, hinv⟩ := hs
  simp only [SegmentTree.Query]
  rw [if_pos (by omega)]
  simp only [Int.toNat_ofNat]
  rw [queryLoop_spec m s.data (fun i => s.data.getD i o.ti) s.n (fun _ => True) closedSet_univ
    (fun i h1 h2 => hinv i h1 h2) (fun _ _ => rfl) _ _ _ _ _ (by omega) (by omega) (by omega)
    (Or.inl trivial) (Or.inl trivial)]
  rw [left_id m, m.right_id]
  unfold foldRange
  have e : r + (s.n - 1) + 1 - (l + s.n) = r - l := by omega
  rw [e, ← foldFrom_shift o.f o.ti (fun i => s.data.getD i o.ti) s.n (r - l) l]
  congr 1
  apply foldFrom_congr
  intro i _ _
  show s.data.getD (i + s.n) o.ti = s.data.getD (s.n + i) o.ti
  rw [Nat.add_comm]

/-! ## Lazy tree: `PropagateAndOperate` -/

theorem PAO_n {T E : Type} (o : LazyOps T E) (s : LazySegmentTree T E) (idx : Nat) :
    (LazySegmentTree.PropagateAndOperate o s idx).n = s.n := by
  simp only [LazySegmentTree.PropagateAndOperate, LazySegmentTree.Operate,
    LazySegmentTree.Propagate]
  split <;> rfl

theorem PAO_data_length {T E : Type} (o : LazyOps T E) (s : LazySegmentTree T E) (idx : Nat) :
    (LazySegmentTree.PropagateAndOperate o s idx).data.length = s.data.length := by
  simp only [LazySegmentTree.PropagateAndOperate, LazySegmentTree.Operate,
    LazySegmentTree.Propagate]
  split <;> simp

theorem PAO_lazy_length {T E : Type} (o : LazyOps T E) (s : LazySegmentTree T E) (idx : Nat) :
    (LazySegmentTree.PropagateAndOperate o s idx).lazy.length = s.lazy.length := by
  simp only [LazySegmentTree.PropagateAndOperate, LazySegmentTree.Operate,
    LazySegmentTree.Propagate]
  split <;> simp

theorem PAO_data {T E : Type} (o : LazyOps T E) (s : LazySegmentTree T E) (idx : Nat)
    (hd : s.data.length = 2 * s.n)
    (h1 : 1 ≤ idx) (h2 : idx < 2 * s.n) (j : Nat) :
    (LazySegmentTree.PropagateAndOperate o s idx).data.getD j o.ti =
      if j = idx then o.g (s.data.getD idx o.ti) (s.lazy.getD idx o.ei)
      else s.data.getD j o.ti := by
  simp only [LazySegmentTree.PropagateAndOperate, LazySegmentTree.Operate,
    LazySegmentTree.Propagate, shl_one]
  by_cases hn : idx ≥ s.n
  · rw [if_pos hn, getD_set _ _ _ _ _ (by omega)]
  · rw [if_neg hn]
    simp only
    rw [getD_set _ _ _ _ _ (by omega), getD_set_ne _ _ _ _ _ (by omega),
      getD_set_ne _ _ _ _ _ (by omega)]

theorem PAO_lazy {T E : Type} (o : LazyOps T E) (s : LazySegmentTree T E) (idx : Nat)
    (hl : s.lazy.length = 2 * s.n) (h1 : 1 ≤ idx) (h2 : idx < 2 * s.n) (j : Nat) :
    (LazySegmentTree.PropagateAndOperate o s idx).lazy.getD j o.ei =
      if j = idx then o.ei
      else if idx < s.n ∧ (j = 2 * idx ∨ j = 2 * idx + 1) then
        o.h (s.lazy.getD j o.ei) (s.lazy.getD idx o.ei)
      else s.lazy.getD j o.ei := by
  simp only [LazySegmentTree.PropagateAndOperate, LazySegmentTree.Operate,
    LazySegmentTree.Propagate, shl_one]
  by_cases hn : idx ≥ s.n
  · rw [if_pos hn, getD_set _ _ _ _ _ (by omega)]
    by_cases hj : j = idx
    · rw [if_pos hj, if_pos hj]
    · rw [if_neg hj, if_neg hj, if_neg (by omega)]
  · rw [if_neg hn]
    simp only
    rw [getD_set _ _ _ _ _ (by simp; omega)]
    by_cases hj : j = idx
    · rw [if_pos hj, if_pos hj]
    · rw [if_neg hj, if_neg hj, getD_set _ _ _ _ _ (by simp; omega)]
      by_cases hj1 : j = 2 * idx + 1
      · rw [if_pos hj1, if_pos (by omega), getD_set_ne _ _ _ _ _ (by omega),
          getD_set_ne _ _ _ _ _ (by omega), hj1]
      · rw [if_neg hj1, getD_set _ _ _ _ _ (by omega)]
        by_cases hj0 : j = 2 * idx
        · rw [if_pos hj0, if_pos (by omega), hj0]
        · rw [if_neg hj0, if_neg (by omega)]

theorem PAO_data_self {T E : Type} (o : LazyOps T E) (s : LazySegmentTree T E) (idx : Nat)
    (hd : s.data.length = 2 * s.n) (h1 : 1 ≤ idx) (h2 : idx < 2 * s.n) :
    (LazySegmentTree.PropagateAndOperate o s idx).data.getD idx o.ti =
      o.g (s.data.getD idx o.ti) (s.lazy.getD idx o.ei) := by
  rw [PAO_data o s idx hd h1 h2, if_pos rfl]

theorem PAO_data_other {T E : Type} (o : LazyOps T E) (s : LazySegmentTree T E) (idx : Nat)
    (hd : s.data.length = 2 * s.n) (h1 : 1 ≤ idx) (h2 : idx < 2 * s.n) (j : Nat)
    (hj : j ≠ idx) :
    (LazySegmentTree.PropagateAndOperate o s idx).data.getD j o.ti = s.data.getD j o.ti := by
  rw [PAO_data o s idx hd h1 h2, if_neg hj]

theorem PAO_lazy_self {T E : Type} (o : LazyOps T E) (s : LazySegmentTree T E) (idx : Nat)
    (hl : s.lazy.length = 2 * s.n) (h1 : 1 ≤ idx) (h2 : idx < 2 * s.n) :
    (LazySegmentTree.PropagateAndOperate o s idx).lazy.getD idx o.ei = o.ei := by
  rw [PAO_lazy o s idx hl h1 h2, if_pos rfl]

theorem PAO_lazy_child {T E : Type} (o : LazyOps T E) (s : LazySegmentTree T E) (idx : Nat)
    (hl : s.lazy.length = 2 * s.n) (h1 : 1 ≤ idx) (hn : idx < s.n) (j : Nat)
    (hj : j = 2 * idx ∨ j = 2 * idx + 1) :
    (LazySegmentTree.PropagateAndOperate o s idx).lazy.getD j o.ei =
      o.h (s.lazy.getD j o.ei) (s.lazy.getD idx o.ei) := by
  rw [PAO_lazy o s idx hl h1 (by omega), if_neg (by omega), if_pos ⟨hn, hj⟩]

theorem PAO_lazy_other {T E : Type} (o : LazyOps T E) (s : LazySegmentTree T E) (idx : Nat)
    (hl : s.lazy.length = 2 * s.n) (h1 : 1 ≤ idx) (h2 : idx < 2 * s.n) (j : Nat)
    (hj : j ≠ idx) (hc : ¬ (idx < s.n ∧ (j = 2 * idx ∨ j = 2 * idx + 1))) :
    (LazySegmentTree.PropagateAndOperate o s idx).lazy.getD j o.ei = s.lazy.getD j o.ei := by
  rw [PAO_lazy o s idx hl h1 h2, if_neg hj, if_neg hc]

/-- `PropagateAndOperate` keeps the stored-aggregate invariant of every
internal node. -/
theorem PAO_invAt {T E : Type} (o : LazyOps T E) (laws : LazyLaws o)
    (s : LazySegmentTree T E) (idx : Nat)
    (hd : s.data.length = 2 * s.n) (hl : s.lazy.length = 2 * s.n)
    (h1 : 1 ≤ idx) (h2 : idx < 2 * s.n) (j : Nat) (hj : 1 ≤ j) (hjn : j < s.n)
    (h : LazySegmentTree.InvAt o s j) :
    LazySegmentTree.InvAt o (LazySegmentTree.PropagateAndOperate o s idx) j := by
  simp only [LazySegmentTree.InvAt] at h ⊢
  by_cases hji : j = idx
  · subst hji
    rw [PAO_data_self o s j hd h1 h2,
      PAO_data_other o s j hd h1 h2 (2 * j) (by omega),
      PAO_data_other o s j hd h1 h2 (2 * j + 1) (by omega),
      PAO_lazy_child o s j hl h1 hjn (2 * j) (Or.inl rfl),
      PAO_lazy_child o s j hl h1 hjn (2 * j + 1) (Or.inr rfl),
      h, laws.g_distrib, laws.g_comp, laws.g_comp]
  · rw [PAO_data_other o s idx hd h1 h2 j hji]
    by_cases hc0 : 2 * j = idx
    · rw [PAO_data_other o s idx hd h1 h2 (2 * j + 1) (by omega),
        PAO_lazy_other o s idx hl h1 h2 (2 * j + 1) (by omega) (by omega)]
      subst hc0
      rw [PAO_data_self o s _ hd h1 h2, PAO_lazy_self o s _ hl h1 h2, laws.g_id, h]
    · rw [PAO_data_other o s idx hd h1 h2 (2 * j) hc0,
        PAO_lazy_other o s idx hl h1 h2 (2 * j) hc0 (by omega)]
      by_cases hc1 : 2 * j + 1 = idx
      · subst hc1
        rw [PAO_data_self o s _ hd h1 h2, PAO_lazy_self o s _ hl h1 h2, laws.g_id, h]
      · rw [PAO_data_other o s idx hd h1 h2 (2 * j + 1) hc1,
          PAO_lazy_other o s idx hl h1 h2 (2 * j + 1) hc1 (by omega)]
        exact h

/-! ## Pending effects along a root path -/

theorem pendingUp_zero {T E : Type} (g : T → E → T) (ei : E) (lz : List E) (y : T) :
    pendingUp g ei lz 0 y = y := by
  rw [pendingUp]; simp

theorem pendingUp_pos {T E : Type} (g : T → E → T) (ei : E) (lz : List E) (i : Nat) (y : T)
    (h : 1 ≤ i) : pendingUp g ei lz i y = pendingUp g ei lz (i / 2) (g y (lz.getD i ei)) := by
  rw [pendingUp]
  rw [if_neg (by omega)]

theorem pendingUp_congr_le {T E : Type} (g : T → E → T) (ei : E) (lz lz' : List E) (i : Nat)
    (h : ∀ j, 1 ≤ j → j ≤ i → lz.getD j ei = lz'.getD j ei) (y : T) :
    pendingUp g ei lz i y = pendingUp g ei lz' i y := by
  induction i using Nat.strong_induction_on generalizing y with
  | _ i ih =>
    by_cases h0 : i = 0
    · subst h0; rw [pendingUp_zero, pendingUp_zero]
    · rw [pendingUp_pos g ei lz i y (by omega), pendingUp_pos g ei lz' i y (by omega),
        h i (by omega) (Nat.le_refl _)]
      exact ih (i / 2) (by omega) (fun j h1 h2 => h j h1 (by omega)) _

theorem pendingUp_clean {T E : Type} (o : LazyOps T E) (hg : ∀ x, o.g x o.ei = x)
    (lz : List E) (C : Nat → Prop) (hC : ∀ j, 2 ≤ j → C j → C (j / 2))
    (hclean : ∀ j, C j → lz.getD j o.ei = o.ei) (i : Nat) (hi : C i) (y : T) :
    pendingUp o.g o.ei lz i y = y := by
  induction i using Nat.strong_induction_on generalizing y with
  | _ i ih =>
    by_cases h0 : i = 0
    · subst h0; rw [pendingUp_zero]
    · rw [pendingUp_pos _ _ _ i y (by omega), hclean i hi, hg]
      by_cases h1 : i = 1
      · subst h1; exact pendingUp_zero _ _ _ _
      · exact ih (i / 2) (by omega) (hC i (by omega) hi) y

theorem pendingUp_f {T E : Type} (o : LazyOps T E) (laws : LazyLaws o) (lz : List E)
    (i : Nat) (a b : T) :
    pendingUp o.g o.ei lz i (o.f a b) =
      o.f (pendingUp o.g o.ei lz i a) (pendingUp o.g o.ei lz i b) := by
  induction i using Nat.strong_induction_on generalizing a b with
  | _ i ih =>
    by_cases h0 : i = 0
    · subst h0; simp only [pendingUp_zero]
    · rw [pendingUp_pos _ _ _ i _ (by omega), pendingUp_pos _ _ _ i a (by omega),
        pendingUp_pos _ _ _ i b (by omega), laws.g_distrib]
      exact ih (i / 2) (by omega) _ _

/-- Under the stored-aggregate invariant the logical aggregate of a node is
the combination of the logical aggregates of its children. -/
theorem nodeValue_pair {T E : Type} (o : LazyOps T E) (laws : LazyLaws o)
    (s : LazySegmentTree T E) (i : Nat) (h1 : 1 ≤ i) (h : LazySegmentTree.InvAt o s i) :
    LazySegmentTree.nodeValue o s i =
      o.f (LazySegmentTree.nodeValue o s (2 * i)) (LazySegmentTree.nodeValue o s (2 * i + 1)) := by
  simp only [LazySegmentTree.nodeValue, LazySegmentTree.InvAt] at h ⊢
  rw [pendingUp_pos _ _ _ (2 * i) _ (by omega), pendingUp_pos _ _ _ (2 * i + 1) _ (by omega)]
  have e0 : 2 * i / 2 = i := by omega
  have e1 : (2 * i + 1) / 2 = i := by omega
  rw [e0, e1, ← pendingUp_f o laws, h]

theorem PAO_pendingUp {T E : Type} (o : LazyOps T E) (laws : LazyLaws o)
    (s : LazySegmentTree T E) (idx : Nat) (hl : s.lazy.length = 2 * s.n)
    (h1 : 1 ≤ idx) (h2 : idx < 2 * s.n) (q : Nat) (hq : q < 2 * s.n) :
    (q ≠ idx → ∀ y, pendingUp o.g o.ei (LazySegmentTree.PropagateAndOperate o s idx).lazy q y
        = pendingUp o.g o.ei s.lazy q y) ∧
    (q = idx → ∀ y, pendingUp o.g o.ei (LazySegmentTree.PropagateAndOperate o s idx).lazy q
        (o.g y (s.lazy.getD idx o.ei)) = pendingUp o.g o.ei s.lazy q y) := by
  induction q using Nat.strong_induction_on with
  | _ q ih =>
    by_cases h0 : q = 0
    · subst h0
      exact ⟨fun _ y => by rw [pendingUp_zero, pendingUp_zero], fun h => by omega⟩
    · have ihp := ih (q / 2) (by omega) (by omega)
      refine ⟨fun hne y => ?_, fun he y => ?_⟩
      · rw [pendingUp_pos _ _ _ q y (by omega), pendingUp_pos _ _ _ q y (by omega)]
        by_cases hc : q / 2 = idx
        · have hn : idx < s.n := by omega
          rw [PAO_lazy_child o s idx hl h1 hn q (by omega), ← laws.g_comp, hc]
          have := ihp.2 hc (o.g y (s.lazy.getD q o.ei))
          rw [hc] at this
          exact this
        · rw [PAO_lazy_other o s idx hl h1 h2 q hne (by omega)]
          exact ihp.1 hc _
      · subst he
        rw [pendingUp_pos _ _ _ q _ (by omega), pendingUp_pos _ _ _ q y (by omega),
          PAO_lazy_self o s q hl h1 h2, laws.g_id]
        exact ihp.1 (by omega) _

/-- `PropagateAndOperate` does not change the logical aggregate of any node. -/
theorem PAO_nodeValue {T E : Type} (o : LazyOps T E) (laws : LazyLaws o)
    (s : LazySegmentTree T E) (idx : Nat)
    (hd : s.data.length = 2 * s.n) (hl : s.lazy.length = 2 * s.n)
    (h1 : 1 ≤ idx) (h2 : idx < 2 * s.n) (q : Nat) (hq : q < 2 * s.n) :
    LazySegmentTree.nodeValue o (LazySegmentTree.PropagateAndOperate o s idx) q =
      LazySegmentTree.nodeValue o s q := by
  simp only [LazySegmentTree.nodeValue]
  by_cases hqi : q = idx
  · subst hqi
    rw [PAO_data_self o s q hd h1 h2]
    exact (PAO_pendingUp o laws s q hl h1 h2 q hq).2 rfl _
  · rw [PAO_data_other o s idx hd h1 h2 q hqi]
    exact (PAO_pendingUp o laws s idx hl h1 h2 q hq).1 hqi _

/-- A parent-closed set of clean nodes stays clean under `PropagateAndOperate`. -/
theorem PAO_clean {T E : Type} (o : LazyOps T E) (hh : o.h o.ei o.ei = o.ei)
    (s : LazySegmentTree T E) (idx : Nat) (hl : s.lazy.length = 2 * s.n)
    (h1 : 1 ≤ idx) (h2 : idx < 2 * s.n)
    (C : Nat → Prop) (hC : ∀ j, 2 ≤ j → C j → C (j / 2))
    (hclean : ∀ j, C j → s.lazy.getD j o.ei = o.ei) (j : Nat) (hj : C j) :
    (LazySegmentTree.PropagateAndOperate o s idx).lazy.getD j o.ei = o.ei := by
  by_cases hji : j = idx
  · subst hji; exact PAO_lazy_self o s j hl h1 h2
  · by_cases hc : idx < s.n ∧ (j = 2 * idx ∨ j = 2 * idx + 1)
    · rw [PAO_lazy_child o s idx hl h1 hc.1 j hc.2, hclean j hj]
      have := hC j (by omega) hj
      have e : j / 2 = idx := by omega
      rw [e] at this
      rw [hclean idx this, hh]
    · rw [PAO_lazy_other o s idx hl h1 h2 j hji hc]
      exact hclean j hj

/-! ## `LazyPropagateFromRoot` -/

theorem xor_one_facts (x : Nat) :
    (x ^^^ 1) / 2 = x / 2 ∧ x ^^^ 1 ≠ x ∧ (x ^^^ 1) % 2 ≠ x % 2 := by
  rw [xor_one]
  split <;> omega

theorem xor_one_xor_one (x : Nat) : (x ^^^ 1) ^^^ 1 = x := by
  have h1 := xor_one_facts x
  have h2 := xor_one_facts (x ^^^ 1)
  omega

theorem shr_add_le (x i t : Nat) : x >>> (i + 1 + t) ≤ (x >>> i) / 2 := by
  rw [Nat.shiftRight_add, ← shr_succ]
  exact shr_le _ _

theorem PAO_lazy_lt {T E : Type} (o : LazyOps T E) (s : LazySegmentTree T E) (idx : Nat)
    (hl : s.lazy.length = 2 * s.n) (h1 : 1 ≤ idx) (h2 : idx < 2 * s.n) (j : Nat)
    (hj : j < idx) :
    (LazySegmentTree.PropagateAndOperate o s idx).lazy.getD j o.ei = s.lazy.getD j o.ei :=
  PAO_lazy_other o s idx hl h1 h2 j (by omega) (by omega)

/-- Whatever `PropagateAndOperate` preserves at valid nodes is preserved by
the loop of `LazyPropagateFromRoot`, together with the shape of the arrays. -/
theorem lazyPropagateLoop_induct {T E : Type} (o : LazyOps T E) (n0 : Nat)
    (P : LazySegmentTree T E → Prop)
    (hP : ∀ s i, s.n = n0 → s.data.length = 2 * n0 → s.lazy.length = 2 * n0 →
      1 ≤ i → i < 2 * n0 → P s → P (LazySegmentTree.PropagateAndOperate o s i))
    (idx : Nat) (hidx : idx < 2 * n0) (i : Nat) (s : LazySegmentTree T E)
    (hn : s.n = n0) (hd : s.data.length = 2 * n0) (hl : s.lazy.length = 2 * n0) (hs : P s) :
    (lazyPropagateLoop o idx i s).n = n0 ∧
    (lazyPropagateLoop o idx i s).data.length = 2 * n0 ∧
    (lazyPropagateLoop o idx i s).lazy.length = 2 * n0 ∧
    P (lazyPropagateLoop o idx i s) := by
  induction i generalizing s with
  | zero => exact ⟨hn, hd, hl, hs⟩
  | succ i ih =>
    simp only [lazyPropagateLoop]
    by_cases h0 : idx >>> (i + 1) = 0
    · rw [if_pos h0]; exact ih s hn hd hl hs
    · rw [if_neg h0]
      have hx2 : 2 ≤ idx >>> i := by
        rw [shr_succ] at h0
        generalize idx >>> i = x at h0 ⊢
        omega
      have hxlt : idx >>> i < 2 * n0 := Nat.lt_of_le_of_lt (shr_le _ _) hidx
      have hxf := xor_one_facts (idx >>> i)
      have hs1 := hP s (idx >>> i) hn hd hl (by omega) hxlt hs
      have hn1 : (LazySegmentTree.PropagateAndOperate o s (idx >>> i)).n = n0 := by
        rw [PAO_n]; exact hn
      have hd1 : (LazySegmentTree.PropagateAndOperate o s (idx >>> i)).data.length = 2 * n0 := by
        rw [PAO_data_length]; exact hd
      have hl1 : (LazySegmentTree.PropagateAndOperate o s (idx >>> i)).lazy.length = 2 * n0 := by
        rw [PAO_lazy_length]; exact hl
      apply ih
      · rw [PAO_n]; exact hn1
      · rw [PAO_data_length]; exact hd1
      · rw [PAO_lazy_length]; exact hl1
      · exact hP _ _ hn1 hd1 hl1 (by omega) (by omega) hs1

theorem LPFR_induct {T E : Type} (o : LazyOps T E) (n0 : Nat) (hn0 : 1 ≤ n0)
    (P : LazySegmentTree T E → Prop)
    (hP : ∀ s i, s.n = n0 → s.data.length = 2 * n0 → s.lazy.length = 2 * n0 →
      1 ≤ i → i < 2 * n0 → P s → P (LazySegmentTree.PropagateAndOperate o s i))
    (idx : Nat) (hidx : idx < 2 * n0) (s : LazySegmentTree T E)
    (hn : s.n = n0) (hd : s.data.length = 2 * n0) (hl : s.lazy.length = 2 * n0) (hs : P s) :
    (LazySegmentTree.LazyPropagateFromRoot o s idx).n = n0 ∧
    (LazySegmentTree.LazyPropagateFromRoot o s idx).data.length = 2 * n0 ∧
    (LazySegmentTree.LazyPropagateFromRoot o s idx).lazy.length = 2 * n0 ∧
    P (LazySegmentTree.LazyPropagateFromRoot o s idx) := by
  unfold LazySegmentTree.LazyPropagateFromRoot
  apply lazyPropagateLoop_induct o n0 P hP idx hidx
  · rw [PAO_n]; exact hn
  · rw [PAO_data_length]; exact hd
  · rw [PAO_lazy_length]; exact hl
  · exact hP s 1 hn hd hl (Nat.le_refl _) (by omega) hs

theorem lazyPropagateLoop_clean {T E : Type} (o : LazyOps T E) (n0 : Nat)
    (idx : Nat) (hidx : idx < 2 * n0) (i : Nat) (s : LazySegmentTree T E)
    (hn : s.n = n0) (hl : s.lazy.length = 2 * n0)
    (hroot : s.lazy.getD 1 o.ei = o.ei)
    (hpre : ∀ k, i ≤ k → (1 ≤ idx >>> k → s.lazy.getD (idx >>> k) o.ei = o.ei) ∧
      (2 ≤ idx >>> k → s.lazy.getD ((idx >>> k) ^^^ 1) o.ei = o.ei)) :
    ∀ k, (1 ≤ idx >>> k → (lazyPropagateLoop o idx i s).lazy.getD (idx >>> k) o.ei = o.ei) ∧
      (2 ≤ idx >>> k →
        (lazyPropagateLoop o idx i s).lazy.getD ((idx >>> k) ^^^ 1) o.ei = o.ei) := by
  induction i generalizing s with
  | zero => exact fun k => hpre k (Nat.zero_le _)
  | succ i ih =>
    simp only [lazyPropagateLoop]
    by_cases h0 : idx >>> (i + 1) = 0
    · rw [if_pos h0]
      apply ih s hn hl hroot
      intro k hk
      by_cases hki : k = i
      · subst hki
        rw [shr_succ] at h0
        refine ⟨fun h1 => ?_, fun h2 => by omega⟩
        have e : idx >>> k = 1 := by omega
        rw [e]; exact hroot
      · exact hpre k (by omega)
    · rw [if_neg h0]
      have hx2 : 2 ≤ idx >>> i := by
        rw [shr_succ] at h0
        generalize idx >>> i = x at h0 ⊢
        omega
      have hxlt : idx >>> i < 2 * n0 := Nat.lt_of_le_of_lt (shr_le _ _) hidx
      have hxf := xor_one_facts (idx >>> i)
      have hn1 : (LazySegmentTree.PropagateAndOperate o s (idx >>> i)).n = n0 := by
        rw [PAO_n]; exact hn
      have hl1 : (LazySegmentTree.PropagateAndOperate o s (idx >>> i)).lazy.length = 2 * n0 := by
        rw [PAO_lazy_length]; exact hl
      -- entries below both processed nodes are not touched
      have low : ∀ j, j < 2 * ((idx >>> i) / 2) →
          (LazySegmentTree.PropagateAndOperate o
            (LazySegmentTree.PropagateAndOperate o s (idx >>> i))
              ((idx >>> i) ^^^ 1)).lazy.getD j o.ei = s.lazy.getD j o.ei := by
        intro j hj
        rw [PAO_lazy_lt o _ _ (by rw [hn1]; exact hl1) (by omega) (by rw [hn1]; omega) j
          (by omega),
          PAO_lazy_lt o s _ (by rw [hn]; exact hl) (by omega) (by rw [hn]; omega) j (by omega)]
      apply ih _ (by rw [PAO_n]; exact hn1) (by rw [PAO_lazy_length]; exact hl1)
      · rw [low 1 (by omega)]; exact hroot
      · intro k hk
        by_cases hki : k = i
        · subst hki
          refine ⟨fun _ => ?_, fun _ => ?_⟩
          · rw [PAO_lazy_other o _ _ (by rw [hn1]; exact hl1) (by omega) (by rw [hn1]; omega)
              (idx >>> k) (fun c => hxf.2.1 c.symm) (by omega)]
            exact PAO_lazy_self o s _ (by rw [hn]; exact hl) (by omega) (by rw [hn]; omega)
          · exact PAO_lazy_self o _ _ (by rw [hn1]; exact hl1) (by omega) (by rw [hn1]; omega)
        · obtain ⟨t, ht⟩ : ∃ t, k = i + 1 + t := ⟨k - (i + 1), by omega⟩
          have hle := shr_add_le idx i t
          rw [← ht] at hle
          have hyf := xor_one_facts (idx >>> k)
          refine ⟨fun h1 => ?_, fun h2 => ?_⟩
          · rw [low _ (by omega)]; exact (hpre k (by omega)).1 h1
          · rw [low _ (by omega)]; exact (hpre k (by omega)).2 h2

theorem nearPath_closed (a : Nat) : ClosedSet (NearPath a) := by
  constructor
  · intro i hi ⟨k, h⟩
    refine ⟨k + 1, Or.inl ?_⟩
    rw [shr_succ]
    rcases h with ⟨_, h⟩ | ⟨_, h⟩
    · subst h; exact ⟨by omega, rfl⟩
    · have := xor_one_facts (a >>> k)
      subst h; exact ⟨by omega, this.1⟩
  · intro i hi ⟨k, h⟩
    rcases h with ⟨_, h⟩ | ⟨h2, h⟩
    · subst h; exact ⟨k, Or.inr ⟨hi, rfl⟩⟩
    · subst h; exact ⟨k, Or.inl ⟨by omega, xor_one_xor_one _⟩⟩

theorem nearPath_self (a : Nat) (h : 1 ≤ a) : NearPath a a := ⟨0, Or.inl ⟨by simpa using h, by simp⟩⟩

theorem nearPath_range (a n0 i : Nat) (ha : a < 2 * n0) (h : NearPath a i) :
    1 ≤ i ∧ i < 2 * n0 := by
  obtain ⟨k, ⟨h1, h⟩ | ⟨h2, h⟩⟩ := h
  · subst h; exact ⟨h1, Nat.lt_of_le_of_lt (shr_le _ _) ha⟩
  · have := xor_one_facts (a >>> k)
    have := shr_le a k
    subst h; omega

theorem closedSet_or {C D : Nat → Prop} (hC : ClosedSet C) (hD : ClosedSet D) :
    ClosedSet (fun i => C i ∨ D i) :=
  ⟨fun i h2 h => h.elim (fun h => Or.inl (hC.parent i h2 h)) (fun h => Or.inr (hD.parent i h2 h)),
   fun i h2 h => h.elim (fun h => Or.inl (hC.sibling i h2 h)) (fun h => Or.inr (hD.sibling i h2 h))⟩

/-- After `LazyPropagateFromRoot(a)` every node on the root path of `a` and
every sibling of such a node has no pending effect. -/
theorem LPFR_clean {T E : Type} (o : LazyOps T E) (s : LazySegmentTree T E) (a : Nat)
    (hl : s.lazy.length = 2 * s.n) (hn30 : s.n ≤ 2 ^ 30) (ha : a < 2 * s.n) (j : Nat)
    (hj : NearPath a j) :
    (LazySegmentTree.LazyPropagateFromRoot o s a).lazy.getD j o.ei = o.ei := by
  have hn1 : 1 ≤ s.n := by omega
  have key := lazyPropagateLoop_clean o s.n a ha intDigits
    (LazySegmentTree.PropagateAndOperate o s 1) (PAO_n o s 1)
    (by rw [PAO_lazy_length]; exact hl)
    (PAO_lazy_self o s 1 hl (Nat.le_refl _) (by omega))
    (by
      intro k hk
      have e : a >>> k = 0 := by
        rw [Nat.shiftRight_eq_div_pow]
        apply Nat.div_eq_of_lt
        have : 2 ^ 31 ≤ 2 ^ k := Nat.pow_le_pow_right (by omega) hk
        omega
      rw [e]
      exact ⟨fun h => by omega, fun h => by omega⟩)
  obtain ⟨k, ⟨h1, h⟩ | ⟨h2, h⟩⟩ := hj
  · subst h; exact (key k).1 h1
  · subst h; exact (key k).2 h2

theorem WF_pos {T E : Type} (s : LazySegmentTree T E) (h : LazySegmentTree.WF s) :
    1 ≤ s.n ∧ s.n ≤ 2 ^ 30 := by
  obtain ⟨_, _, k, hk, e⟩ := h
  rw [e]
  exact ⟨Nat.one_le_two_pow, Nat.pow_le_pow_right (by omega) hk⟩

theorem list_set_getD_self {α : Type} (l : List α) (i : Nat) (d : α) :
    l.set i (l.getD i d) = l := by
  apply List.ext_getElem?
  intro j
  by_cases hij : i = j
  · subst hij
    by_cases hi : i < l.length
    · rw [List.getElem?_set_self hi, List.getD_eq_getElem?_getD, List.getElem?_eq_getElem hi]
      rfl
    · rw [List.getElem?_eq_none (by simp; omega), List.getElem?_eq_none (by omega)]
  · rw [List.getElem?_set_ne hij]

/-- `PropagateAndOperate` on a node without pending effect changes nothing. -/
theorem PAO_eq_self {T E : Type} (o : LazyOps T E) (hg : ∀ x, o.g x o.ei = x)
    (hh : ∀ e, o.h e o.ei = e) (s : LazySegmentTree T E) (idx : Nat)
    (hclean : s.lazy.getD idx o.ei = o.ei) :
    LazySegmentTree.PropagateAndOperate o s idx = s := by
  have hP : LazySegmentTree.Propagate o s idx = s := by
    simp only [LazySegmentTree.Propagate, shl_one]
    split
    · rfl
    · have e1 : s.lazy.set (2 * idx) (o.h (s.lazy.getD (2 * idx) o.ei) (s.lazy.getD idx o.ei))
          = s.lazy := by
        rw [hclean, hh, list_set_getD_self]
      simp only [e1, hclean, hh, list_set_getD_self]
  simp only [LazySegmentTree.PropagateAndOperate, hP, LazySegmentTree.Operate, hclean, hg,
    list_set_getD_self]
  have e2 : s.lazy.set idx o.ei = s.lazy := by
    conv_lhs => rw [← hclean]
    exact list_set_getD_self _ _ _
  rw [e2]

theorem exists_shr_eq_one (a : Nat) (h : 1 ≤ a) : ∃ k, a >>> k = 1 := by
  induction a using Nat.strong_induction_on with
  | _ a ih =>
    by_cases h1 : a = 1
    · exact ⟨0, by simp [h1]⟩
    · obtain ⟨k, hk⟩ := ih (a / 2) (by omega) (by omega)
      exact ⟨k + 1, by rw [shr_succ_left]; exact hk⟩

theorem nearPath_root (a : Nat) (h : 1 ≤ a) : NearPath a 1 := by
  obtain ⟨k, hk⟩ := exists_shr_eq_one a h
  exact ⟨k, Or.inl ⟨by omega, hk.symm⟩⟩

/-- `LazyPropagateFromRoot(a)` changes nothing when the root path of `a` and
its siblings carry no pending effect. -/
theorem LPFR_eq_self {T E : Type} (o : LazyOps T E) (hg : ∀ x, o.g x o.ei = x)
    (hh : ∀ e, o.h e o.ei = e) (s : LazySegmentTree T E) (a : Nat) (ha : 1 ≤ a)
    (hclean : ∀ j, NearPath a j → s.lazy.getD j o.ei = o.ei) :
    LazySegmentTree.LazyPropagateFromRoot o s a = s := by
  unfold LazySegmentTree.LazyPropagateFromRoot
  rw [PAO_eq_self o hg hh s 1 (hclean 1 (nearPath_root a ha))]
  generalize intDigits = i
  induction i with
  | zero => rfl
  | succ i ih =>
    simp only [lazyPropagateLoop]
    split
    · exact ih
    · rename_i h0
      have hx2 : 2 ≤ a >>> i := by
        rw [shr_succ] at h0
        generalize a >>> i = x at h0 ⊢
        omega
      rw [PAO_eq_self o hg hh s _ (hclean _ ⟨i, Or.inl ⟨by omega, rfl⟩⟩),
        PAO_eq_self o hg hh s _ (hclean _ ⟨i, Or.inr ⟨hx2, rfl⟩⟩)]
      exact ih

/-- The state left by the two `LazyPropagateFromRoot` calls of `Query` and
`Update`: same shape, and no pending effect near the two root paths. -/
theorem LPFR2_shape_clean {T E : Type} (o : LazyOps T E) (hh : o.h o.ei o.ei = o.ei)
    (s : LazySegmentTree T E) (hwf : LazySegmentTree.WF s) (a b : Nat)
    (ha : a < 2 * s.n) (hb : b < 2 * s.n) :
    LazySegmentTree.WF (LazySegmentTree.LazyPropagateFromRoot o
      (LazySegmentTree.LazyPropagateFromRoot o s a) b) ∧
    (LazySegmentTree.LazyPropagateFromRoot o
      (LazySegmentTree.LazyPropagateFromRoot o s a) b).n = s.n ∧
    ∀ j, NearPath a j ∨ NearPath b j →
      (LazySegmentTree.LazyPropagateFromRoot o
        (LazySegmentTree.LazyPropagateFromRoot o s a) b).lazy.getD j o.ei = o.ei := by
  have hpos := WF_pos s hwf
  obtain ⟨hd, hl, hk⟩ := hwf
  obtain ⟨n1, d1, l1, _⟩ := LPFR_induct o s.n hpos.1 (fun _ => True)
    (fun _ _ _ _ _ _ _ _ => trivial) a ha s rfl hd hl trivial
  have c1 := LPFR_clean o s a hl hpos.2 ha
  obtain ⟨n2, d2, l2, c2⟩ := LPFR_induct o s.n hpos.1
    (fun t => ∀ j, NearPath a j → t.lazy.getD j o.ei = o.ei)
    (fun t i tn _ tl i1 i2 ht j hj =>
      PAO_clean o hh t i (by rw [tn]; exact tl) i1 (by rw [tn]; exact i2) (NearPath a)
        (nearPath_closed a).parent ht j hj)
    b hb _ n1 d1 l1 c1
  refine ⟨⟨by rw [d2, n2], by rw [l2, n2], by rw [n2]; exact hk⟩, n2, ?_⟩
  intro j hj
  rcases hj with hj | hj
  · exact c2 j hj
  · exact LPFR_clean o _ b (by rw [l1, n1]) (by rw [n1]; exact hpos.2) (by rw [n1]; exact hb) j hj

/-- The two `LazyPropagateFromRoot` calls keep the logical aggregates and the
stored-aggregate invariant. -/
theorem LPFR2_values {T E : Type} (o : LazyOps T E) (laws : LazyLaws o)
    (s : LazySegmentTree T E) (hwf : LazySegmentTree.WF s) (a b : Nat)
    (ha : a < 2 * s.n) (hb : b < 2 * s.n) (Q : Nat → Prop) :
    (∀ q, q < 2 * s.n → LazySegmentTree.nodeValue o (LazySegmentTree.LazyPropagateFromRoot o
      (LazySegmentTree.LazyPropagateFromRoot o s a) b) q = LazySegmentTree.nodeValue o s q) ∧
    ((∀ j, 1 ≤ j → j < s.n → Q j → LazySegmentTree.InvAt o s j) →
      ∀ j, 1 ≤ j → j < s.n → Q j → LazySegmentTree.InvAt o (LazySegmentTree.LazyPropagateFromRoot o
      (LazySegmentTree.LazyPropagateFromRoot o s a) b) j) := by
  have hpos := WF_pos s hwf
  obtain ⟨hd, hl, hk⟩ := hwf
  constructor
  · obtain ⟨n1, d1, l1, v1⟩ := LPFR_induct o s.n hpos.1
      (fun t => ∀ q, q < 2 * s.n → LazySegmentTree.nodeValue o t q = LazySegmentTree.nodeValue o s q)
      (fun t i tn td tl i1 i2 ht q hq => by
        rw [PAO_nodeValue o laws t i (by rw [tn]; exact td) (by rw [tn]; exact tl) i1
          (by rw [tn]; exact i2) q (by rw [tn]; exact hq)]
        exact ht q hq)
      a ha s rfl hd hl (fun _ _ => rfl)
    obtain ⟨_, _, _, v2⟩ := LPFR_induct o s.n hpos.1
      (fun t => ∀ q, q < 2 * s.n → LazySegmentTree.nodeValue o t q = LazySegmentTree.nodeValue o s q)
      (fun t i tn td tl i1 i2 ht q hq => by
        rw [PAO_nodeValue o laws t i (by rw [tn]; exact td) (by rw [tn]; exact tl) i1
          (by rw [tn]; exact i2) q (by rw [tn]; exact hq)]
        exact ht q hq)
      b hb _ n1 d1 l1 v1
    exact v2
  · intro hinv
    obtain ⟨n1, d1, l1, v1⟩ := LPFR_induct o s.n hpos.1
      (fun t => ∀ j, 1 ≤ j → j < s.n → Q j → LazySegmentTree.InvAt o t j)
      (fun t i tn td tl i1 i2 ht j hj1 hj2 hq =>
        PAO_invAt o laws t i (by rw [tn]; exact td) (by rw [tn]; exact tl) i1
          (by rw [tn]; exact i2) j hj1 (by rw [tn]; exact hj2) (ht j hj1 hj2 hq))
      a ha s rfl hd hl hinv
    obtain ⟨_, _, _, v2⟩ := LPFR_induct o s.n hpos.1
      (fun t => ∀ j, 1 ≤ j → j < s.n → Q j → LazySegmentTree.InvAt o t j)
      (fun t i tn td tl i1 i2 ht j hj1 hj2 hq =>
        PAO_invAt o laws t i (by rw [tn]; exact td) (by rw [tn]; exact tl) i1
          (by rw [tn]; exact i2) j hj1 (by rw [tn]; exact hj2) (ht j hj1 hj2 hq))
      b hb _ n1 d1 l1 v1
    exact v2

theorem queryLoop_some {T : Type} (f : T → T → T) (ti : T) (data : List T)
    (fuel l r : Nat) (vl vr : T) (hl1 : 1 ≤ l) (hfuel : r < fuel) :
    ∃ v, queryLoop f ti data fuel l r vl vr = some v := by
  induction fuel generalizing l r vl vr with
  | zero => omega
  | succ fuel ih =>
    rw [queryLoop_succ]
    by_cases hlr : l ≤ r
    · rw [if_pos hlr]
      exact ih _ _ _ _ (by split <;> omega) (by split <;> omega)
    · rw [if_neg hlr]; exact ⟨_, rfl⟩

/-! ## Lazy tree: `Query` -/

theorem LazySegmentTree.Query_eq {T E : Type} (o : LazyOps T E) (s : LazySegmentTree T E)
    (l r : Nat) (hlr : l < r) (hr : r ≤ s.n) :
    LazySegmentTree.Query o s (l : Int) (r : Int) =
      (queryLoop o.f o.ti
        (LazySegmentTree.LazyPropagateFromRoot o
          (LazySegmentTree.LazyPropagateFromRoot o s (l + s.n)) (r + (s.n - 1))).data
        (2 * s.n) (l + s.n) (r + (s.n - 1)) o.ti o.ti).map
      fun v => (v, LazySegmentTree.LazyPropagateFromRoot o
          (LazySegmentTree.LazyPropagateFromRoot o s (l + s.n)) (r + (s.n - 1))) := by
  simp only [LazySegmentTree.Query]
  rw [if_pos (by omega)]
  simp only [Int.toNat_ofNat]

theorem foldRange_leaves {T : Type} (f : T → T → T) (ti : T) (V : Nat → T) (n l r : Nat)
    (hn : 1 ≤ n) :
    foldRange f ti V (l + n) (r + (n - 1) + 1) = foldRange f ti (fun j => V (n + j)) l r := by
  unfold foldRange
  have e : r + (n - 1) + 1 - (l + n) = r - l := by omega
  rw [e, ← foldFrom_shift f ti V n (r - l) l]
  apply foldFrom_congr
  intro i _ _
  show V (i + n) = V (n + i)
  rw [Nat.add_comm]

theorem foldRange_congr {T : Type} (f : T → T → T) (ti : T) (a b : Nat → T) (l r : Nat)
    (hab : ∀ i, l ≤ i → i < r → a i = b i) : foldRange f ti a l r = foldRange f ti b l r := by
  unfold foldRange
  exact foldFrom_congr f ti a b (r - l) l (fun i h1 h2 => hab i h1 (by omega))

/-- In a state that satisfies the invariant, `Query(l, r)` returns the fold of
the logical element values over `[l, r)`; it keeps the invariant and every
logical value. -/
theorem LazySegmentTree.Query_spec {T E : Type} (o : LazyOps T E) (laws : LazyLaws o)
    (s : LazySegmentTree T E) (hs : LazySegmentTree.Good o s) (l r : Nat) (hlr : l < r)
    (hr : r ≤ s.n) :
    ∃ s', LazySegmentTree.Query o s (l : Int) (r : Int) =
        some (foldRange o.f o.ti (LazySegmentTree.leafValue o s) l r, s') ∧
      LazySegmentTree.Good o s' ∧ s'.n = s.n ∧
      ∀ q, q < 2 * s.n → LazySegmentTree.nodeValue o s' q = LazySegmentTree.nodeValue o s q := by
  obtain ⟨hwf, hinv⟩ := hs
  have hpos := WF_pos s hwf
  have ha : l + s.n < 2 * s.n := by omega
  have hb : r + (s.n - 1) < 2 * s.n := by omega
  obtain ⟨wf2, n2, c2⟩ := LPFR2_shape_clean o (laws.h_left_id o.ei) s hwf _ _ ha hb
  obtain ⟨v2, i2⟩ := LPFR2_values o laws s hwf _ _ ha hb (fun _ => True)
  have inv2 := i2 (fun j h1 h2 _ => hinv j h1 h2)
  have hC := closedSet_or (nearPath_closed (l + s.n)) (nearPath_closed (r + (s.n - 1)))
  refine ⟨_, ?_, ⟨wf2, fun i h1 h2 => inv2 i h1 (by rw [n2] at h2; exact h2) trivial⟩, n2, v2⟩
  rw [LazySegmentTree.Query_eq o s l r hlr hr]
  rw [queryLoop_spec laws.f_laws _
    (LazySegmentTree.nodeValue o (LazySegmentTree.LazyPropagateFromRoot o
      (LazySegmentTree.LazyPropagateFromRoot o s (l + s.n)) (r + (s.n - 1))))
    s.n _ hC
    (fun i h1 h2 => nodeValue_pair o laws _ i h1 (inv2 i h1 h2 trivial))
    (fun i hi => (pendingUp_clean o laws.g_id _ _ hC.parent c2 i hi _).symm)
    _ _ _ _ _ (by omega) hb (by omega)
    (Or.inl (Or.inl (nearPath_self _ (by omega))))
    (Or.inl (Or.inr (nearPath_self _ (by omega))))]
  simp only [Option.map_some']
  rw [left_id laws.f_laws, laws.f_laws.right_id, foldRange_leaves _ _ _ _ _ _ hpos.1]
  congr 2
  apply foldRange_congr
  intro i _ hi
  exact v2 (s.n + i) (by omega)

/-! ## `DataPropagateFromLeaf` -/

theorem shr_lt (x k : Nat) (hx : 1 ≤ x) (hk : 1 ≤ k) : x >>> k < x := by
  obtain ⟨t, rfl⟩ : ∃ t, k = t + 1 := ⟨k - 1, by omega⟩
  rw [shr_succ_left]
  have := shr_le (x / 2) t
  omega

theorem dataPropagateLoop_zero {T E : Type} (o : LazyOps T E) (fuel : Nat)
    (s : LazySegmentTree T E) : dataPropagateLoop o fuel 0 s = some s := by
  cases fuel <;> simp [dataPropagateLoop]

/-- The loop of `DataPropagateFromLeaf` ends, writes only `data` at the proper
ancestors of `idx`, and leaves each of them equal to the combination of the
effective values of its children. -/
theorem dataPropagateLoop_spec {T E : Type} (o : LazyOps T E) (fuel idx : Nat)
    (s : LazySegmentTree T E) (hd : s.data.length = 2 * s.n) (hidx : idx < 2 * s.n)
    (hfuel : idx < fuel) :
    ∃ s', dataPropagateLoop o fuel idx s = some s' ∧ s'.n = s.n ∧ s'.lazy = s.lazy ∧
      s'.data.length = s.data.length ∧
      (∀ j, (∀ k, 1 ≤ k → j ≠ idx >>> k) → s'.data.getD j o.ti = s.data.getD j o.ti) ∧
      ((∀ a b, o.f a b = o.f b a) →
        ∀ k, 1 ≤ k → 1 ≤ idx >>> k → LazySegmentTree.InvAt o s' (idx >>> k)) := by
  induction fuel generalizing idx s with
  | zero => omega
  | succ fuel ih =>
    simp only [dataPropagateLoop, shr_one]
    by_cases h1 : 1 ≤ idx
    · rw [if_pos h1]
      by_cases hone : idx = 1
      · subst hone
        rw [if_neg (by simp)]
        have e : 1 / 2 = 0 := by omega
        rw [e, dataPropagateLoop_zero]
        refine ⟨s, rfl, rfl, rfl, rfl, fun _ _ => rfl, ?_⟩
        intro _ k hk hk1
        have := shr_lt 1 k (Nat.le_refl _) hk
        omega
      · rw [if_pos hone]
        obtain ⟨s', e1, e2, e3, e4, e5, e6⟩ := ih (idx / 2)
          { s with data := (s.data.set (idx / 2)
              (o.f (o.g (s.data.getD idx o.ti) (s.lazy.getD idx o.ei))
                (o.g (s.data.getD (idx ^^^ 1) o.ti) (s.lazy.getD (idx ^^^ 1) o.ei)))) }
          (by simp [hd]) (by simp only; omega) (by omega)
        simp only [List.length_set] at e2 e3 e4 e5
        refine ⟨s', e1, e2, e3, e4, ?_, ?_⟩
        · intro j hj
          rw [e5 j (fun k hk => by rw [← shr_succ_left]; exact hj (k + 1) (by omega))]
          have := hj 1 (Nat.le_refl _)
          rw [shr_one] at this
          exact getD_set_ne _ _ _ _ _ (fun c => this c.symm)
        · intro hcomm k hk hk1
          obtain ⟨t, rfl⟩ : ∃ t, k = t + 1 := ⟨k - 1, by omega⟩
          rw [shr_succ_left] at hk1 ⊢
          by_cases ht : t = 0
          · subst ht
            simp only [Nat.shiftRight_zero] at hk1 ⊢
            have anc : ∀ j, idx / 2 ≤ j → ∀ k, 1 ≤ k → j ≠ (idx / 2) >>> k := by
              intro j hj k hk
              have := shr_lt (idx / 2) k hk1 hk
              omega
            simp only [LazySegmentTree.InvAt]
            rw [e5 _ (anc _ (Nat.le_refl _)), e5 _ (anc _ (by omega)), e5 _ (anc _ (by omega)),
              e3, getD_set_eq _ _ _ _ (by omega), getD_set_ne _ _ _ _ _ (by omega),
              getD_set_ne _ _ _ _ _ (by omega)]
            have hx := xor_one idx
            by_cases hev : idx % 2 = 0
            · rw [if_pos hev] at hx
              have e0 : 2 * (idx / 2) = idx := by omega
              rw [hx, e0]
            · rw [if_neg hev] at hx
              have e0 : 2 * (idx / 2) = idx - 1 := by omega
              have e1 : idx - 1 + 1 = idx := by omega
              rw [hx, e0, e1]
              exact hcomm _ _
          · exact e6 hcomm t (by omega) hk1
    · rw [if_neg h1]
      have h0 : idx = 0 := by omega
      subst h0
      exact ⟨s, rfl, rfl, rfl, rfl, fun _ _ => rfl, fun _ k _ hk => by simp at hk⟩

/-! ## The walk of `Update` -/

theorem updateLoop_succ {E : Type} (h : E → E → E) (ei x : E) (fuel l r : Nat) (lz : List E) :
    updateLoop h ei x (fuel + 1) l r lz =
      if l ≤ r then
        updateLoop h ei x fuel ((if l % 2 = 1 then l + 1 else l) / 2)
          ((if r % 2 = 0 then r - 1 else r) / 2)
          (if r % 2 = 0 then
            (if l % 2 = 1 then lz.set l (h (lz.getD l ei) x) else lz).set r
              (h ((if l % 2 = 1 then lz.set l (h (lz.getD l ei) x) else lz).getD r ei) x)
           else (if l % 2 = 1 then lz.set l (h (lz.getD l ei) x) else lz))
      else some lz := by
  have e : (l % 2 ≠ 0) = (l % 2 = 1) := by
    apply propext; omega
  simp only [updateLoop, and_one, shr_one, e]

theorem updateLoop_done {E : Type} (h : E → E → E) (ei x : E) (fuel l r : Nat) (lz : List E)
    (hlr : r < l) : updateLoop h ei x fuel l r lz = some lz := by
  cases fuel with
  | zero => simp only [updateLoop]; rw [if_neg (by omega)]
  | succ f => rw [updateLoop_succ, if_neg (by omega)]

theorem updateStep_length {E : Type} (h : E → E → E) (ei x : E) (l r : Nat) (lz : List E) :
    (if r % 2 = 0 then
      (if l % 2 = 1 then lz.set l (h (lz.getD l ei) x) else lz).set r
        (h ((if l % 2 = 1 then lz.set l (h (lz.getD l ei) x) else lz).getD r ei) x)
     else (if l % 2 = 1 then lz.set l (h (lz.getD l ei) x) else lz)).length = lz.length := by
  split <;> split <;> simp

theorem updateStep_getD {E : Type} (h : E → E → E) (ei x : E) (l r : Nat) (lz : List E)
    (hlr : l ≤ r) (hr : r < lz.length) (j : Nat) :
    (if r % 2 = 0 then
      (if l % 2 = 1 then lz.set l (h (lz.getD l ei) x) else lz).set r
        (h ((if l % 2 = 1 then lz.set l (h (lz.getD l ei) x) else lz).getD r ei) x)
     else (if l % 2 = 1 then lz.set l (h (lz.getD l ei) x) else lz)).getD j ei =
      if (j = l ∧ l % 2 = 1) ∨ (j = r ∧ r % 2 = 0) then h (lz.getD j ei) x
      else lz.getD j ei := by
  by_cases h1 : l % 2 = 1 <;> by_cases h2 : r % 2 = 0
  · have hne : l ≠ r := by omega
    rw [if_pos h2, if_pos h1, getD_set _ _ _ _ _ (by simpa using hr),
      getD_set _ _ _ _ _ (by omega), getD_set _ _ _ _ _ (by omega)]
    by_cases c1 : j = r
    · subst c1
      rw [if_pos rfl, if_neg (fun c => hne c.symm), if_pos (Or.inr ⟨rfl, h2⟩)]
    · rw [if_neg c1]
      by_cases c2 : j = l
      · rw [if_pos c2, if_pos (Or.inl ⟨c2, h1⟩), c2]
      · rw [if_neg c2, if_neg (by tauto)]
  · rw [if_neg h2, if_pos h1, getD_set _ _ _ _ _ (by omega)]
    by_cases c2 : j = l
    · rw [if_pos c2, if_pos (Or.inl ⟨c2, h1⟩), c2]
    · rw [if_neg c2, if_neg (by tauto)]
  · rw [if_pos h2, if_neg h1, getD_set _ _ _ _ _ hr]
    by_cases c1 : j = r
    · rw [if_pos c1, if_pos (Or.inr ⟨c1, h2⟩), c1]
    · rw [if_neg c1, if_neg (by tauto)]
  · rw [if_neg h2, if_neg h1, if_neg (by tauto)]

/-- The walk of `Update` ends; it changes `lazy` only at members of the closed
set `C` on the levels it visits, and for a node `q` on the starting level the
pending effects on its root path gain `x` exactly when `l ≤ q ≤ r`. -/
theorem updateLoop_spec {T E : Type} (o : LazyOps T E) (laws : LazyLaws o) (x : E)
    (C : Nat → Prop) (hC : ClosedSet C) (fuel d l r : Nat) (lz : List E)
    (hl : 2 ^ d ≤ l) (hr : r < 2 ^ (d + 1)) (hlen : 2 ^ (d + 1) ≤ lz.length)
    (hfuel : r < fuel) (hL : LeftOK C l) (hR : RightOK C r)
    (hclean : ∀ j, C j → j < 2 ^ d → lz.getD j o.ei = o.ei) :
    ∃ lz', updateLoop o.h o.ei x fuel l r lz = some lz' ∧ lz'.length = lz.length ∧
      (∀ j, 2 ^ (d + 1) ≤ j → lz'.getD j o.ei = lz.getD j o.ei) ∧
      (∀ j, ¬ C j → lz'.getD j o.ei = lz.getD j o.ei) ∧
      ∀ q, 2 ^ d ≤ q → q < 2 ^ (d + 1) → ∀ y : T, pendingUp o.g o.ei lz' q y =
        if l ≤ q ∧ q ≤ r then o.g (pendingUp o.g o.ei lz q y) x
        else pendingUp o.g o.ei lz q y := by
  induction fuel generalizing d l r lz with
  | zero => omega
  | succ fuel ih =>
    have hpow : 2 ^ (d + 1) = 2 * 2 ^ d := by rw [pow_succ]; omega
    have hpos : 1 ≤ 2 ^ d := Nat.one_le_two_pow
    rw [updateLoop_succ]
    by_cases hlr : l ≤ r
    · rw [if_pos hlr]
      have hL1 := leftOK_next hC (by omega) hL
      have hR1 := rightOK_next hC (by omega) hR
      have hCl : l % 2 = 1 → C l := leftOK_odd hC hL
      have hCr : r % 2 = 0 → C r := rightOK_even hC (by omega) hR
      have hget := updateStep_getD o.h o.ei x l r lz hlr (by omega)
      have hlen2 := updateStep_length o.h o.ei x l r lz
      generalize (if r % 2 = 0 then
            (if l % 2 = 1 then lz.set l (o.h (lz.getD l o.ei) x) else lz).set r
              (o.h ((if l % 2 = 1 then lz.set l (o.h (lz.getD l o.ei) x) else lz).getD r o.ei) x)
           else (if l % 2 = 1 then lz.set l (o.h (lz.getD l o.ei) x) else lz)) = lz2
        at hget hlen2 ⊢
      have hl1 : (l % 2 = 1 ∧ 2 * ((if l % 2 = 1 then l + 1 else l) / 2) = l + 1) ∨
          (l % 2 = 0 ∧ 2 * ((if l % 2 = 1 then l + 1 else l) / 2) = l) := by
        split <;> omega
      have hr1 : (r % 2 = 0 ∧ 2 * ((if r % 2 = 0 then r - 1 else r) / 2) + 2 = r) ∨
          (r % 2 = 1 ∧ 2 * ((if r % 2 = 0 then r - 1 else r) / 2) + 1 = r) := by
        split <;> omega
      generalize (if l % 2 = 1 then l + 1 else l) / 2 = l1 at hl1 hL1 ⊢
      generalize (if r % 2 = 0 then r - 1 else r) / 2 = r1 at hr1 hR1 ⊢
      -- the ancestors of a changed node carry no pending effect
      have habove : ∀ p, (C p ∨ p = 0) → p < 2 ^ d → ∀ w : T, pendingUp o.g o.ei lz p w = w := by
        intro p hp hpd w
        rcases hp with hp | hp
        · exact pendingUp_clean o laws.g_id lz (fun j => C j ∧ j < 2 ^ d)
            (fun j hj2 hj => ⟨hC.parent j hj2 hj.1, by omega⟩)
            (fun j hj => hclean j hj.1 hj.2) p ⟨hp, hpd⟩ w
        · subst hp; exact pendingUp_zero _ _ _ _
      have hparent : ∀ q, 1 ≤ q → C q → (C (q / 2) ∨ q / 2 = 0) := by
        intro q hq1 hq
        by_cases hq2 : 2 ≤ q
        · exact Or.inl (hC.parent q hq2 hq)
        · exact Or.inr (by omega)
      -- the frame and the values on the starting level, from those one level up
      have key : ∀ lz' : List E, lz'.length = lz2.length →
          (∀ j, 2 ^ d ≤ j → lz'.getD j o.ei = lz2.getD j o.ei) →
          (∀ j, ¬ C j → lz'.getD j o.ei = lz2.getD j o.ei) →
          (∀ p, 2 ^ d ≤ 2 * p + 1 → p < 2 ^ d → ∀ z : T, pendingUp o.g o.ei lz' p z =
            if l1 ≤ p ∧ p ≤ r1 ∧ 1 ≤ p then o.g (pendingUp o.g o.ei lz p z) x
            else pendingUp o.g o.ei lz p z) →
          lz'.length = lz.length ∧
          (∀ j, 2 ^ (d + 1) ≤ j → lz'.getD j o.ei = lz.getD j o.ei) ∧
          (∀ j, ¬ C j → lz'.getD j o.ei = lz.getD j o.ei) ∧
          ∀ q, 2 ^ d ≤ q → q < 2 ^ (d + 1) → ∀ y : T, pendingUp o.g o.ei lz' q y =
            if l ≤ q ∧ q ≤ r then o.g (pendingUp o.g o.ei lz q y) x
            else pendingUp o.g o.ei lz q y := by
        intro lz' k1 k2 k3 k4
        refine ⟨by rw [k1, hlen2], ?_, ?_, ?_⟩
        · intro j hj
          rw [k2 j (by omega), hget j, if_neg (by omega)]
        · intro j hj
          rw [k3 j hj, hget j, if_neg]
          rintro (⟨rfl, c⟩ | ⟨rfl, c⟩)
          · exact hj (hCl c)
          · exact hj (hCr c)
        · intro q hq1 hq2 y
          rw [pendingUp_pos _ _ lz' q y (by omega), pendingUp_pos _ _ lz q y (by omega),
            k2 q hq1, hget q, k4 (q / 2) (by omega) (by omega)]
          by_cases cA : (q = l ∧ l % 2 = 1) ∨ (q = r ∧ r % 2 = 0)
          · rw [if_pos cA, if_neg (by omega), if_pos (by omega), ← laws.g_comp]
            have hCq : C q := by
              rcases cA with ⟨rfl, c⟩ | ⟨rfl, c⟩
              · exact hCl c
              · exact hCr c
            rw [habove (q / 2) (hparent q (by omega) hCq) (by omega),
              habove (q / 2) (hparent q (by omega) hCq) (by omega)]
          · rw [if_neg cA]
            by_cases cin : l ≤ q ∧ q ≤ r
            · rw [if_pos cin, if_pos (by omega)]
            · rw [if_neg cin, if_neg (by omega)]
      cases d with
      | zero =>
        simp only [pow_zero, zero_add, pow_one] at hl hr hpow hpos hclean habove key ⊢
        rw [updateLoop_done _ _ _ _ _ _ _ (by omega)]
        refine ⟨lz2, rfl, ?_⟩
        apply key lz2 rfl (fun _ _ => rfl) (fun _ _ => rfl)
        intro p _ hp z
        have : p = 0 := by omega
        subst this
        rw [if_neg (by omega)]
        simp only [pendingUp_zero]
      | succ d' =>
        have hpow' : 2 ^ (d' + 1) = 2 * 2 ^ d' := by rw [pow_succ]; omega
        obtain ⟨lz', e1, e2, e3, e4, e5⟩ := ih d' l1 r1 lz2 (by omega) (by omega)
          (by omega) (by omega) hL1 hR1
          (fun j hj hjd => by
            rw [hget j, if_neg (by omega)]
            exact hclean j hj (by omega))
        refine ⟨lz', e1, ?_⟩
        apply key lz' e2 e3 e4
        intro p hpd hp z
        have hcong : ∀ w : T, pendingUp o.g o.ei lz2 p w = pendingUp o.g o.ei lz p w := by
          intro w
          apply pendingUp_congr_le
          intro j _ hj
          rw [hget j, if_neg (by omega)]
        rw [e5 p (by omega) hp z, hcong]
        by_cases cin : l1 ≤ p ∧ p ≤ r1
        · rw [if_pos cin, if_pos (by omega)]
        · rw [if_neg cin, if_neg (by omega)]
    · rw [if_neg hlr]
      refine ⟨lz, rfl, rfl, fun _ _ => rfl, fun _ _ => rfl, ?_⟩
      intro q _ _ y
      rw [if_neg (by omega)]

/-! ## Lazy tree: `Update` -/

theorem nearPath_parent (a i : Nat) (h : NearPath a i) :
    ∃ k, 1 ≤ k ∧ i / 2 = a >>> k := by
  obtain ⟨k, hk | hk⟩ := h
  · exact ⟨k + 1, by omega, by rw [shr_succ, hk.2]⟩
  · exact ⟨k + 1, by omega, by rw [shr_succ, hk.2, (xor_one_facts _).1]⟩

theorem shr_pos_le_half (x k : Nat) (hk : 1 ≤ k) : x >>> k ≤ x / 2 := by
  obtain ⟨t, rfl⟩ : ∃ t, k = t + 1 := ⟨k - 1, by omega⟩
  rw [shr_succ_left]
  exact shr_le _ _

/-- Method `DataPropagateFromLeaf(idx)` ends; it writes `data` only at internal
nodes, keeps `lazy`, and with a commutative `f` the stored-aggregate invariant
holds afterwards at every proper ancestor of `idx` and wherever it held before
away from those ancestors. -/
theorem DPFL_inv {T E : Type} (o : LazyOps T E) (hcomm : ∀ a b, o.f a b = o.f b a)
    (s : LazySegmentTree T E) (hd : s.data.length = 2 * s.n) (idx : Nat)
    (hidx : idx < 2 * s.n) (Q : Nat → Prop)
    (hinv : ∀ j, 1 ≤ j → j < s.n → (∀ k, 1 ≤ k → j ≠ idx >>> k) → Q j →
      LazySegmentTree.InvAt o s j) :
    ∃ s', LazySegmentTree.DataPropagateFromLeaf o s idx = some s' ∧ s'.n = s.n ∧
      s'.lazy = s.lazy ∧ s'.data.length = s.data.length ∧
      (∀ j, s.n ≤ j → s'.data.getD j o.ti = s.data.getD j o.ti) ∧
      ∀ j, 1 ≤ j → j < s.n → Q j → LazySegmentTree.InvAt o s' j := by
  obtain ⟨s', e1, e2, e3, e4, e5, e6⟩ := dataPropagateLoop_spec o (2 * s.n) idx s hd hidx hidx
  refine ⟨s', e1, e2, e3, e4, ?_, ?_⟩
  · intro j hj
    apply e5
    intro k hk
    have := shr_pos_le_half idx k hk
    omega
  · intro j hj1 hj2 hq
    by_cases anc : ∃ k, 1 ≤ k ∧ j = idx >>> k
    · obtain ⟨k, hk, rfl⟩ := anc
      exact e6 hcomm k hk hj1
    · have hna : ∀ k, 1 ≤ k → j ≠ idx >>> k := fun k hk c => anc ⟨k, hk, c⟩
      have h0 := hinv j hj1 hj2 hna hq
      have hc : ∀ c, c / 2 = j → ∀ k, 1 ≤ k → c ≠ idx >>> k := by
        intro c hcj k hk cc
        apply hna (k + 1) (by omega)
        rw [shr_succ, ← cc, hcj]
      simp only [LazySegmentTree.InvAt] at h0 ⊢
      rw [e5 j hna, e5 (2 * j) (hc _ (by omega)), e5 (2 * j + 1) (hc _ (by omega)), e3]
      exact h0

theorem LazySegmentTree.Update_eq {T E : Type} (o : LazyOps T E) (s : LazySegmentTree T E)
    (l r : Nat) (hlr : l < r) (hr : r ≤ s.n) (x : E) :
    LazySegmentTree.Update o s (l : Int) (r : Int) x =
      (updateLoop o.h o.ei x (2 * s.n) (l + s.n) (r + (s.n - 1))
        (LazySegmentTree.LazyPropagateFromRoot o
          (LazySegmentTree.LazyPropagateFromRoot o s (l + s.n)) (r + (s.n - 1))).lazy).bind
      fun lz =>
        (LazySegmentTree.DataPropagateFromLeaf o
          { LazySegmentTree.LazyPropagateFromRoot o
              (LazySegmentTree.LazyPropagateFromRoot o s (l + s.n)) (r + (s.n - 1)) with
            lazy := lz } (l + s.n)).bind
        fun s4 => LazySegmentTree.DataPropagateFromLeaf o s4 (r + (s.n - 1)) := by
  simp only [LazySegmentTree.Update]
  rw [if_pos (by omega)]
  simp only [Int.toNat_ofNat]

/-- In a state that satisfies the invariant, `Update(l, r, x)` ends, keeps the
invariant, and applies `x` to the logical value of exactly the elements of
`[l, r)`. -/
theorem LazySegmentTree.Update_spec {T E : Type} (o : LazyOps T E) (laws : LazyLaws o)
    (s : LazySegmentTree T E) (hs : LazySegmentTree.Good o s) (l r : Nat) (hlr : l < r)
    (hr : r ≤ s.n) (x : E) :
    ∃ s', LazySegmentTree.Update o s (l : Int) (r : Int) x = some s' ∧
      LazySegmentTree.Good o s' ∧ s'.n = s.n ∧
      ∀ j, j < s.n → LazySegmentTree.leafValue o s' j =
        if l ≤ j ∧ j < r then o.g (LazySegmentTree.leafValue o s j) x
        else LazySegmentTree.leafValue o s j := by
  obtain ⟨hwf, hinv⟩ := hs
  have hpos := WF_pos s hwf
  have ha : l + s.n < 2 * s.n := by omega
  have hb : r + (s.n - 1) < 2 * s.n := by omega
  obtain ⟨wf2, n2, c2⟩ := LPFR2_shape_clean o (laws.h_left_id o.ei) s hwf _ _ ha hb
  obtain ⟨v2, i2⟩ := LPFR2_values o laws s hwf _ _ ha hb (fun _ => True)
  have inv2 := i2 (fun j h1 h2 _ => hinv j h1 h2)
  have hC := closedSet_or (nearPath_closed (l + s.n)) (nearPath_closed (r + (s.n - 1)))
  rw [LazySegmentTree.Update_eq o s l r hlr hr]
  generalize LazySegmentTree.LazyPropagateFromRoot o
    (LazySegmentTree.LazyPropagateFromRoot o s (l + s.n)) (r + (s.n - 1)) = s2
    at wf2 n2 c2 v2 inv2 ⊢
  obtain ⟨d2, l2, k, hk30, hk⟩ := wf2
  rw [n2] at d2 l2 hk
  have hpow : 2 ^ (k + 1) = 2 * 2 ^ k := by rw [pow_succ]; omega
  obtain ⟨lz, u1, u2, _, u4, u5⟩ := updateLoop_spec (T := T) o laws x _ hC (2 * s.n) k
    (l + s.n) (r + (s.n - 1)) s2.lazy (by omega) (by omega) (by omega) (by omega)
    (Or.inl (Or.inl (nearPath_self _ (by omega))))
    (Or.inl (Or.inr (nearPath_self _ (by omega))))
    (fun j hj _ => c2 j hj)
  rw [u1, Option.some_bind]
  -- children whose pending effect changed have a parent on one of the two paths
  have hchild : ∀ c, 2 ≤ c → (∀ k, 1 ≤ k → c / 2 ≠ (l + s.n) >>> k) →
      (∀ k, 1 ≤ k → c / 2 ≠ (r + (s.n - 1)) >>> k) →
      lz.getD c o.ei = s2.lazy.getD c o.ei := by
    intro c _ h1 h2
    apply u4
    rintro (hc | hc)
    · obtain ⟨k, hk1, e⟩ := nearPath_parent _ _ hc
      exact h1 k hk1 e
    · obtain ⟨k, hk1, e⟩ := nearPath_parent _ _ hc
      exact h2 k hk1 e
  obtain ⟨s4, p1, p2, p3, p4, p5, p6⟩ := DPFL_inv o laws.f_laws.comm
    { s2 with lazy := lz } (by simp only; rw [d2, n2]) (l + s.n)
    (by simp only; rw [n2]; exact ha)
    (fun j => ∀ k, 1 ≤ k → j ≠ (r + (s.n - 1)) >>> k)
    (fun j hj1 hj2 hna hnb => by
      have h0 := inv2 j hj1 (by simpa [n2] using hj2) trivial
      simp only [LazySegmentTree.InvAt] at h0 ⊢
      rw [hchild (2 * j) (by omega) (fun k hk c => hna k hk (by omega))
          (fun k hk c => hnb k hk (by omega)),
        hchild (2 * j + 1) (by omega) (fun k hk c => hna k hk (by omega))
          (fun k hk c => hnb k hk (by omega))]
      exact h0)
  rw [p1, Option.some_bind]
  simp only at p2 p3 p4 p5 p6
  obtain ⟨s5, q1, q2, q3, q4, q5, q6⟩ := DPFL_inv o laws.f_laws.comm s4
    (by rw [p4, p2, d2, n2]) (r + (s.n - 1)) (by rw [p2, n2]; exact hb) (fun _ => True)
    (fun j hj1 hj2 hnb _ => p6 j hj1 (by rw [← p2]; exact hj2) hnb)
  rw [p2] at q2 q5 q6
  rw [n2] at p5 q2 q5 q6
  refine ⟨s5, q1, ⟨⟨by rw [q4, p4, d2, q2], by rw [q3, p3, u2, l2, q2], k, hk30, by rw [q2, hk]⟩,
    fun i h1 h2 => q6 i h1 (by rw [← q2]; exact h2) trivial⟩, q2, ?_⟩
  intro j hj
  simp only [LazySegmentTree.leafValue]
  rw [q2, q3, p3, q5 _ (by omega), p5 _ (by omega), u5 (s.n + j) (by omega) (by omega)]
  have e : pendingUp o.g o.ei s2.lazy (s.n + j) (s2.data.getD (s.n + j) o.ti) =
      pendingUp o.g o.ei s.lazy (s.n + j) (s.data.getD (s.n + j) o.ti) :=
    v2 (s.n + j) (by omega)
  rw [e]
  by_cases c : l ≤ j ∧ j < r
  · rw [if_pos c, if_pos (by omega)]
  · rw [if_neg c, if_neg (by omega)]

/-! ## Lazy tree: `SetVal`, construction, reachable states -/

/-- One `LazyPropagateFromRoot` call keeps the shape, the logical aggregates
and the stored-aggregate invariant wherever it held. -/
theorem LPFR1_spec {T E : Type} (o : LazyOps T E) (laws : LazyLaws o)
    (s : LazySegmentTree T E) (hwf : LazySegmentTree.WF s) (a : Nat)
    (ha : a < 2 * s.n) (Q : Nat → Prop) :
    LazySegmentTree.WF (LazySegmentTree.LazyPropagateFromRoot o s a) ∧
    (LazySegmentTree.LazyPropagateFromRoot o s a).n = s.n ∧
    (∀ q, q < 2 * s.n → LazySegmentTree.nodeValue o (LazySegmentTree.LazyPropagateFromRoot o s a) q
      = LazySegmentTree.nodeValue o s q) ∧
    ((∀ j, 1 ≤ j → j < s.n → Q j → LazySegmentTree.InvAt o s j) →
      ∀ j, 1 ≤ j → j < s.n → Q j →
        LazySegmentTree.InvAt o (LazySegmentTree.LazyPropagateFromRoot o s a) j) := by
  have hpos := WF_pos s hwf
  obtain ⟨hd, hl, hk⟩ := hwf
  obtain ⟨n1, d1, l1, v1⟩ := LPFR_induct o s.n hpos.1
    (fun t => ∀ q, q < 2 * s.n → LazySegmentTree.nodeValue o t q = LazySegmentTree.nodeValue o s q)
    (fun t i tn td tl i1 i2 ht q hq => by
      rw [PAO_nodeValue o laws t i (by rw [tn]; exact td) (by rw [tn]; exact tl) i1
        (by rw [tn]; exact i2) q (by rw [tn]; exact hq)]
      exact ht q hq)
    a ha s rfl hd hl (fun _ _ => rfl)
  refine ⟨⟨by rw [d1, n1], by rw [l1, n1], by rw [n1]; exact hk⟩, n1, v1, ?_⟩
  intro hinv
  exact (LPFR_induct o s.n hpos.1
    (fun t => ∀ j, 1 ≤ j → j < s.n → Q j → LazySegmentTree.InvAt o t j)
    (fun t i tn td tl i1 i2 ht j hj1 hj2 hq =>
      PAO_invAt o laws t i (by rw [tn]; exact td) (by rw [tn]; exact tl) i1
        (by rw [tn]; exact i2) j hj1 (by rw [tn]; exact hj2) (ht j hj1 hj2 hq))
    a ha s rfl hd hl hinv).2.2.2

theorem LazySegmentTree.SetVal_eq {T E : Type} (o : LazyOps T E) (s : LazySegmentTree T E)
    (idx : Nat) (hidx : idx < s.n) (x : T) :
    LazySegmentTree.SetVal o s (idx : Int) x =
      LazySegmentTree.DataPropagateFromLeaf o
        (LazySegmentTree.LazyPropagateFromRoot o
          { s with data := s.data.set (s.n + idx) x } (s.n + idx))
        (s.n + idx) := by
  simp only [LazySegmentTree.SetVal]
  rw [if_pos (by omega)]
  simp only [Int.toNat_ofNat]

/-- In a state that satisfies the invariant, `SetVal(idx, x)` ends and keeps
the invariant; the logical value of element `idx` becomes `x` with the effects
that were pending on its root path applied to it, the other elements keep
their logical value. -/
theorem LazySegmentTree.SetVal_spec {T E : Type} (o : LazyOps T E) (laws : LazyLaws o)
    (s : LazySegmentTree T E) (hs : LazySegmentTree.Good o s) (idx : Nat) (hidx : idx < s.n)
    (x : T) :
    ∃ s', LazySegmentTree.SetVal o s (idx : Int) x = some s' ∧
      LazySegmentTree.Good o s' ∧ s'.n = s.n ∧
      ∀ j, j < s.n → LazySegmentTree.leafValue o s' j =
        if j = idx then pendingUp o.g o.ei s.lazy (s.n + idx) x
        else LazySegmentTree.leafValue o s j := by
  obtain ⟨hwf, hinv⟩ := hs
  have hpos := WF_pos s hwf
  have hd := hwf.1
  have hwf0 : LazySegmentTree.WF { s with data := s.data.set (s.n + idx) x } :=
    ⟨by simp only [List.length_set]; exact hwf.1, hwf.2.1, hwf.2.2⟩
  obtain ⟨wf1, n1, v1, i1⟩ := LPFR1_spec o laws _ hwf0 (s.n + idx) (by simp only; omega)
    (fun j => ∀ k, 1 ≤ k → j ≠ (s.n + idx) >>> k)
  have inv1 := i1 (fun j hj1 hj2 hq => by
    have h0 := hinv j hj1 hj2
    have h1 := hq 1 (Nat.le_refl _)
    rw [shr_one] at h1
    simp only at hj2
    simp only [LazySegmentTree.InvAt] at h0 ⊢
    rw [getD_set_ne _ _ _ _ _ (by omega), getD_set_ne _ _ _ _ _ (by omega),
      getD_set_ne _ _ _ _ _ (by omega)]
    exact h0)
  rw [LazySegmentTree.SetVal_eq o s idx hidx]
  generalize LazySegmentTree.LazyPropagateFromRoot o
    { s with data := s.data.set (s.n + idx) x } (s.n + idx) = s1 at wf1 n1 v1 inv1 ⊢
  simp only at n1 v1 inv1
  obtain ⟨s2, q1, q2, q3, q4, q5, q6⟩ := DPFL_inv o laws.f_laws.comm s1 wf1.1 (s.n + idx)
    (by rw [n1]; omega) (fun _ => True)
    (fun j hj1 hj2 hna _ => inv1 j hj1 (by rw [← n1]; exact hj2) hna)
  rw [n1] at q2 q5 q6
  obtain ⟨d1, l1, k, hk30, hk⟩ := wf1
  rw [n1] at d1 l1 hk
  refine ⟨s2, q1, ⟨⟨by rw [q4, d1, q2], by rw [q3, l1, q2], k, hk30, by rw [q2, hk]⟩,
    fun i h1 h2 => q6 i h1 (by rw [← q2]; exact h2) trivial⟩, q2, ?_⟩
  intro j hj
  simp only [LazySegmentTree.leafValue]
  rw [q2, q3, q5 _ (by omega)]
  have e := v1 (s.n + j) (by omega)
  simp only [LazySegmentTree.nodeValue] at e
  rw [e]
  by_cases c : j = idx
  · subst c
    rw [if_pos rfl, getD_set_eq _ _ _ _ (by omega)]
  · rw [if_neg c, getD_set_ne _ _ _ _ _ (by omega)]

/-- The constructor of the lazy tree ends, for an input of at most `2^30`
elements, in a state of the right shape whose leaves hold the input padded
with `ti` and whose `lazy` entries all equal `ei`. -/
theorem LazySegmentTree.construct_shape {T E : Type} (o : LazyOps T E) (d : List T)
    (hlen : d.length ≤ 2 ^ 30) :
    ∃ s, LazySegmentTree.construct o d = some s ∧ LazySegmentTree.WF s ∧ d.length ≤ s.n ∧
      (∀ j, s.lazy.getD j o.ei = o.ei) ∧
      (∀ j, j < s.n → s.data.getD (s.n + j) o.ti = d.getD j o.ti) ∧
      ∀ i, 1 ≤ i → i < s.n →
        s.data.getD i o.ti = o.f (s.data.getD (2 * i) o.ti) (s.data.getD (2 * i + 1) o.ti) := by
  obtain ⟨m, k, h1, h2, h3, h4⟩ := sizeLoop_spec d.length 1 d.length (Nat.le_refl _) (by omega)
  have hm : 1 ≤ m := by rw [h2]; simpa using Nat.one_le_two_pow
  obtain ⟨b1, b2, b3⟩ := built_data_spec ⟨o.f, o.ti⟩ d m hm h3
  have hk : k ≤ 30 := by
    rw [Nat.one_mul] at h2
    by_contra hc
    have : 2 ^ 31 ≤ 2 ^ k := Nat.pow_le_pow_right (by omega) (by omega)
    have e31 : (2 : Nat) ^ 31 = 2 * 2 ^ 30 := by norm_num
    omega
  refine ⟨_, by simp only [LazySegmentTree.construct, h1, Option.map_some']; rfl, ?_, h3, ?_,
    b2, b3⟩
  · exact ⟨b1, by simp, k, hk, by simpa using h2⟩
  · intro j
    exact getD_replicate _ _ _

theorem LazySegmentTree.construct_spec {T E : Type} (o : LazyOps T E)
    (hg : ∀ x, o.g x o.ei = x) (d : List T) (hlen : d.length ≤ 2 ^ 30) :
    ∃ s, LazySegmentTree.construct o d = some s ∧ LazySegmentTree.Good o s ∧ d.length ≤ s.n ∧
      (∀ j, s.lazy.getD j o.ei = o.ei) ∧
      ∀ j, j < s.n → LazySegmentTree.leafValue o s j = d.getD j o.ti := by
  obtain ⟨s, e1, e2, e3, e4, e5, e6⟩ := LazySegmentTree.construct_shape o d hlen
  refine ⟨s, e1, ⟨e2, ?_⟩, e3, e4, ?_⟩
  · intro i h1 h2
    simp only [LazySegmentTree.InvAt]
    rw [e4, e4, hg, hg]
    exact e6 i h1 h2
  · intro j hj
    simp only [LazySegmentTree.leafValue]
    rw [pendingUp_clean o hg s.lazy (fun _ => True) (fun _ _ _ => trivial) (fun j _ => e4 j) _
      trivial]
    exact e5 j hj

/-- Every state reachable by the public operations satisfies the shape and
stored-aggregate invariant, under the operator laws. -/
theorem LazySegmentTree.Reachable_good {T E : Type} (o : LazyOps T E) (laws : LazyLaws o)
    (s : LazySegmentTree T E) (h : LazySegmentTree.Reachable o s) :
    LazySegmentTree.Good o s := by
  induction h with
  | construct d s hlen hd =>
    obtain ⟨s', e1, e2, _⟩ := LazySegmentTree.construct_spec o laws.g_id d hlen
    rw [hd] at e1
    cases e1
    exact e2
  | setVal s s' idx x _ hset ih =>
    by_cases hv : 0 ≤ idx ∧ idx < (s.n : Int)
    · obtain ⟨i, rfl⟩ := Int.eq_ofNat_of_zero_le hv.1
      obtain ⟨s'', e1, e2, _⟩ := LazySegmentTree.SetVal_spec o laws s ih i (by omega) x
      rw [hset] at e1
      cases e1
      exact e2
    · simp [LazySegmentTree.SetVal, hv] at hset
  | update s s' l r x _ hup ih =>
    by_cases hv : ((0 ≤ l ∧ l < (s.n : Int)) ∧ (0 < r ∧ r ≤ (s.n : Int))) ∧ l < r
    · obtain ⟨l', rfl⟩ := Int.eq_ofNat_of_zero_le hv.1.1.1
      obtain ⟨r', rfl⟩ := Int.eq_ofNat_of_zero_le (Int.le_of_lt hv.1.2.1)
      obtain ⟨s'', e1, e2, _⟩ := LazySegmentTree.Update_spec o laws s ih l' r' (by omega)
        (by omega) x
      rw [hup] at e1
      cases e1
      exact e2
    · simp [LazySegmentTree.Update, hv] at hup
  | query s s' l r v _ hq ih =>
    by_cases hv : ((0 ≤ l ∧ l < (s.n : Int)) ∧ (0 < r ∧ r ≤ (s.n : Int))) ∧ l < r
    · obtain ⟨l', rfl⟩ := Int.eq_ofNat_of_zero_le hv.1.1.1
      obtain ⟨r', rfl⟩ := Int.eq_ofNat_of_zero_le (Int.le_of_lt hv.1.2.1)
      obtain ⟨s'', e1, e2, _⟩ := LazySegmentTree.Query_spec o laws s ih l' r' (by omega)
        (by omega)
      rw [hq] at e1
      cases e1
      exact e2
    · simp [LazySegmentTree.Query, hv] at hq

/-! ## Shape of the reachable states, without operator laws -/

theorem LPFR_wf {T E : Type} (o : LazyOps T E) (s : LazySegmentTree T E)
    (hwf : LazySegmentTree.WF s) (a : Nat) (ha : a < 2 * s.n) :
    LazySegmentTree.WF (LazySegmentTree.LazyPropagateFromRoot o s a) ∧
    (LazySegmentTree.LazyPropagateFromRoot o s a).n = s.n := by
  have hpos := WF_pos s hwf
  obtain ⟨hd, hl, hk⟩ := hwf
  obtain ⟨n1, d1, l1, _⟩ := LPFR_induct o s.n hpos.1 (fun _ => True)
    (fun _ _ _ _ _ _ _ _ => trivial) a ha s rfl hd hl trivial
  exact ⟨⟨by rw [d1, n1], by rw [l1, n1], by rw [n1]; exact hk⟩, n1⟩

theorem updateLoop_some {E : Type} (h : E → E → E) (ei x : E) (fuel l r : Nat) (lz : List E)
    (hl1 : 1 ≤ l) (hfuel : r < fuel) :
    ∃ lz', updateLoop h ei x fuel l r lz = some lz' ∧ lz'.length = lz.length := by
  induction fuel generalizing l r lz with
  | zero => omega
  | succ fuel ih =>
    rw [updateLoop_succ]
    by_cases hlr : l ≤ r
    · rw [if_pos hlr]
      obtain ⟨lz', e1, e2⟩ := ih ((if l % 2 = 1 then l + 1 else l) / 2)
        ((if r % 2 = 0 then r - 1 else r) / 2) _ (by split <;> omega) (by split <;> omega)
      exact ⟨lz', e1, by rw [e2, updateStep_length]⟩
    · rw [if_neg hlr]; exact ⟨_, rfl, rfl⟩

theorem DPFL_wf {T E : Type} (o : LazyOps T E) (s : LazySegmentTree T E)
    (hwf : LazySegmentTree.WF s) (idx : Nat) (hidx : idx < 2 * s.n) :
    ∃ s', LazySegmentTree.DataPropagateFromLeaf o s idx = some s' ∧ LazySegmentTree.WF s' ∧
      s'.n = s.n := by
  obtain ⟨s', e1, e2, e3, e4, _⟩ := dataPropagateLoop_spec o (2 * s.n) idx s hwf.1 hidx hidx
  exact ⟨s', e1, ⟨by rw [e4, e2]; exact hwf.1, by rw [e3, e2]; exact hwf.2.1,
    by rw [e2]; exact hwf.2.2⟩, e2⟩

theorem LazySegmentTree.SetVal_wf {T E : Type} (o : LazyOps T E) (s : LazySegmentTree T E)
    (hwf : LazySegmentTree.WF s) (idx : Nat) (hidx : idx < s.n) (x : T) :
    ∃ s', LazySegmentTree.SetVal o s (idx : Int) x = some s' ∧ LazySegmentTree.WF s' ∧
      s'.n = s.n := by
  have hwf0 : LazySegmentTree.WF { s with data := s.data.set (s.n + idx) x } :=
    ⟨by simp only [List.length_set]; exact hwf.1, hwf.2.1, hwf.2.2⟩
  obtain ⟨wf1, n1⟩ := LPFR_wf o _ hwf0 (s.n + idx) (by simp only; omega)
  rw [LazySegmentTree.SetVal_eq o s idx hidx]
  simp only at n1
  obtain ⟨s', e1, e2, e3⟩ := DPFL_wf o _ wf1 (s.n + idx) (by rw [n1]; omega)
  exact ⟨s', e1, e2, by rw [e3, n1]⟩

theorem LazySegmentTree.Update_wf {T E : Type} (o : LazyOps T E) (s : LazySegmentTree T E)
    (hwf : LazySegmentTree.WF s) (l r : Nat) (hlr : l < r) (hr : r ≤ s.n) (x : E) :
    ∃ s', LazySegmentTree.Update o s (l : Int) (r : Int) x = some s' ∧
      LazySegmentTree.WF s' ∧ s'.n = s.n := by
  have hpos := WF_pos s hwf
  obtain ⟨wf1, n1⟩ := LPFR_wf o s hwf (l + s.n) (by omega)
  obtain ⟨wf2, n2⟩ := LPFR_wf o _ wf1 (r + (s.n - 1)) (by rw [n1]; omega)
  rw [n1] at n2
  rw [LazySegmentTree.Update_eq o s l r hlr hr]
  generalize LazySegmentTree.LazyPropagateFromRoot o
    (LazySegmentTree.LazyPropagateFromRoot o s (l + s.n)) (r + (s.n - 1)) = s2 at wf2 n2 ⊢
  obtain ⟨lz, u1, u2⟩ := updateLoop_some o.h o.ei x (2 * s.n) (l + s.n) (r + (s.n - 1))
    s2.lazy (by omega) (by omega)
  rw [u1, Option.some_bind]
  have wf3 : LazySegmentTree.WF { s2 with lazy := lz } :=
    ⟨wf2.1, by simp only; rw [u2]; exact wf2.2.1, wf2.2.2⟩
  obtain ⟨s4, p1, p2, p3⟩ := DPFL_wf o _ wf3 (l + s.n) (by simp only; rw [n2]; omega)
  rw [p1, Option.some_bind]
  simp only at p3
  obtain ⟨s5, q1, q2, q3⟩ := DPFL_wf o _ p2 (r + (s.n - 1)) (by rw [p3, n2]; omega)
  exact ⟨s5, q1, q2, by rw [q3, p3, n2]⟩

theorem LazySegmentTree.Query_wf {T E : Type} (o : LazyOps T E) (s : LazySegmentTree T E)
    (hwf : LazySegmentTree.WF s) (l r : Nat) (hlr : l < r) (hr : r ≤ s.n) :
    ∃ v, LazySegmentTree.Query o s (l : Int) (r : Int) =
        some (v, LazySegmentTree.LazyPropagateFromRoot o
          (LazySegmentTree.LazyPropagateFromRoot o s (l + s.n)) (r + (s.n - 1))) ∧
      LazySegmentTree.WF (LazySegmentTree.LazyPropagateFromRoot o
          (LazySegmentTree.LazyPropagateFromRoot o s (l + s.n)) (r + (s.n - 1))) ∧
      (LazySegmentTree.LazyPropagateFromRoot o
          (LazySegmentTree.LazyPropagateFromRoot o s (l + s.n)) (r + (s.n - 1))).n = s.n := by
  have hpos := WF_pos s hwf
  obtain ⟨wf1, n1⟩ := LPFR_wf o s hwf (l + s.n) (by omega)
  obtain ⟨wf2, n2⟩ := LPFR_wf o _ wf1 (r + (s.n - 1)) (by rw [n1]; omega)
  rw [n1] at n2
  rw [LazySegmentTree.Query_eq o s l r hlr hr]
  obtain ⟨v, hv⟩ := queryLoop_some o.f o.ti
    (LazySegmentTree.LazyPropagateFromRoot o
      (LazySegmentTree.LazyPropagateFromRoot o s (l + s.n)) (r + (s.n - 1))).data
    (2 * s.n) (l + s.n) (r + (s.n - 1)) o.ti o.ti (by omega) (by omega)
  exact ⟨v, by rw [hv]; rfl, wf2, n2⟩

theorem lazy_validRange_nat {T E : Type} (s : LazySegmentTree T E) (l r : Int)
    (h : LazySegmentTree.ValidRange s l r) :
    ∃ l' r' : Nat, l = (l' : Int) ∧ r = (r' : Int) ∧ l' < r' ∧ r' ≤ s.n := by
  obtain ⟨⟨⟨h1, h2⟩, h3, h4⟩, h5⟩ := h
  obtain ⟨l', rfl⟩ := Int.eq_ofNat_of_zero_le h1
  obtain ⟨r', rfl⟩ := Int.eq_ofNat_of_zero_le (Int.le_of_lt h3)
  exact ⟨l', r', rfl, rfl, by omega, by omega⟩

theorem plain_validRange_nat {T : Type} (s : SegmentTree T) (l r : Int)
    (h : SegmentTree.ValidRange s l r) :
    ∃ l' r' : Nat, l = (l' : Int) ∧ r = (r' : Int) ∧ l' < r' ∧ r' < s.n := by
  obtain ⟨⟨⟨h1, h2⟩, h3, h4⟩, h5⟩ := h
  obtain ⟨l', rfl⟩ := Int.eq_ofNat_of_zero_le h1
  obtain ⟨r', rfl⟩ := Int.eq_ofNat_of_zero_le h3
  exact ⟨l', r', rfl, rfl, by omega, by omega⟩

/-- Every state reachable by the public operations has the right shape,
whatever the operators are. -/
theorem LazySegmentTree.Reachable_wf {T E : Type} (o : LazyOps T E)
    (s : LazySegmentTree T E) (h : LazySegmentTree.Reachable o s) :
    LazySegmentTree.WF s := by
  induction h with
  | construct d s hlen hd =>
    obtain ⟨s', e1, e2, _⟩ := LazySegmentTree.construct_shape o d hlen
    rw [hd] at e1
    cases e1
    exact e2
  | setVal s s' idx x _ hset ih =>
    by_cases hv : 0 ≤ idx ∧ idx < (s.n : Int)
    · obtain ⟨i, rfl⟩ := Int.eq_ofNat_of_zero_le hv.1
      obtain ⟨s'', e1, e2, _⟩ := LazySegmentTree.SetVal_wf o s ih i (by omega) x
      rw [hset] at e1
      cases e1
      exact e2
    · simp [LazySegmentTree.SetVal, hv] at hset
  | update s s' l r x _ hup ih =>
    by_cases hv : LazySegmentTree.ValidRange s l r
    · obtain ⟨l', r', rfl, rfl, h1, h2⟩ := lazy_validRange_nat s l r hv
      obtain ⟨s'', e1, e2, _⟩ := LazySegmentTree.Update_wf o s ih l' r' h1 h2 x
      rw [hup] at e1
      cases e1
      exact e2
    · simp only [LazySegmentTree.ValidRange] at hv
      simp [LazySegmentTree.Update, hv] at hup
  | query s s' l r v _ hq ih =>
    by_cases hv : LazySegmentTree.ValidRange s l r
    · obtain ⟨l', r', rfl, rfl, h1, h2⟩ := lazy_validRange_nat s l r hv
      obtain ⟨v', e1, e2, _⟩ := LazySegmentTree.Query_wf o s ih l' r' h1 h2
      rw [hq] at e1
      cases e1
      exact e2
    · simp only [LazySegmentTree.ValidRange] at hv
      simp [LazySegmentTree.Query, hv] at hq

/-- In a state that satisfies the invariant, `Query(j, j+1)` returns the
logical value of element `j`. -/
theorem elementAt_eq {T E : Type} (o : LazyOps T E) (laws : LazyLaws o)
    (s : LazySegmentTree T E) (hs : LazySegmentTree.Good o s) (j : Nat) (hj : j < s.n) :
    LazySegmentTree.elementAt o s j = LazySegmentTree.leafValue o s j := by
  obtain ⟨s', e, _⟩ := LazySegmentTree.Query_spec o laws s hs j (j + 1) (by omega) (by omega)
  have e' : LazySegmentTree.Query o s (j : Int) ((j : Int) + 1) =
      some (foldRange o.f o.ti (LazySegmentTree.leafValue o s) j (j + 1), s') := by
    rw [← e]; rfl
  simp only [LazySegmentTree.elementAt, e']
  unfold foldRange
  have e1 : j + 1 - j = 1 := by omega
  rw [e1, foldFrom_one laws.f_laws]

/-- The instance `rmqOps` is a commutative monoid. -/
theorem rmq_laws : CommMonoidLaws rmqOps.f rmqOps.ti := by
  refine ⟨?_, ?_, ?_⟩ <;> simp only [rmqOps]
  · intro a b c
    split_ifs <;> omega
  · intro a b
    split_ifs <;> omega
  · intro a
    split_ifs <;> omega

/-- The instance `lazyRmqOps` satisfies the operator laws. -/
theorem lazyRmq_laws : LazyLaws lazyRmqOps := by
  refine ⟨⟨?_, ?_, ?_⟩, ?_, ?_, ?_, ?_, ?_, ?_⟩ <;> simp only [lazyRmqOps]
  · intro a b c
    split_ifs <;> omega
  · intro a b
    split_ifs <;> omega
  · intro a
    split_ifs <;> omega
  · intro a b c
    split_ifs <;> rfl
  · intro a
    split_ifs with hc
    · exact hc.symm
    · rfl
  · intro a
    split_ifs <;> rfl
  · intro a
    split_ifs <;> rfl
  · intro a b c
    split_ifs <;> rfl
  · intro a b c
    split_ifs <;> rfl

theorem rmqTree_reachable : SegmentTree.Reachable rmqOps rmqTree :=
  SegmentTree.Reachable.construct [3, 4, 2, 0] rmqTree (by decide)

theorem lazyRmqTree_reachable : LazySegmentTree.Reachable lazyRmqOps lazyRmqTree :=
  LazySegmentTree.Reachable.construct [3, 4, 2, 0] lazyRmqTree (by decide) (by decide)

/-! ## Queries on a freshly built tree -/

theorem foldRange_single {T : Type} {f : T → T → T} {ti : T} (m : CommMonoidLaws f ti)
    (a : Nat → T) (j : Nat) : foldRange f ti a j (j + 1) = a j := by
  unfold foldRange
  have e1 : j + 1 - j = 1 := by omega
  rw [e1, foldFrom_one m]

theorem foldFrom_eq_foldr {T : Type} (f : T → T → T) (ti : T) (a : Nat → T) (l k : Nat) :
    foldFrom f ti a l k = List.foldr f ti ((List.range' l k).map a) := by
  induction k generalizing l with
  | zero => rfl
  | succ k ih =>
    rw [foldFrom_succ, ih, List.range'_succ]
    rfl

theorem foldRange_eq_foldr {T : Type} (f : T → T → T) (ti : T) (a : Nat → T) (l r : Nat) :
    foldRange f ti a l r = List.foldr f ti ((List.range' l (r - l)).map a) :=
  foldFrom_eq_foldr f ti a l (r - l)

/-- The constructor of the lazy tree ends for every input; the leaves hold the
input padded with `ti`, every internal node is the combination of its
children, and every `lazy` entry is `ei`. -/
theorem LazySegmentTree.construct_fresh {T E : Type} (o : LazyOps T E) (d : List T) :
    ∃ s, LazySegmentTree.construct o d = some s ∧ 1 ≤ s.n ∧ d.length ≤ s.n ∧
      s.data.length = 2 * s.n ∧ s.lazy = List.replicate (2 * s.n) o.ei ∧
      (∀ j, j < s.n → s.data.getD (s.n + j) o.ti = d.getD j o.ti) ∧
      ∀ i, 1 ≤ i → i < s.n →
        s.data.getD i o.ti = o.f (s.data.getD (2 * i) o.ti) (s.data.getD (2 * i + 1) o.ti) := by
  obtain ⟨m, k, h1, h2, h3, h4⟩ := sizeLoop_spec d.length 1 d.length (Nat.le_refl _) (by omega)
  have hm : 1 ≤ m := by rw [h2]; simpa using Nat.one_le_two_pow
  obtain ⟨b1, b2, b3⟩ := built_data_spec ⟨o.f, o.ti⟩ d m hm h3
  exact ⟨_, by simp only [LazySegmentTree.construct, h1, Option.map_some']; rfl, hm, h3, b1, rfl,
    b2, b3⟩

/-- On a freshly built lazy tree, `Query(l, r)` returns the fold of the padded
input over `[l, r)` and leaves the tree as it is. -/
theorem LazySegmentTree.fresh_query {T E : Type} (o : LazyOps T E)
    (m : CommMonoidLaws o.f o.ti) (hg : ∀ x, o.g x o.ei = x) (hh : ∀ e, o.h e o.ei = e)
    (d : List T) (l r : Nat) (hlr : l < r) :
    ∃ s, LazySegmentTree.construct o d = some s ∧ d.length ≤ s.n ∧
      (r ≤ s.n → LazySegmentTree.Query o s (l : Int) (r : Int) =
        some (foldRange o.f o.ti (fun j => d.getD j o.ti) l r, s)) := by
  obtain ⟨s, e1, hn, hlen, hd, hl, hleaf, hinv⟩ := LazySegmentTree.construct_fresh o d
  refine ⟨s, e1, hlen, ?_⟩
  intro hr
  have hclean : ∀ j, s.lazy.getD j o.ei = o.ei := by
    intro j; rw [hl]; exact getD_replicate _ _ _
  rw [LazySegmentTree.Query_eq o s l r hlr hr,
    LPFR_eq_self o hg hh s (l + s.n) (by omega) (fun j _ => hclean j),
    LPFR_eq_self o hg hh s (r + (s.n - 1)) (by omega) (fun j _ => hclean j),
    queryLoop_spec m s.data (fun i => s.data.getD i o.ti) s.n (fun _ => True) closedSet_univ
      hinv (fun _ _ => rfl) _ _ _ _ _ (by omega) (by omega) (by omega)
      (Or.inl trivial) (Or.inl trivial)]
  simp only [Option.map_some']
  rw [left_id m, m.right_id, foldRange_leaves _ _ _ _ _ _ hn]
  congr 2
  apply foldRange_congr
  intro i _ hi
  exact hleaf i (by omega)

/-- On a freshly built plain tree, `Query(l, r)` with `l < r < n` returns the
fold of the padded input over the half-open range `[l, r)`. -/
theorem SegmentTree.plain_fresh_query {T : Type} (o : Ops T) (m : CommMonoidLaws o.f o.ti)
    (d : List T) (l r : Nat) (hlr : l < r) :
    ∃ s, SegmentTree.construct o d = some s ∧ d.length ≤ s.n ∧
      (r < s.n → SegmentTree.Query o s (l : Int) (r : Int) =
        some (foldRange o.f o.ti (fun j => d.getD j o.ti) l r)) := by
  obtain ⟨s, e1, hg, hlen, hleaf⟩ := SegmentTree.plain_construct_spec o d
  refine ⟨s, e1, hlen, ?_⟩
  intro hr
  rw [SegmentTree.plain_Query_spec o m s hg l r hlr hr]
  congr 1
  apply foldRange_congr
  intro i _ hi
  exact hleaf i (by omega)

/-! ## The claims -/

/-- C1. Under the operator laws, in every reachable state a valid
`Update(l, r, e)` ends and afterwards every valid `Query(l', r')` returns the
fold over `[l', r')` of the former element values `a j` (what `Query(j, j+1)`
returned before the update), with `g (a j) e` in place of `a j` exactly for
`l ≤ j < r`; every element outside `[l, r)` keeps its value. -/
theorem C1_update_applies_effect_to_range {T E : Type} (o : LazyOps T E) (laws : LazyLaws o)
    (s : LazySegmentTree T E) (hs : LazySegmentTree.Reachable o s) (l r : Int) (e : E)
    (hv : LazySegmentTree.ValidRange s l r) :
    ∃ s', LazySegmentTree.Update o s l r e = some s' ∧ s'.n = s.n ∧
      (∀ l' r' : Int, LazySegmentTree.ValidRange s l' r' →
        ∃ s'', LazySegmentTree.Query o s' l' r' =
          some (foldRange o.f o.ti
            (fun j => if l ≤ (j : Int) ∧ (j : Int) < r then
                o.g (LazySegmentTree.elementAt o s j) e
              else LazySegmentTree.elementAt o s j) l'.toNat r'.toNat, s'')) ∧
      ∀ j : Nat, j < s.n → ¬ (l ≤ (j : Int) ∧ (j : Int) < r) →
        LazySegmentTree.elementAt o s' j = LazySegmentTree.elementAt o s j := by
  have hgood := LazySegmentTree.Reachable_good o laws s hs
  obtain ⟨ln, rn, rfl, rfl, h1, h2⟩ := lazy_validRange_nat s l r hv
  obtain ⟨s', e1, g1, n1, lv⟩ := LazySegmentTree.Update_spec o laws s hgood ln rn h1 h2 e
  refine ⟨s', e1, n1, ?_, ?_⟩
  · intro l' r' hv'
    obtain ⟨la, ra, rfl, rfl, h3, h4⟩ := lazy_validRange_nat s l' r' hv'
    obtain ⟨s'', q1, _⟩ := LazySegmentTree.Query_spec o laws s' g1 la ra h3 (by rw [n1]; exact h4)
    refine ⟨s'', ?_⟩
    rw [q1]
    simp only [Int.toNat_ofNat]
    congr 2
    apply foldRange_congr
    intro j _ hj
    rw [lv j (by omega), elementAt_eq o laws s hgood j (by omega)]
    simp only [Nat.cast_le, Nat.cast_lt]
  · intro j hj hnot
    rw [elementAt_eq o laws s' g1 j (by rw [n1]; exact hj), elementAt_eq o laws s hgood j hj,
      lv j hj, if_neg]
    simpa using hnot

theorem C1_update_applies_effect_to_range_witness :
    ∃ s', LazySegmentTree.Update lazyRmqOps lazyRmqTree 1 3 7 = some s' ∧ s'.n = lazyRmqTree.n ∧
      (∀ l' r' : Int, LazySegmentTree.ValidRange lazyRmqTree l' r' →
        ∃ s'', LazySegmentTree.Query lazyRmqOps s' l' r' =
          some (foldRange lazyRmqOps.f lazyRmqOps.ti
            (fun j => if (1 : Int) ≤ (j : Int) ∧ (j : Int) < 3 then
                lazyRmqOps.g (LazySegmentTree.elementAt lazyRmqOps lazyRmqTree j) 7
              else LazySegmentTree.elementAt lazyRmqOps lazyRmqTree j) l'.toNat r'.toNat, s'')) ∧
      ∀ j : Nat, j < lazyRmqTree.n → ¬ ((1 : Int) ≤ (j : Int) ∧ (j : Int) < 3) →
        LazySegmentTree.elementAt lazyRmqOps s' j =
          LazySegmentTree.elementAt lazyRmqOps lazyRmqTree j :=
  C1_update_applies_effect_to_range lazyRmqOps lazyRmq_laws lazyRmqTree lazyRmqTree_reachable
    1 3 7 (by decide)

/-- C2. The code writes the leaf before it pushes the pending effects down, so
`LazyPropagateFromRoot` applies them to the new value: with the operators of
the range-minimum test (which satisfy the laws), on the tree built from
`[3, 4, 2, 0]`, after `Update(0, 4, 7)` the call `SetVal(1, 100)` followed by
`Query(1, 2)` returns `7` and not `100`. -/
theorem C2_setVal_applies_pending_effect_to_new_value :
    LazyLaws lazyRmqOps ∧
    ((LazySegmentTree.construct lazyRmqOps [3, 4, 2, 0]).bind fun s0 =>
      (LazySegmentTree.Update lazyRmqOps s0 0 4 7).bind fun s1 =>
      (LazySegmentTree.SetVal lazyRmqOps s1 1 100).bind fun s2 =>
      (LazySegmentTree.Query lazyRmqOps s2 1 2).map Prod.fst) = some 7 :=
  ⟨lazyRmq_laws, by decide⟩

/-- C3. For a commutative monoid `(f, ti)`, `g x ei = x` and `h e ei = e`: the
constructor of the lazy tree ends for every input `d`, and on the tree just
built every valid `Query(l, r)` returns the fold of `f` over the elements
`d[l..r)`, positions at or beyond the length of `d` counting as `ti`; for a
non-empty `d` this includes `Query(0, len d)`, the fold of the whole input. -/
theorem C3_fresh_lazy_query_is_fold {T E : Type} (o : LazyOps T E)
    (m : CommMonoidLaws o.f o.ti) (hg : ∀ x, o.g x o.ei = x) (hh : ∀ e, o.h e o.ei = e)
    (d : List T) :
    ∃ s, LazySegmentTree.construct o d = some s ∧
      (∀ l r : Int, LazySegmentTree.ValidRange s l r →
        LazySegmentTree.Query o s l r =
          some (foldRange o.f o.ti (fun j => d.getD j o.ti) l.toNat r.toNat, s)) ∧
      (d ≠ [] → LazySegmentTree.Query o s 0 (d.length : Int) =
          some (foldRange o.f o.ti (fun j => d.getD j o.ti) 0 d.length, s)) := by
  obtain ⟨s, e1, hlen, _⟩ := LazySegmentTree.fresh_query o m hg hh d 0 1 (by omega)
  have key : ∀ l r : Nat, l < r → r ≤ s.n → LazySegmentTree.Query o s (l : Int) (r : Int) =
      some (foldRange o.f o.ti (fun j => d.getD j o.ti) l r, s) := by
    intro l r hlr hr
    obtain ⟨s', e1', _, q⟩ := LazySegmentTree.fresh_query o m hg hh d l r hlr
    rw [e1] at e1'
    cases e1'
    exact q hr
  refine ⟨s, e1, ?_, ?_⟩
  · intro l r hv
    obtain ⟨ln, rn, rfl, rfl, h1, h2⟩ := lazy_validRange_nat s l r hv
    simp only [Int.toNat_ofNat]
    exact key ln rn h1 h2
  · intro hne
    have hpos : 0 < d.length := List.length_pos.mpr hne
    exact key 0 d.length hpos hlen

theorem C3_fresh_lazy_query_is_fold_witness :
    ∃ s, LazySegmentTree.construct lazyRmqOps testInput = some s ∧
      (∀ l r : Int, LazySegmentTree.ValidRange s l r →
        LazySegmentTree.Query lazyRmqOps s l r =
          some (foldRange lazyRmqOps.f lazyRmqOps.ti
            (fun j => testInput.getD j lazyRmqOps.ti) l.toNat r.toNat, s)) ∧
      (testInput ≠ [] → LazySegmentTree.Query lazyRmqOps s 0 (testInput.length : Int) =
          some (foldRange lazyRmqOps.f lazyRmqOps.ti
            (fun j => testInput.getD j lazyRmqOps.ti) 0 testInput.length, s)) :=
  C3_fresh_lazy_query_is_fold lazyRmqOps lazyRmq_laws.f_laws lazyRmq_laws.g_id
    lazyRmq_laws.h_right_id testInput

/-- C4, counterexample. List concatenation with the empty list is a monoid, and
with `g x e = x` the tree built from `[[0], [1], [2], [3]]` has all `lazy`
entries `ei`; yet `Query(0, 3)` returns `[2, 0, 1]`, while the left-to-right
fold of the elements `0, 1, 2` is `[0, 1, 2]`: the right accumulator receives
its operands in reverse array order. -/
theorem C4_query_needs_commutativity :
    (∀ a b c, concatOps.f (concatOps.f a b) c = concatOps.f a (concatOps.f b c)) ∧
    (∀ a, concatOps.f a concatOps.ti = a ∧ concatOps.f concatOps.ti a = a) ∧
    (∀ x, concatOps.g x concatOps.ei = x) ∧
    ((LazySegmentTree.construct concatOps [[0], [1], [2], [3]]).bind fun s =>
      (LazySegmentTree.Query concatOps s 0 3).map Prod.fst) = some [2, 0, 1] ∧
    foldRange concatOps.f concatOps.ti (fun j => [[0], [1], [2], [3]].getD j concatOps.ti) 0 3
      = [0, 1, 2] :=
  ⟨fun a b c => List.append_assoc a b c, fun a => ⟨List.append_nil a, List.nil_append a⟩,
    fun _ => rfl, by decide, by decide⟩

/-- C4, amended. Commutativity is required: for a commutative monoid `(f, ti)`,
`g x ei = x` and `h e ei = e`, every valid `Query(l, r)` on a freshly built
lazy tree returns `f(v[l], f(v[l+1], ... f(v[r-1], ti)))`, the fold of the
padded input in array order. -/
theorem C4_fresh_query_commutative {T E : Type} (o : LazyOps T E)
    (m : CommMonoidLaws o.f o.ti) (hg : ∀ x, o.g x o.ei = x) (hh : ∀ e, o.h e o.ei = e)
    (d : List T) (l r : Nat) (hlr : l < r) :
    ∃ s, LazySegmentTree.construct o d = some s ∧
      (r ≤ s.n → (LazySegmentTree.Query o s (l : Int) (r : Int)).map Prod.fst =
        some (List.foldr o.f o.ti ((List.range' l (r - l)).map fun j => d.getD j o.ti))) := by
  obtain ⟨s, e1, _, q⟩ := LazySegmentTree.fresh_query o m hg hh d l r hlr
  refine ⟨s, e1, fun hr => ?_⟩
  rw [q hr, Option.map_some', foldRange_eq_foldr]

theorem C4_fresh_query_commutative_witness :
    ∃ s, LazySegmentTree.construct lazyRmqOps testInput = some s ∧
      (3 ≤ s.n → (LazySegmentTree.Query lazyRmqOps s ((0 : Nat) : Int) ((3 : Nat) : Int)).map
          Prod.fst =
        some (List.foldr lazyRmqOps.f lazyRmqOps.ti
          ((List.range' 0 (3 - 0)).map fun j => testInput.getD j lazyRmqOps.ti))) :=
  C4_fresh_query_commutative lazyRmqOps lazyRmq_laws.f_laws lazyRmq_laws.g_id
    lazyRmq_laws.h_right_id testInput 0 3 (by decide)

/-- C5. For a commutative monoid `(f, ti)` the constructor of the plain tree
ends for every input `d`, and on the tree just built every `Query(l, r)`
accepted by the assertion (`0 ≤ l < r < n`) returns the fold of `f` over the
leaves `l, ..., r-1`, positions at or beyond the length of `d` holding `ti`. -/
theorem C5_fresh_plain_query_is_fold {T : Type} (o : Ops T) (m : CommMonoidLaws o.f o.ti)
    (d : List T) :
    ∃ s, SegmentTree.construct o d = some s ∧
      ∀ l r : Int, SegmentTree.ValidRange s l r →
        SegmentTree.Query o s l r =
          some (foldRange o.f o.ti (fun j => d.getD j o.ti) l.toNat r.toNat) := by
  obtain ⟨s, e1, _⟩ := SegmentTree.plain_fresh_query o m d 0 1 (by omega)
  refine ⟨s, e1, ?_⟩
  intro l r hv
  obtain ⟨ln, rn, rfl, rfl, h1, h2⟩ := plain_validRange_nat s l r hv
  obtain ⟨s', e1', _, q⟩ := SegmentTree.plain_fresh_query o m d ln rn h1
  rw [e1] at e1'
  cases e1'
  simp only [Int.toNat_ofNat]
  exact q h2

theorem C5_fresh_plain_query_is_fold_witness :
    (∃ s, SegmentTree.construct rmqOps testInput = some s ∧
      ∀ l r : Int, SegmentTree.ValidRange s l r →
        SegmentTree.Query rmqOps s l r =
          some (foldRange rmqOps.f rmqOps.ti (fun j => testInput.getD j rmqOps.ti)
            l.toNat r.toNat)) ∧
    (SegmentTree.construct rmqOps testInput).bind (fun s =>
      (SegmentTree.Query rmqOps s 0 1).bind fun a1 =>
      (SegmentTree.Query rmqOps s 0 3).bind fun a2 =>
      (SegmentTree.Query rmqOps s 2 4).bind fun a3 =>
      (SegmentTree.Query rmqOps s 0 9).bind fun a4 =>
      (SegmentTree.Query rmqOps s 4 7).bind fun a5 =>
      (SegmentTree.Query rmqOps s 5 8).bind fun a6 =>
      (SegmentTree.Query rmqOps s 5 9).map fun a7 => [a1, a2, a3, a4, a5, a6, a7])
      = some [3, 2, 0, 0, 1, 4, 3] :=
  ⟨C5_fresh_plain_query_is_fold rmqOps rmq_laws testInput, by decide⟩

/-- C6. For a commutative monoid `(f, ti)`, in every state of the plain tree
reachable from the constructor by `SetVal` calls, with leaf sequence
`a j = data[n + j]`: a `SetVal(i, x)` with `0 ≤ i < n` ends, and afterwards
every valid `Query(l, r)` returns the fold over `[l, r)` of `a` with position
`i` replaced by `x`; hence `Query(i, i+1)` returns `x` when `i + 1 < n`, and a
range that does not contain `i` gives the same result as before. -/
theorem C6_plain_setVal_is_point_write {T : Type} (o : Ops T) (m : CommMonoidLaws o.f o.ti)
    (s : SegmentTree T) (hs : SegmentTree.Reachable o s) (i : Int)
    (hi : 0 ≤ i ∧ i < (s.n : Int)) (x : T) :
    ∃ s', SegmentTree.SetVal o s i x = some s' ∧ s'.n = s.n ∧
      (∀ l r : Int, SegmentTree.ValidRange s l r →
        SegmentTree.Query o s' l r =
          some (foldRange o.f o.ti
            (fun j => if (j : Int) = i then x else s.data.getD (s.n + j) o.ti)
            l.toNat r.toNat)) ∧
      (i + 1 < (s.n : Int) → SegmentTree.Query o s' i (i + 1) = some x) ∧
      ∀ l r : Int, SegmentTree.ValidRange s l r → (i < l ∨ r ≤ i) →
        SegmentTree.Query o s' l r = SegmentTree.Query o s l r := by
  have hgood := SegmentTree.plain_Reachable_good o s hs
  obtain ⟨k, rfl⟩ := Int.eq_ofNat_of_zero_le hi.1
  have hk : k < s.n := by omega
  obtain ⟨s', e1, g1, n1, lv⟩ := SegmentTree.plain_SetVal_spec o s hgood k hk x
  have key : ∀ l r : Nat, l < r → r < s.n → SegmentTree.Query o s' (l : Int) (r : Int) =
      some (foldRange o.f o.ti
        (fun j => if (j : Int) = (k : Int) then x else s.data.getD (s.n + j) o.ti) l r) := by
    intro l r hlr hr
    rw [SegmentTree.plain_Query_spec o m s' g1 l r hlr (by rw [n1]; exact hr)]
    congr 1
    apply foldRange_congr
    intro j _ hj
    show s'.data.getD (s'.n + j) o.ti = _
    rw [n1, lv j (by omega)]
    simp only [Nat.cast_inj]
  refine ⟨s', e1, n1, ?_, ?_, ?_⟩
  · intro l r hv
    obtain ⟨ln, rn, rfl, rfl, h1, h2⟩ := plain_validRange_nat s l r hv
    simp only [Int.toNat_ofNat]
    exact key ln rn h1 h2
  · intro h
    have := key k (k + 1) (by omega) (by omega)
    rw [foldRange_single m, if_pos rfl] at this
    exact this
  · intro l r hv hout
    obtain ⟨ln, rn, rfl, rfl, h1, h2⟩ := plain_validRange_nat s l r hv
    rw [key ln rn h1 h2, SegmentTree.plain_Query_spec o m s hgood ln rn h1 h2]
    congr 1
    apply foldRange_congr
    intro j hj1 hj2
    rw [if_neg]
    omega

theorem C6_plain_setVal_is_point_write_witness :
    ∃ s', SegmentTree.SetVal rmqOps rmqTree 1 9 = some s' ∧ s'.n = rmqTree.n ∧
      (∀ l r : Int, SegmentTree.ValidRange rmqTree l r →
        SegmentTree.Query rmqOps s' l r =
          some (foldRange rmqOps.f rmqOps.ti
            (fun j => if (j : Int) = 1 then 9 else rmqTree.data.getD (rmqTree.n + j) rmqOps.ti)
            l.toNat r.toNat)) ∧
      ((1 : Int) + 1 < (rmqTree.n : Int) → SegmentTree.Query rmqOps s' 1 (1 + 1) = some 9) ∧
      ∀ l r : Int, SegmentTree.ValidRange rmqTree l r → ((1 : Int) < l ∨ r ≤ 1) →
        SegmentTree.Query rmqOps s' l r = SegmentTree.Query rmqOps rmqTree l r :=
  C6_plain_setVal_is_point_write rmqOps rmq_laws rmqTree rmqTree_reachable 1 (by decide) 9

/-- C7, counterexample. On the plain tree built from the test input
`[3, 4, 2, 0, 1, 9, 4, 8, 3, 3]` with minimum, the valid call `Query(0, 3)`
returns `2`, while the fold over the elements `0, ..., 3` (index `3` included)
is `0`: the element at index `r` is not part of the result. -/
theorem C7_plain_query_excludes_upper_bound :
    CommMonoidLaws rmqOps.f rmqOps.ti ∧
    (SegmentTree.construct rmqOps testInput).bind (fun s => SegmentTree.Query rmqOps s 0 3)
      = some 2 ∧
    foldRange rmqOps.f rmqOps.ti (fun j => testInput.getD j rmqOps.ti) 0 (3 + 1) = 0 :=
  ⟨rmq_laws, by decide, by decide⟩

/-- C7, amended. The upper bound of the plain `Query` is exclusive: for a
commutative monoid `(f, ti)` and `0 ≤ l < r < n`, `Query(l, r)` on the freshly
built tree returns `f(v[l], f(v[l+1], ... f(v[r-1], ti)))`, the fold over the
`r - l` elements at the indices `l, ..., r-1`; the element at index `r` is not
included. -/
theorem C7_plain_query_half_open {T : Type} (o : Ops T) (m : CommMonoidLaws o.f o.ti)
    (d : List T) (l r : Nat) (hlr : l < r) :
    ∃ s, SegmentTree.construct o d = some s ∧
      (r < s.n → SegmentTree.Query o s (l : Int) (r : Int) =
        some (List.foldr o.f o.ti ((List.range' l (r - l)).map fun j => d.getD j o.ti))) := by
  obtain ⟨s, e1, _, q⟩ := SegmentTree.plain_fresh_query o m d l r hlr
  refine ⟨s, e1, fun hr => ?_⟩
  rw [q hr, foldRange_eq_foldr]

theorem C7_plain_query_half_open_witness :
    ∃ s, SegmentTree.construct rmqOps testInput = some s ∧
      (3 < s.n → SegmentTree.Query rmqOps s ((0 : Nat) : Int) ((3 : Nat) : Int) =
        some (List.foldr rmqOps.f rmqOps.ti
          ((List.range' 0 (3 - 0)).map fun j => testInput.getD j rmqOps.ti))) :=
  C7_plain_query_half_open rmqOps rmq_laws testInput 0 3 (by decide)

/-- C8. Under the operator laws, in every reachable state and for every valid
range `(l, r)`: `Update(l, r, e1)` followed by `Update(l, r, e2)`, and the
single `Update(l, r, h e1 e2)`, all end, and the two resulting states give the
same value for every valid `Query(l', r')`; `h` is not assumed commutative. -/
theorem C8_updates_compose_in_issue_order {T E : Type} (o : LazyOps T E) (laws : LazyLaws o)
    (s : LazySegmentTree T E) (hs : LazySegmentTree.Reachable o s) (l r : Int) (e1 e2 : E)
    (hv : LazySegmentTree.ValidRange s l r) :
    ∃ s1 s2 s12, LazySegmentTree.Update o s l r e1 = some s1 ∧
      LazySegmentTree.Update o s1 l r e2 = some s2 ∧
      LazySegmentTree.Update o s l r (o.h e1 e2) = some s12 ∧
      ∀ l' r' : Int, LazySegmentTree.ValidRange s l' r' →
        ∃ v t2 t12, LazySegmentTree.Query o s2 l' r' = some (v, t2) ∧
          LazySegmentTree.Query o s12 l' r' = some (v, t12) := by
  have hgood := LazySegmentTree.Reachable_good o laws s hs
  obtain ⟨ln, rn, rfl, rfl, h1, h2⟩ := lazy_validRange_nat s l r hv
  obtain ⟨s1, u1, g1, n1, lv1⟩ := LazySegmentTree.Update_spec o laws s hgood ln rn h1 h2 e1
  obtain ⟨s2, u2, g2, n2, lv2⟩ := LazySegmentTree.Update_spec o laws s1 g1 ln rn h1
    (by rw [n1]; exact h2) e2
  obtain ⟨s12, u12, g12, n12, lv12⟩ := LazySegmentTree.Update_spec o laws s hgood ln rn h1 h2
    (o.h e1 e2)
  rw [n1] at n2 lv2
  refine ⟨s1, s2, s12, u1, u2, u12, ?_⟩
  intro l' r' hv'
  obtain ⟨la, ra, rfl, rfl, h3, h4⟩ := lazy_validRange_nat s l' r' hv'
  obtain ⟨t2, q2, _⟩ := LazySegmentTree.Query_spec o laws s2 g2 la ra h3 (by rw [n2]; exact h4)
  obtain ⟨t12, q12, _⟩ := LazySegmentTree.Query_spec o laws s12 g12 la ra h3
    (by rw [n12]; exact h4)
  refine ⟨_, t2, t12, q2, ?_⟩
  rw [q12]
  congr 2
  apply foldRange_congr
  intro j _ hj
  rw [lv12 j (by omega), lv2 j (by omega), lv1 j (by omega)]
  by_cases c : ln ≤ j ∧ j < rn
  · rw [if_pos c, if_pos c, if_pos c, laws.g_comp]
  · rw [if_neg c, if_neg c, if_neg c]

theorem C8_updates_compose_in_issue_order_witness :
    ∃ s1 s2 s12, LazySegmentTree.Update lazyRmqOps lazyRmqTree 1 3 7 = some s1 ∧
      LazySegmentTree.Update lazyRmqOps s1 1 3 5 = some s2 ∧
      LazySegmentTree.Update lazyRmqOps lazyRmqTree 1 3 (lazyRmqOps.h 7 5) = some s12 ∧
      ∀ l' r' : Int, LazySegmentTree.ValidRange lazyRmqTree l' r' →
        ∃ v t2 t12, LazySegmentTree.Query lazyRmqOps s2 l' r' = some (v, t2) ∧
          LazySegmentTree.Query lazyRmqOps s12 l' r' = some (v, t12) :=
  C8_updates_compose_in_issue_order lazyRmqOps lazyRmq_laws lazyRmqTree lazyRmqTree_reachable
    1 3 7 5 (by decide)

/-- C9. Assuming only `g x ei = x` and `h e ei = e`: in every reachable state
of the lazy tree a valid `Query(l, r)` ends with a value `v` and a state `s'`
(in which pending effects were pushed down), and the same `Query(l, r)` in
`s'` returns the same value `v` and leaves `s'` as it is. -/
theorem C9_lazy_query_idempotent {T E : Type} (o : LazyOps T E)
    (hg : ∀ x, o.g x o.ei = x) (hh : ∀ e, o.h e o.ei = e)
    (s : LazySegmentTree T E) (hs : LazySegmentTree.Reachable o s) (l r : Int)
    (hv : LazySegmentTree.ValidRange s l r) :
    ∃ v s', LazySegmentTree.Query o s l r = some (v, s') ∧
      LazySegmentTree.Query o s' l r = some (v, s') := by
  have hwf := LazySegmentTree.Reachable_wf o s hs
  have hpos := WF_pos s hwf
  obtain ⟨ln, rn, rfl, rfl, h1, h2⟩ := lazy_validRange_nat s l r hv
  obtain ⟨_, n2, c2⟩ := LPFR2_shape_clean o (hh o.ei) s hwf (ln + s.n) (rn + (s.n - 1))
    (by omega) (by omega)
  have q1 := LazySegmentTree.Query_eq o s ln rn h1 h2
  obtain ⟨v, hv⟩ := queryLoop_some o.f o.ti
    (LazySegmentTree.LazyPropagateFromRoot o
      (LazySegmentTree.LazyPropagateFromRoot o s (ln + s.n)) (rn + (s.n - 1))).data
    (2 * s.n) (ln + s.n) (rn + (s.n - 1)) o.ti o.ti (by omega) (by omega)
  rw [hv] at q1
  refine ⟨v, _, q1, ?_⟩
  generalize LazySegmentTree.LazyPropagateFromRoot o
      (LazySegmentTree.LazyPropagateFromRoot o s (ln + s.n)) (rn + (s.n - 1)) = s2
    at n2 c2 hv ⊢
  rw [LazySegmentTree.Query_eq o s2 ln rn h1 (by rw [n2]; exact h2), n2,
    LPFR_eq_self o hg hh s2 (ln + s.n) (by omega) (fun j hj => c2 j (Or.inl hj)),
    LPFR_eq_self o hg hh s2 (rn + (s.n - 1)) (by omega) (fun j hj => c2 j (Or.inr hj)), hv]
  rfl

theorem C9_lazy_query_idempotent_witness :
    ∃ v s', LazySegmentTree.Query lazyRmqOps lazyRmqTree 1 3 = some (v, s') ∧
      LazySegmentTree.Query lazyRmqOps s' 1 3 = some (v, s') :=
  C9_lazy_query_idempotent lazyRmqOps lazyRmq_laws.g_id lazyRmq_laws.h_right_id lazyRmqTree
    lazyRmqTree_reachable 1 3 (by decide)

/-- C10. Under the operator laws, every state of the lazy tree reached from
the constructor by valid `SetVal`, `Update` and `Query` calls has `data` and
`lazy` of length `2n`, and every internal node `i` (`1 ≤ i < n`) satisfies
`data[i] = f(g(data[2i], lazy[2i]), g(data[2i+1], lazy[2i+1]))`. -/
theorem C10_lazy_stored_aggregate_invariant {T E : Type} (o : LazyOps T E)
    (laws : LazyLaws o) (s : LazySegmentTree T E) (hs : LazySegmentTree.Reachable o s) :
    s.data.length = 2 * s.n ∧ s.lazy.length = 2 * s.n ∧
    ∀ i, 1 ≤ i → i < s.n →
      s.data.getD i o.ti =
        o.f (o.g (s.data.getD (2 * i) o.ti) (s.lazy.getD (2 * i) o.ei))
          (o.g (s.data.getD (2 * i + 1) o.ti) (s.lazy.getD (2 * i + 1) o.ei)) := by
  obtain ⟨⟨hd, hl, _⟩, hinv⟩ := LazySegmentTree.Reachable_good o laws s hs
  exact ⟨hd, hl, hinv⟩

theorem C10_lazy_stored_aggregate_invariant_witness :
    lazyRmqTree.data.length = 2 * lazyRmqTree.n ∧ lazyRmqTree.lazy.length = 2 * lazyRmqTree.n ∧
    ∀ i, 1 ≤ i → i < lazyRmqTree.n →
      lazyRmqTree.data.getD i lazyRmqOps.ti =
        lazyRmqOps.f
          (lazyRmqOps.g (lazyRmqTree.data.getD (2 * i) lazyRmqOps.ti)
            (lazyRmqTree.lazy.getD (2 * i) lazyRmqOps.ei))
          (lazyRmqOps.g (lazyRmqTree.data.getD (2 * i + 1) lazyRmqOps.ti)
            (lazyRmqTree.lazy.getD (2 * i + 1) lazyRmqOps.ei)) :=
  C10_lazy_stored_aggregate_invariant lazyRmqOps lazyRmq_laws lazyRmqTree lazyRmqTree_reachable

theorem getElem?_of_getD {α : Type} (l : List α) (i : Nat) (d v : α) (h : i < l.length)
    (e : l.getD i d = v) : l[i]? = some v := by
  rw [List.getD_eq_getElem?_getD, List.getElem?_eq_getElem h] at e
  rw [List.getElem?_eq_getElem h]
  exact congrArg some e

/-- The size loop of the constructors ends with the smallest power of two that
is not below the input length. -/
theorem size_spec (len : Nat) :
    ∃ m k, sizeLoop len 1 len = some m ∧ m = 2 ^ k ∧ len ≤ m ∧ ∀ j, len ≤ 2 ^ j → m ≤ 2 ^ j := by
  obtain ⟨m, k, h1, h2, h3, h4⟩ := sizeLoop_spec len 1 len (Nat.le_refl _) (by omega)
  rw [Nat.one_mul] at h2
  refine ⟨m, k, h1, h2, h3, ?_⟩
  intro j hj
  rcases h4 with h4 | h4
  · rw [h4]; exact Nat.one_le_two_pow
  · have h5 : 2 ^ k < 2 ^ (j + 1) := by rw [pow_succ]; omega
    have h6 : k < j + 1 := (Nat.pow_lt_pow_iff_right (by omega)).mp h5
    rw [h2]
    exact Nat.pow_le_pow_right (by omega) (by omega)

/-- C11. In every state of the plain tree reached from the constructor by
`SetVal` calls (no law on `f` is assumed), `data` has `2n` entries and
`data[i] = f(data[2i], data[2i+1])` holds for every internal node
`1 ≤ i < n`; a further `SetVal(idx, x)` with `0 ≤ idx < n` ends.  `Query`
returns a value only and has no write to `data`. -/
theorem C11_plain_stored_aggregate_invariant {T : Type} (o : Ops T) (s : SegmentTree T)
    (hs : SegmentTree.Reachable o s) :
    s.data.length = 2 * s.n ∧
    (∀ i, 1 ≤ i → i < s.n →
      s.data.getD i o.ti = o.f (s.data.getD (2 * i) o.ti) (s.data.getD (2 * i + 1) o.ti)) ∧
    ∀ (idx : Int) (x : T), 0 ≤ idx ∧ idx < (s.n : Int) →
      ∃ s', SegmentTree.SetVal o s idx x = some s' := by
  obtain ⟨hn, hd, hinv⟩ := SegmentTree.plain_Reachable_good o s hs
  refine ⟨hd, hinv, ?_⟩
  intro idx x hv
  obtain ⟨k, rfl⟩ := Int.eq_ofNat_of_zero_le hv.1
  obtain ⟨s', e, _⟩ := SegmentTree.plain_SetVal_spec o s ⟨hn, hd, hinv⟩ k (by omega) x
  exact ⟨s', e⟩

theorem C11_plain_stored_aggregate_invariant_witness :
    rmqTree.data.length = 2 * rmqTree.n ∧
    (∀ i, 1 ≤ i → i < rmqTree.n →
      rmqTree.data.getD i rmqOps.ti =
        rmqOps.f (rmqTree.data.getD (2 * i) rmqOps.ti) (rmqTree.data.getD (2 * i + 1) rmqOps.ti)) ∧
    ∀ (idx : Int) (x : Fin 2147483648), 0 ≤ idx ∧ idx < (rmqTree.n : Int) →
      ∃ s', SegmentTree.SetVal rmqOps rmqTree idx x = some s' :=
  C11_plain_stored_aggregate_invariant rmqOps rmqTree rmqTree_reachable

/-- C12. The assertion of the plain `Query` demands `r < n`, so the full range
of an input whose length is a power of two is rejected: for the inputs `[3]`,
`[3, 4]` and `[3, 4, 2, 0]` the calls `Query(0, 1)`, `Query(0, 2)` and
`Query(0, 4)` fail, whereas for `[3, 4, 2]` the call `Query(0, 3)` returns the
fold `2` of the whole input. -/
theorem C12_full_range_rejected_for_power_of_two_length :
    (SegmentTree.construct rmqOps [3]).bind (fun s => SegmentTree.Query rmqOps s 0 1) = none ∧
    (SegmentTree.construct rmqOps [3, 4]).bind (fun s => SegmentTree.Query rmqOps s 0 2)
      = none ∧
    (SegmentTree.construct rmqOps [3, 4, 2, 0]).bind (fun s => SegmentTree.Query rmqOps s 0 4)
      = none ∧
    (SegmentTree.construct rmqOps [3, 4, 2]).bind (fun s => SegmentTree.Query rmqOps s 0 3)
      = some 2 :=
  ⟨by decide, by decide, by decide, by decide⟩

/-- C14. For every input `d` both constructors end; the computed `n` is a
power of two, not below the length of `d` and not above any other such power
of two (so `n = 1` for an input of length `0` or `1`); `data` has `2n`
entries, `data[n + i] = d[i]` for `i` below the length of `d` and
`data[n + i] = ti` for the other `i < n`; in the lazy tree `lazy` consists of
`2n` entries `ei`. -/
theorem C14_constructor_postcondition {T E : Type} (p : Ops T) (o : LazyOps T E)
    (d : List T) :
    (∃ s, SegmentTree.construct p d = some s ∧
      (∃ k, s.n = 2 ^ k) ∧ d.length ≤ s.n ∧ (∀ j, d.length ≤ 2 ^ j → s.n ≤ 2 ^ j) ∧
      s.data.length = 2 * s.n ∧
      (∀ i, i < d.length → s.data[s.n + i]? = d[i]?) ∧
      (∀ i, d.length ≤ i → i < s.n → s.data[s.n + i]? = some p.ti)) ∧
    (∃ s, LazySegmentTree.construct o d = some s ∧
      (∃ k, s.n = 2 ^ k) ∧ d.length ≤ s.n ∧ (∀ j, d.length ≤ 2 ^ j → s.n ≤ 2 ^ j) ∧
      s.data.length = 2 * s.n ∧
      (∀ i, i < d.length → s.data[s.n + i]? = d[i]?) ∧
      (∀ i, d.length ≤ i → i < s.n → s.data[s.n + i]? = some o.ti) ∧
      s.lazy = List.replicate (2 * s.n) o.ei) := by
  obtain ⟨m, k, h1, h2, h3, h4⟩ := size_spec d.length
  have hm : 1 ≤ m := by rw [h2]; exact Nat.one_le_two_pow
  have leaves : ∀ (q : Ops T) (data : List T), data.length = 2 * m →
      (∀ j, j < m → data.getD (m + j) q.ti = d.getD j q.ti) →
      (∀ i, i < d.length → data[m + i]? = d[i]?) ∧
      (∀ i, d.length ≤ i → i < m → data[m + i]? = some q.ti) := by
    intro q data hlen hleaf
    constructor
    · intro i hi
      rw [getElem?_of_getD data (m + i) q.ti _ (by omega) (hleaf i (by omega))]
      exact (getElem?_of_getD d i q.ti _ hi rfl).symm
    · intro i hi1 hi2
      apply getElem?_of_getD data (m + i) q.ti _ (by omega)
      rw [hleaf i hi2, List.getD_eq_getElem?_getD, List.getElem?_eq_none (by omega)]
      rfl
  constructor
  · obtain ⟨b1, b2, _⟩ := built_data_spec p d m hm h3
    obtain ⟨c1, c2⟩ := leaves p _ b1 b2
    exact ⟨_, by simp only [SegmentTree.construct, h1, Option.map_some']; rfl, ⟨k, h2⟩, h3, h4,
      b1, c1, c2⟩
  · obtain ⟨b1, b2, _⟩ := built_data_spec ⟨o.f, o.ti⟩ d m hm h3
    obtain ⟨c1, c2⟩ := leaves ⟨o.f, o.ti⟩ _ b1 b2
    exact ⟨_, by simp only [LazySegmentTree.construct, h1, Option.map_some']; rfl, ⟨k, h2⟩, h3,
      h4, b1, c1, c2, rfl⟩

/-- C15. In every reachable state of the lazy tree, whatever the operators
are: `Update(l, r, e)` and `Query(l, r)` fail exactly when
`0 ≤ l < n ∧ 0 < r ≤ n ∧ l < r` is violated, and `SetVal(idx, x)` fails exactly
when `0 ≤ idx < n` is violated, `n` being the power of two computed by the
constructor; so every valid call ends with a result, and a failing call
produces no new state: the assertion is tested before the first write. -/
theorem C15_failure_iff_precondition_violated {T E : Type} (o : LazyOps T E)
    (s : LazySegmentTree T E) (hs : LazySegmentTree.Reachable o s) :
    (∃ k, s.n = 2 ^ k) ∧
    (∀ (l r : Int) (e : E),
      LazySegmentTree.Update o s l r e = none ↔ ¬ LazySegmentTree.ValidRange s l r) ∧
    (∀ l r : Int, LazySegmentTree.Query o s l r = none ↔ ¬ LazySegmentTree.ValidRange s l r) ∧
    ∀ (idx : Int) (x : T),
      LazySegmentTree.SetVal o s idx x = none ↔ ¬ (0 ≤ idx ∧ idx < (s.n : Int)) := by
  have hwf := LazySegmentTree.Reachable_wf o s hs
  obtain ⟨k, _, hk⟩ := hwf.2.2
  refine ⟨⟨k, hk⟩, ?_, ?_, ?_⟩
  · intro l r e
    constructor
    · intro hnone hv
      obtain ⟨ln, rn, rfl, rfl, h1, h2⟩ := lazy_validRange_nat s l r hv
      obtain ⟨s', e1, _⟩ := LazySegmentTree.Update_wf o s hwf ln rn h1 h2 e
      rw [hnone] at e1
      cases e1
    · intro hv
      simp only [LazySegmentTree.ValidRange] at hv
      simp only [LazySegmentTree.Update]
      rw [if_neg hv]
  · intro l r
    constructor
    · intro hnone hv
      obtain ⟨ln, rn, rfl, rfl, h1, h2⟩ := lazy_validRange_nat s l r hv
      obtain ⟨v, e1, _⟩ := LazySegmentTree.Query_wf o s hwf ln rn h1 h2
      rw [hnone] at e1
      cases e1
    · intro hv
      simp only [LazySegmentTree.ValidRange] at hv
      simp only [LazySegmentTree.Query]
      rw [if_neg hv]
  · intro idx x
    constructor
    · intro hnone hv
      obtain ⟨i, rfl⟩ := Int.eq_ofNat_of_zero_le hv.1
      obtain ⟨s', e1, _⟩ := LazySegmentTree.SetVal_wf o s hwf i (by omega) x
      rw [hnone] at e1
      cases e1
    · intro hv
      simp only [LazySegmentTree.SetVal]
      rw [if_neg hv]

theorem C15_failure_iff_precondition_violated_witness :
    (∃ k, lazyRmqTree.n = 2 ^ k) ∧
    (∀ (l r : Int) (e : Fin 2147483648),
      LazySegmentTree.Update lazyRmqOps lazyRmqTree l r e = none ↔
        ¬ LazySegmentTree.ValidRange lazyRmqTree l r) ∧
    (∀ l r : Int, LazySegmentTree.Query lazyRmqOps lazyRmqTree l r = none ↔
        ¬ LazySegmentTree.ValidRange lazyRmqTree l r) ∧
    ∀ (idx : Int) (x : Fin 2147483648),
      LazySegmentTree.SetVal lazyRmqOps lazyRmqTree idx x = none ↔
        ¬ (0 ≤ idx ∧ idx < (lazyRmqTree.n : Int)) :=
  C15_failure_iff_precondition_violated lazyRmqOps lazyRmqTree lazyRmqTree_reachable

/-- C17. For `n = 2^k` with `k ≤ 30`, arrays of `2n` entries with arbitrary
contents and a leaf index `n ≤ idx < 2n` (no operator law is assumed): after
`LazyPropagateFromRoot(idx)` the array `lazy` still has `2n` entries, and its
entry is `ei` at the root, at every node `idx >> j` of the path from `idx` to
the root, `idx` included, and at the sibling of each such node other than the
root. -/
theorem C17_lazyPropagateFromRoot_cleans_path {T E : Type} (o : LazyOps T E)
    (s : LazySegmentTree T E) (k : Nat) (hk : k ≤ 30) (hn : s.n = 2 ^ k)
    (hd : s.data.length = 2 * s.n) (hl : s.lazy.length = 2 * s.n)
    (idx : Nat) (h1 : s.n ≤ idx) (h2 : idx < 2 * s.n) :
    (LazySegmentTree.LazyPropagateFromRoot o s idx).lazy.length = 2 * s.n ∧
    (LazySegmentTree.LazyPropagateFromRoot o s idx).lazy[1]? = some o.ei ∧
    (LazySegmentTree.LazyPropagateFromRoot o s idx).lazy[idx]? = some o.ei ∧
    ∀ j, (1 ≤ idx >>> j →
        (LazySegmentTree.LazyPropagateFromRoot o s idx).lazy[idx >>> j]? = some o.ei) ∧
      (2 ≤ idx >>> j →
        (LazySegmentTree.LazyPropagateFromRoot o s idx).lazy[(idx >>> j) ^^^ 1]? = some o.ei) := by
  have hwf : LazySegmentTree.WF s := ⟨hd, hl, k, hk, hn⟩
  have hpos := WF_pos s hwf
  obtain ⟨⟨_, l1, _⟩, n1⟩ := LPFR_wf o s hwf idx h2
  rw [n1] at l1
  have clean : ∀ j, NearPath idx j →
      (LazySegmentTree.LazyPropagateFromRoot o s idx).lazy[j]? = some o.ei := by
    intro j hj
    have hr := nearPath_range idx s.n j h2 hj
    exact getElem?_of_getD _ j o.ei _ (by omega) (LPFR_clean o s idx hl hpos.2 h2 j hj)
  refine ⟨l1, clean 1 (nearPath_root idx (by omega)), clean idx (nearPath_self idx (by omega)), ?_⟩
  intro j
  exact ⟨fun h => clean _ ⟨j, Or.inl ⟨h, rfl⟩⟩, fun h => clean _ ⟨j, Or.inr ⟨h, rfl⟩⟩⟩

/-- C19. Under the operator laws, in every reachable state and for all valid
ranges `(l, r)` and `(l', r')`: `Query(l', r')` returns the same value in the
state itself and in the state left behind by `Query(l, r)`. -/
theorem C19_lazy_query_observationally_read_only {T E : Type} (o : LazyOps T E)
    (laws : LazyLaws o) (s : LazySegmentTree T E) (hs : LazySegmentTree.Reachable o s)
    (l r l' r' : Int) (hv : LazySegmentTree.ValidRange s l r)
    (hv' : LazySegmentTree.ValidRange s l' r') :
    ∃ v w s1 s2 s3, LazySegmentTree.Query o s l' r' = some (v, s1) ∧
      LazySegmentTree.Query o s l r = some (w, s2) ∧
      LazySegmentTree.Query o s2 l' r' = some (v, s3) := by
  have hgood := LazySegmentTree.Reachable_good o laws s hs
  obtain ⟨ln, rn, rfl, rfl, h1, h2⟩ := lazy_validRange_nat s l r hv
  obtain ⟨la, ra, rfl, rfl, h3, h4⟩ := lazy_validRange_nat s l' r' hv'
  obtain ⟨s1, q1, _⟩ := LazySegmentTree.Query_spec o laws s hgood la ra h3 h4
  obtain ⟨s2, q2, g2, n2, v2⟩ := LazySegmentTree.Query_spec o laws s hgood ln rn h1 h2
  obtain ⟨s3, q3, _⟩ := LazySegmentTree.Query_spec o laws s2 g2 la ra h3 (by rw [n2]; exact h4)
  refine ⟨_, _, s1, s2, s3, q1, q2, ?_⟩
  rw [q3]
  congr 2
  apply foldRange_congr
  intro j _ hj
  have := v2 (s.n + j) (by omega)
  simp only [LazySegmentTree.nodeValue] at this
  simp only [LazySegmentTree.leafValue]
  rw [n2]
  exact this

theorem C19_lazy_query_observationally_read_only_witness :
    ∃ v w s1 s2 s3, LazySegmentTree.Query lazyRmqOps lazyRmqTree 0 4 = some (v, s1) ∧
      LazySegmentTree.Query lazyRmqOps lazyRmqTree 1 3 = some (w, s2) ∧
      LazySegmentTree.Query lazyRmqOps s2 0 4 = some (v, s3) :=
  C19_lazy_query_observationally_read_only lazyRmqOps lazyRmq_laws lazyRmqTree
    lazyRmqTree_reachable 1 3 0 4 (by decide) (by decide)

theorem C17_lazyPropagateFromRoot_cleans_path_witness :
    (LazySegmentTree.LazyPropagateFromRoot lazyRmqOps pendingTree 5).lazy.length
      = 2 * pendingTree.n ∧
    (LazySegmentTree.LazyPropagateFromRoot lazyRmqOps pendingTree 5).lazy[1]?
      = some lazyRmqOps.ei ∧
    (LazySegmentTree.LazyPropagateFromRoot lazyRmqOps pendingTree 5).lazy[5]?
      = some lazyRmqOps.ei ∧
    ∀ j, (1 ≤ 5 >>> j →
        (LazySegmentTree.LazyPropagateFromRoot lazyRmqOps pendingTree 5).lazy[5 >>> j]?
          = some lazyRmqOps.ei) ∧
      (2 ≤ 5 >>> j →
        (LazySegmentTree.LazyPropagateFromRoot lazyRmqOps pendingTree 5).lazy[(5 >>> j) ^^^ 1]?
          = some lazyRmqOps.ei) :=
  C17_lazyPropagateFromRoot_cleans_path lazyRmqOps pendingTree 2 (by decide) (by decide)
    (by decide) (by decide) 5 (by decide) (by decide)

/-! ## `DataPropagateFromLeaf`: order of the operands -/

/-- The loop of `DataPropagateFromLeaf` ends, keeps `lazy`, and leaves every
proper ancestor of `idx` equal to the combination of the effective values of
its child on the path from `idx` (first operand) and of the sibling of that
child (second operand). -/
theorem dataPropagateLoop_path {T E : Type} (o : LazyOps T E) (fuel idx : Nat)
    (s : LazySegmentTree T E) (hd : s.data.length = 2 * s.n) (hidx : idx < 2 * s.n)
    (hfuel : idx < fuel) :
    ∃ s', dataPropagateLoop o fuel idx s = some s' ∧ s'.lazy = s.lazy ∧
      ∀ k, 1 ≤ idx >>> (k + 1) →
        s'.data.getD (idx >>> (k + 1)) o.ti =
          o.f (o.g (s'.data.getD (idx >>> k) o.ti) (s.lazy.getD (idx >>> k) o.ei))
            (o.g (s'.data.getD ((idx >>> k) ^^^ 1) o.ti)
              (s.lazy.getD ((idx >>> k) ^^^ 1) o.ei)) := by
  induction fuel generalizing idx s with
  | zero => omega
  | succ fuel ih =>
    by_cases hone : idx ≤ 1
    · obtain ⟨s', e1, _, e3, _⟩ := dataPropagateLoop_spec o (fuel + 1) idx s hd hidx hfuel
      refine ⟨s', e1, e3, ?_⟩
      intro k hk
      have := shr_pos_le_half idx (k + 1) (by omega)
      omega
    · have hstep : dataPropagateLoop o (fuel + 1) idx s =
          dataPropagateLoop o fuel (idx / 2)
            { s with data := (s.data.set (idx / 2)
              (o.f (o.g (s.data.getD idx o.ti) (s.lazy.getD idx o.ei))
                (o.g (s.data.getD (idx ^^^ 1) o.ti) (s.lazy.getD (idx ^^^ 1) o.ei)))) } := by
        simp only [dataPropagateLoop, shr_one]
        rw [if_pos (by omega), if_pos (by omega)]
      rw [hstep]
      obtain ⟨s', e1, e2, e3⟩ := ih (idx / 2)
        { s with data := (s.data.set (idx / 2)
            (o.f (o.g (s.data.getD idx o.ti) (s.lazy.getD idx o.ei))
              (o.g (s.data.getD (idx ^^^ 1) o.ti) (s.lazy.getD (idx ^^^ 1) o.ei)))) }
        (by simp [hd]) (by simp only; omega) (by omega)
      obtain ⟨s'', f1, _, _, _, f5, _⟩ := dataPropagateLoop_spec o fuel (idx / 2)
        { s with data := (s.data.set (idx / 2)
            (o.f (o.g (s.data.getD idx o.ti) (s.lazy.getD idx o.ei))
              (o.g (s.data.getD (idx ^^^ 1) o.ti) (s.lazy.getD (idx ^^^ 1) o.ei)))) }
        (by simp [hd]) (by simp only; omega) (by omega)
      rw [e1] at f1
      cases f1
      simp only at e2 e3 f5
      refine ⟨s', e1, e2, ?_⟩
      intro k hk
      cases k with
      | zero =>
        simp only [Nat.shiftRight_zero, zero_add, shr_one] at hk ⊢
        have anc : ∀ j, idx / 2 ≤ j → ∀ k, 1 ≤ k → j ≠ (idx / 2) >>> k := by
          intro j hj k hk'
          have := shr_lt (idx / 2) k hk hk'
          omega
        have hx := (xor_one_facts idx).1
        have hx2 : 2 ≤ idx ^^^ 1 := by
          have := xor_one idx
          split at this <;> omega
        rw [f5 _ (anc _ (Nat.le_refl _)), f5 _ (anc _ (by omega)), f5 _ (anc _ (by omega)),
          getD_set_eq _ _ _ _ (by omega), getD_set_ne _ _ _ _ _ (by omega),
          getD_set_ne _ _ _ _ _ (by omega)]
      | succ k =>
        rw [shr_succ_left] at hk ⊢
        rw [shr_succ_left idx k]
        exact e3 k hk

/-- C16, counterexample. With list concatenation (not commutative), on a tree
of size `2` with the leaves `[0]` and `[1]`, `DataPropagateFromLeaf(3)` for
the odd leaf `3` stores `[1, 0]` in the root: the right child is the first
operand.  Left child first would give `[0, 1]`. -/
theorem C16_recombination_starts_with_path_child :
    (LazySegmentTree.DataPropagateFromLeaf concatOps concatTree 3).map
      (fun s => s.data.getD 1 concatOps.ti) = some [1, 0] ∧
    (LazySegmentTree.DataPropagateFromLeaf concatOps concatTree 3).map
      (fun s => concatOps.f (concatOps.g (s.data.getD 2 concatOps.ti) (s.lazy.getD 2 concatOps.ei))
        (concatOps.g (s.data.getD 3 concatOps.ti) (s.lazy.getD 3 concatOps.ei)))
      = some [0, 1] :=
  ⟨by decide, by decide⟩

/-- C16, amended. For arrays of `2n` entries, an index `idx < 2n` (in
particular a leaf index `n ≤ idx < 2n`) and arbitrary `f`, `g`: `DataPropagateFromLeaf(idx)` ends and modifies no `lazy`
entry; afterwards every proper ancestor `p = idx >> (k+1)` satisfies
`data[p] = f(g(data[c], lazy[c]), g(data[c^1], lazy[c^1]))` where
`c = idx >> k` is the child of `p` on the path from `idx`: the path child is the
first operand and its sibling the second, which is left-to-right order exactly
when `c` is even.  If `f` is commutative, then
`data[p] = f(g(data[2p], lazy[2p]), g(data[2p+1], lazy[2p+1]))` for every
proper ancestor `p`. -/
theorem C16_dataPropagateFromLeaf_recombines {T E : Type} (o : LazyOps T E)
    (s : LazySegmentTree T E) (hd : s.data.length = 2 * s.n) (idx : Nat)
    (h2 : idx < 2 * s.n) :
    ∃ s', LazySegmentTree.DataPropagateFromLeaf o s idx = some s' ∧ s'.lazy = s.lazy ∧
      (∀ k, 1 ≤ idx >>> (k + 1) →
        s'.data.getD (idx >>> (k + 1)) o.ti =
          o.f (o.g (s'.data.getD (idx >>> k) o.ti) (s'.lazy.getD (idx >>> k) o.ei))
            (o.g (s'.data.getD ((idx >>> k) ^^^ 1) o.ti)
              (s'.lazy.getD ((idx >>> k) ^^^ 1) o.ei))) ∧
      ((∀ a b, o.f a b = o.f b a) → ∀ k, 1 ≤ idx >>> (k + 1) →
        s'.data.getD (idx >>> (k + 1)) o.ti =
          o.f (o.g (s'.data.getD (2 * (idx >>> (k + 1))) o.ti)
              (s'.lazy.getD (2 * (idx >>> (k + 1))) o.ei))
            (o.g (s'.data.getD (2 * (idx >>> (k + 1)) + 1) o.ti)
              (s'.lazy.getD (2 * (idx >>> (k + 1)) + 1) o.ei))) := by
  obtain ⟨s', e1, e2, e3⟩ := dataPropagateLoop_path o (2 * s.n) idx s hd h2 h2
  obtain ⟨s'', f1, _, _, _, _, f6⟩ := dataPropagateLoop_spec o (2 * s.n) idx s hd h2 h2
  rw [e1] at f1
  cases f1
  refine ⟨s', e1, e2, ?_, ?_⟩
  · intro k hk
    rw [e2]
    exact e3 k hk
  · intro hcomm k hk
    exact f6 hcomm (k + 1) (by omega) hk

theorem C16_dataPropagateFromLeaf_recombines_witness :
    ∃ s', LazySegmentTree.DataPropagateFromLeaf concatOps concatTree 3 = some s' ∧
      s'.lazy = concatTree.lazy ∧
      (∀ k, 1 ≤ 3 >>> (k + 1) →
        s'.data.getD (3 >>> (k + 1)) concatOps.ti =
          concatOps.f
            (concatOps.g (s'.data.getD (3 >>> k) concatOps.ti)
              (s'.lazy.getD (3 >>> k) concatOps.ei))
            (concatOps.g (s'.data.getD ((3 >>> k) ^^^ 1) concatOps.ti)
              (s'.lazy.getD ((3 >>> k) ^^^ 1) concatOps.ei))) ∧
      ((∀ a b, concatOps.f a b = concatOps.f b a) → ∀ k, 1 ≤ 3 >>> (k + 1) →
        s'.data.getD (3 >>> (k + 1)) concatOps.ti =
          concatOps.f
            (concatOps.g (s'.data.getD (2 * (3 >>> (k + 1))) concatOps.ti)
              (s'.lazy.getD (2 * (3 >>> (k + 1))) concatOps.ei))
            (concatOps.g (s'.data.getD (2 * (3 >>> (k + 1)) + 1) concatOps.ti)
              (s'.lazy.getD (2 * (3 >>> (k + 1)) + 1) concatOps.ei))) :=
  C16_dataPropagateFromLeaf_recombines concatOps concatTree (by decide) 3 (by decide)

/-! ## The loop bound of `LazyPropagateFromRoot` -/

theorem shr_eq_zero_of_lt (idx j : Nat) (h : idx < 2 ^ j) : idx >>> j = 0 := by
  rw [Nat.shiftRight_eq_div_pow]
  exact Nat.div_eq_of_lt h

theorem shr_pos_of_le (idx j : Nat) (h : 2 ^ j ≤ idx) : 1 ≤ idx >>> j := by
  rw [Nat.shiftRight_eq_div_pow]
  exact Nat.div_pos h (Nat.two_pow_pos j)

theorem lazyPropagateLoop_skip {T E : Type} (o : LazyOps T E) (idx k t : Nat)
    (s : LazySegmentTree T E) (h : idx < 2 ^ (k + 1)) :
    lazyPropagateLoop o idx (k + t) s = lazyPropagateLoop o idx k s := by
  induction t with
  | zero => rfl
  | succ t ih =>
    show lazyPropagateLoop o idx (k + t + 1) s = _
    have hlt : idx < 2 ^ (k + t + 1) :=
      Nat.lt_of_lt_of_le h (Nat.pow_le_pow_right (by omega) (by omega))
    simp only [lazyPropagateLoop]
    rw [if_pos (shr_eq_zero_of_lt idx _ hlt)]
    exact ih

theorem lazyPropagateLoop_exact {T E : Type} (o : LazyOps T E) (idx k i : Nat)
    (s : LazySegmentTree T E) (hi : i ≤ k) (h : 2 ^ k ≤ idx) :
    lazyPropagateLoop o idx i s = lazyPropagateLoopExact o idx i s := by
  induction i generalizing s with
  | zero => rfl
  | succ i ih =>
    have hle : 2 ^ (i + 1) ≤ idx :=
      Nat.le_trans (Nat.pow_le_pow_right (by omega) hi) h
    have hpos := shr_pos_of_le idx (i + 1) hle
    simp only [lazyPropagateLoop, lazyPropagateLoopExact]
    rw [if_neg (by omega)]
    exact ih _ (by omega)

/-- C18. For `n = 2^k` with `k ≤ 30` and a leaf index `n ≤ idx < 2n`,
`LazyPropagateFromRoot(idx)` as written (counter from `31` down to `1`,
iterations with `idx >> i == 0` skipped) ends in the same state, hence with the
same `data` and `lazy`, as the variant whose counter runs from `log2(n)` down
to `1` with no skip test. -/
theorem C18_loop_bound_refinement {T E : Type} (o : LazyOps T E)
    (s : LazySegmentTree T E) (k : Nat) (hk : k ≤ 30) (hn : s.n = 2 ^ k) (idx : Nat)
    (h1 : s.n ≤ idx) (h2 : idx < 2 * s.n) :
    LazySegmentTree.LazyPropagateFromRoot o s idx =
      LazySegmentTree.LazyPropagateFromRootExact o s idx := by
  have hpow : 2 ^ (k + 1) = 2 * 2 ^ k := by rw [pow_succ]; omega
  have e31 : intDigits = k + (31 - k) := by simp only [intDigits]; omega
  simp only [LazySegmentTree.LazyPropagateFromRoot, LazySegmentTree.LazyPropagateFromRootExact]
  rw [e31, lazyPropagateLoop_skip o idx k _ _ (by omega),
    lazyPropagateLoop_exact o idx k k _ (Nat.le_refl _) (by omega), hn, Nat.log2_two_pow]

theorem C18_loop_bound_refinement_witness :
    LazySegmentTree.LazyPropagateFromRoot lazyRmqOps pendingTree 5 =
      LazySegmentTree.LazyPropagateFromRootExact lazyRmqOps pendingTree 5 :=
  C18_loop_bound_refinement lazyRmqOps pendingTree 2 (by decide) (by decide) 5 (by decide)
    (by decide)

/-! ## Index safety and termination of the lazy operations -/

theorem propagateAndOperateAccess_bound (n idx : Nat) (h1 : 1 ≤ idx) (h2 : idx < 2 * n) :
    ∀ i ∈ propagateAndOperateAccess n idx, 1 ≤ i ∧ i < 2 * n := by
  intro i hi
  simp only [propagateAndOperateAccess, propagateAccess, operateAccess, shl_one] at hi
  by_cases c : idx ≥ n
  · rw [if_pos c] at hi
    simp only [List.nil_append, List.mem_cons, List.mem_singleton, or_self, List.not_mem_nil,
      or_false] at hi
    omega
  · rw [if_neg c] at hi
    simp only [List.cons_append, List.nil_append, List.mem_cons, List.mem_singleton,
      List.not_mem_nil, or_false] at hi
    omega

theorem xor_one_bound (n x : Nat) (h1 : 2 ≤ x) (h2 : x < 2 * n) :
    2 ≤ x ^^^ 1 ∧ x ^^^ 1 < 2 * n := by
  have := xor_one x
  split at this <;> omega

theorem lazyPropagateLoopAccess_bound (n idx : Nat) (h2 : idx < 2 * n) (k : Nat) :
    ∀ i ∈ lazyPropagateLoopAccess n idx k, 1 ≤ i ∧ i < 2 * n := by
  induction k with
  | zero => intro i hi; simp [lazyPropagateLoopAccess] at hi
  | succ k ih =>
    intro i hi
    simp only [lazyPropagateLoopAccess] at hi
    by_cases c : idx >>> (k + 1) = 0
    · rw [if_pos c] at hi; exact ih i hi
    · rw [if_neg c] at hi
      have hx : 2 ≤ idx >>> k ∧ idx >>> k < 2 * n := by
        have hle := shr_le idx k
        rw [shr_succ idx k] at c
        generalize idx >>> k = x at c hle ⊢
        omega
      have hy := xor_one_bound n _ hx.1 hx.2
      rcases List.mem_append.mp hi with hi | hi
      · rcases List.mem_append.mp hi with hi | hi
        · exact propagateAndOperateAccess_bound n _ (by omega) hx.2 i hi
        · exact propagateAndOperateAccess_bound n _ (by omega) hy.2 i hi
      · exact ih i hi

theorem lazyPropagateFromRootAccess_bound (n idx : Nat) (hn : 1 ≤ n) (h2 : idx < 2 * n) :
    ∀ i ∈ lazyPropagateFromRootAccess n idx, 1 ≤ i ∧ i < 2 * n := by
  intro i hi
  rcases List.mem_append.mp hi with hi | hi
  · exact propagateAndOperateAccess_bound n 1 (Nat.le_refl _) (by omega) i hi
  · exact lazyPropagateLoopAccess_bound n idx h2 _ i hi

theorem dataPropagateLoopAccess_bound (n fuel idx : Nat) (h2 : idx < 2 * n)
    (hfuel : idx < fuel) :
    ∃ t, dataPropagateLoopAccess fuel idx = some t ∧ ∀ i ∈ t, 1 ≤ i ∧ i < 2 * n := by
  induction fuel generalizing idx with
  | zero => omega
  | succ fuel ih =>
    simp only [dataPropagateLoopAccess, shr_one]
    by_cases h1 : 1 ≤ idx
    · rw [if_pos h1]
      by_cases hone : idx = 1
      · subst hone
        have e : dataPropagateLoopAccess fuel (1 / 2) = some [] := by
          cases fuel <;> simp [dataPropagateLoopAccess]
        rw [e]
        refine ⟨_, rfl, ?_⟩
        intro i hi
        simp at hi
      · obtain ⟨t, e, ht⟩ := ih (idx / 2) (by omega) (by omega)
        rw [e, if_pos hone]
        refine ⟨_, rfl, ?_⟩
        intro i hi
        have hy := xor_one_bound n idx (by omega) h2
        rcases List.mem_append.mp hi with hi | hi
        · simp only [List.mem_cons, List.mem_singleton, List.not_mem_nil, or_false] at hi
          omega
        · exact ht i hi
    · rw [if_neg h1]
      exact ⟨_, rfl, fun i hi => by simp at hi⟩

theorem walkAccess_succ (fuel l r : Nat) :
    walkAccess (fuel + 1) l r =
      if l ≤ r then
        (walkAccess fuel ((if l % 2 = 1 then l + 1 else l) / 2)
          ((if r % 2 = 0 then r - 1 else r) / 2)).map fun t =>
          (if l % 2 = 1 then [l] else []) ++ (if r % 2 = 0 then [r] else []) ++ t
      else some [] := by
  have e : (l % 2 ≠ 0) = (l % 2 = 1) := by
    apply propext; omega
  simp only [walkAccess, and_one, shr_one, e]

theorem walkAccess_bound (n fuel l r : Nat) (hl1 : 1 ≤ l) (hr : r < 2 * n) (hfuel : r < fuel) :
    ∃ t, walkAccess fuel l r = some t ∧ ∀ i ∈ t, 1 ≤ i ∧ i < 2 * n := by
  induction fuel generalizing l r with
  | zero => omega
  | succ fuel ih =>
    rw [walkAccess_succ]
    by_cases hlr : l ≤ r
    · rw [if_pos hlr]
      obtain ⟨t, e, ht⟩ := ih ((if l % 2 = 1 then l + 1 else l) / 2)
        ((if r % 2 = 0 then r - 1 else r) / 2) (by split <;> omega) (by split <;> omega)
        (by split <;> omega)
      rw [e]
      refine ⟨_, rfl, ?_⟩
      intro i hi
      rcases List.mem_append.mp hi with hi | hi
      · rcases List.mem_append.mp hi with hi | hi
        · split at hi
          · simp only [List.mem_singleton] at hi; omega
          · simp at hi
        · split at hi
          · simp only [List.mem_singleton] at hi; omega
          · simp at hi
      · exact ht i hi
    · rw [if_neg hlr]
      exact ⟨_, rfl, fun i hi => by simp at hi⟩

theorem queryLoop_done {T : Type} (f : T → T → T) (ti : T) (data : List T)
    (fuel l r : Nat) (vl vr : T) (hlr : r < l) :
    queryLoop f ti data fuel l r vl vr = some (f vl vr) := by
  cases fuel with
  | zero => simp only [queryLoop]; rw [if_neg (by omega)]
  | succ f => rw [queryLoop_succ, if_neg (by omega)]

/-- The two-pointer loop of `Query` started on level `d` ends within `d + 1`
iterations. -/
theorem queryLoop_level {T : Type} (f : T → T → T) (ti : T) (data : List T)
    (fuel d l r : Nat) (vl vr : T) (hl : 2 ^ d ≤ l) (hr : r < 2 ^ (d + 1)) (hfuel : d < fuel) :
    ∃ v, queryLoop f ti data fuel l r vl vr = some v := by
  induction fuel generalizing d l r vl vr with
  | zero => omega
  | succ fuel ih =>
    have hpow : 2 ^ (d + 1) = 2 * 2 ^ d := by rw [pow_succ]; omega
    have hpos : 1 ≤ 2 ^ d := Nat.one_le_two_pow
    rw [queryLoop_succ]
    by_cases hlr : l ≤ r
    · rw [if_pos hlr]
      cases d with
      | zero =>
        simp only [pow_zero, zero_add, pow_one] at hl hr
        exact ⟨_, queryLoop_done _ _ _ _ _ _ _ _ (by split <;> split <;> omega)⟩
      | succ d' =>
        have hpow' : 2 ^ (d' + 1) = 2 * 2 ^ d' := by rw [pow_succ]; omega
        exact ih d' _ _ _ _ (by split <;> omega) (by split <;> omega) (by omega)
    · rw [if_neg hlr]; exact ⟨_, rfl⟩

/-- The two-pointer loop of `Update` started on level `d` ends within `d + 1`
iterations. -/
theorem updateLoop_level {E : Type} (h : E → E → E) (ei x : E) (fuel d l r : Nat)
    (lz : List E) (hl : 2 ^ d ≤ l) (hr : r < 2 ^ (d + 1)) (hfuel : d < fuel) :
    ∃ lz', updateLoop h ei x fuel l r lz = some lz' := by
  induction fuel generalizing d l r lz with
  | zero => omega
  | succ fuel ih =>
    have hpow : 2 ^ (d + 1) = 2 * 2 ^ d := by rw [pow_succ]; omega
    have hpos : 1 ≤ 2 ^ d := Nat.one_le_two_pow
    rw [updateLoop_succ]
    by_cases hlr : l ≤ r
    · rw [if_pos hlr]
      cases d with
      | zero =>
        simp only [pow_zero, zero_add, pow_one] at hl hr
        exact ⟨_, updateLoop_done _ _ _ _ _ _ _ (by split <;> split <;> omega)⟩
      | succ d' =>
        have hpow' : 2 ^ (d' + 1) = 2 * 2 ^ d' := by rw [pow_succ]; omega
        exact ih d' _ _ _ (by split <;> omega) (by split <;> omega) (by omega)
    · rw [if_neg hlr]; exact ⟨_, rfl⟩

/-- C20. For `n = 2^k` and every call that satisfies its assertion: the
two-pointer loops of `Query` and `Update` end within `k + 1 = log2(n) + 1`
iterations, whatever the contents of the arrays, and every index used by
`SetVal`, `Update` and `Query` to read or write `data` or `lazy` lies in
`[1, 2n)`. -/
theorem C20_index_safety_and_termination (k : Nat) :
    (∀ l r : Int, ((0 ≤ l ∧ l < ((2 ^ k : Nat) : Int)) ∧ (0 < r ∧ r ≤ ((2 ^ k : Nat) : Int))) ∧ l < r →
      (∀ (T : Type) (f : T → T → T) (ti : T) (data : List T) (vl vr : T),
        ∃ v, queryLoop f ti data (k + 1) (l.toNat + 2 ^ k) (r.toNat + (2 ^ k - 1)) vl vr = some v) ∧
      (∀ (E : Type) (h : E → E → E) (ei x : E) (lz : List E),
        ∃ lz', updateLoop h ei x (k + 1) (l.toNat + 2 ^ k) (r.toNat + (2 ^ k - 1)) lz = some lz') ∧
      (∃ t, updateAccess (2 ^ k) l r = some t ∧ ∀ i ∈ t, 1 ≤ i ∧ i < 2 * 2 ^ k) ∧
      (∃ t, queryAccess (2 ^ k) l r = some t ∧ ∀ i ∈ t, 1 ≤ i ∧ i < 2 * 2 ^ k)) ∧
    (∀ idx : Int, 0 ≤ idx ∧ idx < ((2 ^ k : Nat) : Int) →
      ∃ t, setValAccess (2 ^ k) idx = some t ∧ ∀ i ∈ t, 1 ≤ i ∧ i < 2 * 2 ^ k) := by
  have hpos : 1 ≤ 2 ^ k := Nat.one_le_two_pow
  have hpow : 2 ^ (k + 1) = 2 * 2 ^ k := by rw [pow_succ]; omega
  generalize hn : 2 ^ k = n at hpos hpow
  constructor
  · intro l r hv
    obtain ⟨⟨⟨h1, h2⟩, h3, h4⟩, h5⟩ := hv
    obtain ⟨ln, rfl⟩ := Int.eq_ofNat_of_zero_le h1
    obtain ⟨rn, rfl⟩ := Int.eq_ofNat_of_zero_le (Int.le_of_lt h3)
    simp only [Int.toNat_ofNat]
    have ha : ln + n < 2 * n := by omega
    have hb : rn + (n - 1) < 2 * n := by omega
    obtain ⟨w, ew, hw⟩ := walkAccess_bound n (2 * n) (ln + n) (rn + (n - 1)) (by omega) hb hb
    obtain ⟨t1, e1, ht1⟩ := dataPropagateLoopAccess_bound n (2 * n) (ln + n) ha ha
    obtain ⟨t2, e2, ht2⟩ := dataPropagateLoopAccess_bound n (2 * n) (rn + (n - 1)) hb hb
    have hA := lazyPropagateFromRootAccess_bound n (ln + n) hpos ha
    have hB := lazyPropagateFromRootAccess_bound n (rn + (n - 1)) hpos hb
    refine ⟨?_, ?_, ?_, ?_⟩
    · intro T f ti data vl vr
      exact queryLoop_level f ti data (k + 1) k _ _ vl vr (by omega) (by omega) (by omega)
    · intro E h ei x lz
      exact updateLoop_level h ei x (k + 1) k _ _ lz (by omega) (by omega) (by omega)
    · have eq : updateAccess n (ln : Int) (rn : Int) =
          some (lazyPropagateFromRootAccess n (ln + n) ++
            lazyPropagateFromRootAccess n (rn + (n - 1)) ++ w ++ t1 ++ t2) := by
        simp only [updateAccess]
        rw [if_pos (by omega)]
        simp only [Int.toNat_ofNat, ew, e1, e2, Option.some_bind, Option.map_some']
      refine ⟨_, eq, ?_⟩
      · intro i hi
        simp only [List.mem_append] at hi
        rcases hi with (((hi | hi) | hi) | hi) | hi
        · exact hA i hi
        · exact hB i hi
        · exact hw i hi
        · exact ht1 i hi
        · exact ht2 i hi
    · have eq : queryAccess n (ln : Int) (rn : Int) =
          some (lazyPropagateFromRootAccess n (ln + n) ++
            lazyPropagateFromRootAccess n (rn + (n - 1)) ++ w) := by
        simp only [queryAccess]
        rw [if_pos (by omega)]
        simp only [Int.toNat_ofNat, ew, Option.map_some']
      refine ⟨_, eq, ?_⟩
      · intro i hi
        simp only [List.mem_append] at hi
        rcases hi with (hi | hi) | hi
        · exact hA i hi
        · exact hB i hi
        · exact hw i hi
  · intro idx hv
    obtain ⟨i0, rfl⟩ := Int.eq_ofNat_of_zero_le hv.1
    have ha : n + i0 < 2 * n := by omega
    obtain ⟨t1, e1, ht1⟩ := dataPropagateLoopAccess_bound n (2 * n) (n + i0) ha ha
    have hA := lazyPropagateFromRootAccess_bound n (n + i0) hpos ha
    have eq : setValAccess n (i0 : Int) =
        some ([n + i0] ++ lazyPropagateFromRootAccess n (n + i0) ++ t1) := by
      simp only [setValAccess]
      rw [if_pos (by omega)]
      simp only [Int.toNat_ofNat, e1, Option.map_some']
    refine ⟨_, eq, ?_⟩
    · intro i hi
      simp only [List.mem_append, List.mem_singleton] at hi
      rcases hi with (hi | hi) | hi
      · omega
      · exact hA i hi
      · exact ht1 i hi

theorem C20_index_safety_and_termination_witness :
    (∀ l r : Int, ((0 ≤ l ∧ l < ((2 ^ 2 : Nat) : Int)) ∧ (0 < r ∧ r ≤ ((2 ^ 2 : Nat) : Int))) ∧ l < r →
      (∀ (T : Type) (f : T → T → T) (ti : T) (data : List T) (vl vr : T),
        ∃ v, queryLoop f ti data (2 + 1) (l.toNat + 2 ^ 2) (r.toNat + (2 ^ 2 - 1)) vl vr = some v) ∧
      (∀ (E : Type) (h : E → E → E) (ei x : E) (lz : List E),
        ∃ lz', updateLoop h ei x (2 + 1) (l.toNat + 2 ^ 2) (r.toNat + (2 ^ 2 - 1)) lz = some lz') ∧
      (∃ t, updateAccess (2 ^ 2) l r = some t ∧ ∀ i ∈ t, 1 ≤ i ∧ i < 2 * 2 ^ 2) ∧
      (∃ t, queryAccess (2 ^ 2) l r = some t ∧ ∀ i ∈ t, 1 ≤ i ∧ i < 2 * 2 ^ 2)) ∧
    (∀ idx : Int, 0 ≤ idx ∧ idx < ((2 ^ 2 : Nat) : Int) →
      ∃ t, setValAccess (2 ^ 2) idx = some t ∧ ∀ i ∈ t, 1 ≤ i ∧ i < 2 * 2 ^ 2) :=
  C20_index_safety_and_termination 2

/-! ## Independence of `ti` within the bounds of the arrays -/

theorem getD_default {α : Type} (l : List α) (i : Nat) (d d' : α) (h : i < l.length) :
    l.getD i d = l.getD i d' := by
  rw [List.getD_eq_getElem?_getD, List.getD_eq_getElem?_getD, List.getElem?_eq_getElem h]
  rfl

theorem PAO_ti {T E : Type} (o : LazyOps T E) (t : T) (s : LazySegmentTree T E) (idx : Nat) :
    LazySegmentTree.PropagateAndOperate ⟨o.f, o.g, o.h, t, o.ei⟩ s idx =
      LazySegmentTree.PropagateAndOperate o s idx := by
  have hp : LazySegmentTree.Propagate ⟨o.f, o.g, o.h, t, o.ei⟩ s idx =
      LazySegmentTree.Propagate o s idx := rfl
  simp only [LazySegmentTree.PropagateAndOperate, hp, LazySegmentTree.Operate]
  by_cases h : idx < (LazySegmentTree.Propagate o s idx).data.length
  · rw [getD_default _ idx t o.ti h]
  · have e : ∀ v, (LazySegmentTree.Propagate o s idx).data.set idx v =
        (LazySegmentTree.Propagate o s idx).data :=
      fun v => List.set_eq_of_length_le (by omega)
    rw [e, e]

theorem lazyPropagateLoop_ti {T E : Type} (o : LazyOps T E) (t : T) (idx i : Nat)
    (s : LazySegmentTree T E) :
    lazyPropagateLoop ⟨o.f, o.g, o.h, t, o.ei⟩ idx i s = lazyPropagateLoop o idx i s := by
  induction i generalizing s with
  | zero => rfl
  | succ i ih =>
    simp only [lazyPropagateLoop, PAO_ti o t, ih]

theorem LPFR_ti {T E : Type} (o : LazyOps T E) (t : T) (s : LazySegmentTree T E) (idx : Nat) :
    LazySegmentTree.LazyPropagateFromRoot ⟨o.f, o.g, o.h, t, o.ei⟩ s idx =
      LazySegmentTree.LazyPropagateFromRoot o s idx := by
  simp only [LazySegmentTree.LazyPropagateFromRoot, PAO_ti o t, lazyPropagateLoop_ti o t]

theorem dataPropagateLoop_ti {T E : Type} (o : LazyOps T E) (t : T) (fuel idx : Nat)
    (s : LazySegmentTree T E) (hd : s.data.length = 2 * s.n) (hidx : idx < 2 * s.n) :
    dataPropagateLoop ⟨o.f, o.g, o.h, t, o.ei⟩ fuel idx s = dataPropagateLoop o fuel idx s := by
  induction fuel generalizing idx s with
  | zero => rfl
  | succ fuel ih =>
    simp only [dataPropagateLoop]
    by_cases h1 : 1 ≤ idx
    · rw [if_pos h1, if_pos h1]
      by_cases hone : idx = 1
      · rw [if_neg (by simpa using hone), if_neg (by simpa using hone)]
        exact ih _ s hd (by rw [shr_one]; omega)
      · rw [if_pos hone, if_pos hone]
        have hy := xor_one_bound s.n idx (by omega) hidx
        rw [getD_default s.data idx t o.ti (by omega),
          getD_default s.data (idx ^^^ 1) t o.ti (by omega)]
        exact ih _ _ (by simp [hd]) (by simp only; rw [shr_one]; omega)
    · rw [if_neg h1, if_neg h1]

theorem SetVal_ti {T E : Type} (o : LazyOps T E) (t : T) (s : LazySegmentTree T E)
    (hwf : LazySegmentTree.WF s) (idx : Nat) (hidx : idx < s.n) (x : T) :
    LazySegmentTree.SetVal ⟨o.f, o.g, o.h, t, o.ei⟩ s (idx : Int) x =
      LazySegmentTree.SetVal o s (idx : Int) x := by
  have hwf0 : LazySegmentTree.WF { s with data := s.data.set (s.n + idx) x } :=
    ⟨by simp only [List.length_set]; exact hwf.1, hwf.2.1, hwf.2.2⟩
  obtain ⟨wf1, n1⟩ := LPFR_wf o _ hwf0 (s.n + idx) (by simp only; omega)
  simp only at n1
  rw [LazySegmentTree.SetVal_eq _ s idx hidx, LazySegmentTree.SetVal_eq o s idx hidx, LPFR_ti o t]
  simp only [LazySegmentTree.DataPropagateFromLeaf]
  exact dataPropagateLoop_ti o t _ _ _ wf1.1 (by rw [n1]; omega)

theorem Update_ti {T E : Type} (o : LazyOps T E) (t : T) (s : LazySegmentTree T E)
    (hwf : LazySegmentTree.WF s) (l r : Nat) (hlr : l < r) (hr : r ≤ s.n) (x : E) :
    LazySegmentTree.Update ⟨o.f, o.g, o.h, t, o.ei⟩ s (l : Int) (r : Int) x =
      LazySegmentTree.Update o s (l : Int) (r : Int) x := by
  have hpos := WF_pos s hwf
  obtain ⟨wf1, n1⟩ := LPFR_wf o s hwf (l + s.n) (by omega)
  obtain ⟨wf2, n2⟩ := LPFR_wf o _ wf1 (r + (s.n - 1)) (by rw [n1]; omega)
  rw [n1] at n2
  rw [LazySegmentTree.Update_eq _ s l r hlr hr, LazySegmentTree.Update_eq o s l r hlr hr,
    LPFR_ti o t, LPFR_ti o t]
  generalize LazySegmentTree.LazyPropagateFromRoot o
    (LazySegmentTree.LazyPropagateFromRoot o s (l + s.n)) (r + (s.n - 1)) = s2 at wf2 n2 ⊢
  obtain ⟨lz, u1, u2⟩ := updateLoop_some o.h o.ei x (2 * s.n) (l + s.n) (r + (s.n - 1))
    s2.lazy (by omega) (by omega)
  show (updateLoop o.h o.ei x (2 * s.n) (l + s.n) (r + (s.n - 1)) s2.lazy).bind
      (fun lz => (LazySegmentTree.DataPropagateFromLeaf ⟨o.f, o.g, o.h, t, o.ei⟩
          { s2 with lazy := lz } (l + s.n)).bind
        fun s4 => LazySegmentTree.DataPropagateFromLeaf ⟨o.f, o.g, o.h, t, o.ei⟩ s4
          (r + (s.n - 1))) =
    (updateLoop o.h o.ei x (2 * s.n) (l + s.n) (r + (s.n - 1)) s2.lazy).bind
      (fun lz => (LazySegmentTree.DataPropagateFromLeaf o { s2 with lazy := lz } (l + s.n)).bind
        fun s4 => LazySegmentTree.DataPropagateFromLeaf o s4 (r + (s.n - 1)))
  rw [u1, Option.some_bind, Option.some_bind]
  have wf3 : LazySegmentTree.WF { s2 with lazy := lz } :=
    ⟨wf2.1, by simp only; rw [u2]; exact wf2.2.1, wf2.2.2⟩
  obtain ⟨s4, p1, p2, p3⟩ := DPFL_wf o _ wf3 (l + s.n) (by simp only; rw [n2]; omega)
  simp only at p3
  have e1 : LazySegmentTree.DataPropagateFromLeaf ⟨o.f, o.g, o.h, t, o.ei⟩
      { s2 with lazy := lz } (l + s.n) = some s4 := by
    rw [← p1]
    exact dataPropagateLoop_ti o t _ _ _ wf3.1 (by simp only; rw [n2]; omega)
  rw [e1, p1, Option.some_bind, Option.some_bind]
  exact dataPropagateLoop_ti o t _ _ _ p2.1 (by rw [p3, n2]; omega)

/-! ## The range-add / range-sum scenario -/

/-- With `(0, 0)` in the place of `ti`, the operators of the range-sum test
satisfy the operator laws. -/
theorem rsq0_laws : LazyLaws rsqOps0 := by
  refine ⟨⟨?_, ?_, ?_⟩, ?_, ?_, ?_, ?_, ?_, ?_⟩ <;> simp only [rsqOps0, rsqOps]
  · intro a b c
    apply Prod.ext <;> (simp only; ring)
  · intro a b
    apply Prod.ext <;> (simp only; ring)
  · intro a
    apply Prod.ext <;> simp
  · intro a b c
    ring
  · intro e
    ring
  · intro e
    ring
  · intro x
    apply Prod.ext <;> simp
  · intro x e1 e2
    apply Prod.ext <;> simp only <;> ring
  · intro a b e
    apply Prod.ext <;> simp only <;> ring

theorem rsq_getD_val (data : List (Int × Int)) (i : Nat) :
    (data.getD i rsqOps.ti).1 = (data.getD i rsqOps0.ti).1 := by
  by_cases h : i < data.length
  · rw [getD_default data i rsqOps.ti rsqOps0.ti h]
  · rw [List.getD_eq_getElem?_getD, List.getD_eq_getElem?_getD,
      List.getElem?_eq_none (by omega)]
    rfl

/-- The `val` component of the result of the two-pointer loop does not depend
on the `cnt` components of `ti` and of the accumulators. -/
theorem queryLoop_val (data : List (Int × Int)) (fuel l r : Nat) (vl vr vl' vr' : Int × Int)
    (h1 : vl.1 = vl'.1) (h2 : vr.1 = vr'.1) :
    (queryLoop rsqOps.f rsqOps.ti data fuel l r vl vr).map Prod.fst =
      (queryLoop rsqOps0.f rsqOps0.ti data fuel l r vl' vr').map Prod.fst := by
  induction fuel generalizing l r vl vr vl' vr' with
  | zero =>
    simp only [queryLoop]
    by_cases hlr : l ≤ r
    · rw [if_pos hlr, if_pos hlr]
    · rw [if_neg hlr, if_neg hlr]
      simp only [Option.map_some', rsqOps0, rsqOps, h1, h2]
  | succ fuel ih =>
    rw [queryLoop_succ, queryLoop_succ]
    by_cases hlr : l ≤ r
    · rw [if_pos hlr, if_pos hlr]
      apply ih
      · by_cases c : l % 2 = 1
        · rw [if_pos c, if_pos c]
          show vl.1 + (data.getD l rsqOps.ti).1 = vl'.1 + (data.getD l rsqOps0.ti).1
          rw [h1, rsq_getD_val]
        · rw [if_neg c, if_neg c]; exact h1
      · by_cases c : r % 2 = 0
        · rw [if_pos c, if_pos c]
          show vr.1 + (data.getD r rsqOps.ti).1 = vr'.1 + (data.getD r rsqOps0.ti).1
          rw [h2, rsq_getD_val]
        · rw [if_neg c, if_neg c]; exact h2
    · rw [if_neg hlr, if_neg hlr]
      simp only [Option.map_some', rsqOps0, rsqOps, h1, h2]

theorem rsq_fold_val (L : Nat → Int × Int) (a : Nat → Int) (l k : Nat)
    (h : ∀ j, l ≤ j → j < l + k → L j = (a j, 1)) :
    (foldFrom rsqOps0.f rsqOps0.ti L l k).1 = ((List.range' l k).map a).sum := by
  induction k generalizing l with
  | zero => rfl
  | succ k ih =>
    rw [foldFrom_succ, List.range'_succ, List.map_cons, List.sum_cons,
      ← ih (l + 1) (fun j h1 h2 => h j (by omega) (by omega))]
    show (L l).1 + _ = _
    rw [h l (Nat.le_refl _) (by omega)]

/-- A valid `SetVal(i, T(x, 1))` on a tree without pending effects writes `x`
at position `i` of the represented array and leaves no pending effect. -/
theorem rsq_step_setVal (n : Nat) (s : LazySegmentTree (Int × Int) Int) (a : Nat → Int)
    (hsim : RsqSim n s a) (hclean : ∀ j, s.lazy.getD j rsqOps0.ei = rsqOps0.ei)
    (i : Nat) (hi : i < n) (x : Int) :
    ∃ s', LazySegmentTree.SetVal rsqOps s (i : Int) (x, 1) = some s' ∧
      RsqSim n s' (fun j => if (j : Int) = (i : Int) then x else a j) ∧
      ∀ j, s'.lazy.getD j rsqOps0.ei = rsqOps0.ei := by
  obtain ⟨hgood, hn, hleaf⟩ := hsim
  subst hn
  have hwf := hgood.1
  have e0 : LazySegmentTree.SetVal rsqOps s (i : Int) (x, 1) =
      LazySegmentTree.SetVal rsqOps0 s (i : Int) (x, 1) :=
    SetVal_ti rsqOps0 (0, 1) s hwf i hi (x, 1)
  obtain ⟨s', e1, g1, n1, lv⟩ := LazySegmentTree.SetVal_spec rsqOps0 rsq0_laws s hgood i hi (x, 1)
  have hlazy : s'.lazy = s.lazy := by
    have e2 := e1
    rw [LazySegmentTree.SetVal_eq rsqOps0 s i hi,
      LPFR_eq_self rsqOps0 rsq0_laws.g_id rsq0_laws.h_right_id
        { s with data := s.data.set (s.n + i) (x, 1) } (s.n + i) (by omega)
        (fun j _ => hclean j)] at e2
    obtain ⟨s'', f1, _, f3, _⟩ := dataPropagateLoop_spec rsqOps0 (2 * s.n) (s.n + i)
      { s with data := s.data.set (s.n + i) (x, 1) }
      (by simp only [List.length_set]; exact hwf.1) (by first | omega | (simp only; omega))
      (by first | omega | (simp only; omega))
    simp only [LazySegmentTree.DataPropagateFromLeaf] at e2
    rw [e2] at f1
    cases f1
    exact f3
  refine ⟨s', by rw [e0, e1], ⟨g1, n1, ?_⟩, fun j => by rw [hlazy]; exact hclean j⟩
  intro j hj
  rw [lv j hj]
  beta_reduce
  by_cases c : j = i
  · subst c
    rw [if_pos rfl, if_pos rfl]
    exact pendingUp_clean rsqOps0 rsq0_laws.g_id s.lazy (fun _ => True) (fun _ _ _ => trivial)
      (fun j _ => hclean j) _ trivial _
  · rw [if_neg c, if_neg (by omega)]
    exact hleaf j hj

/-- A valid `Update(l, r, e)` adds `e` on `[l, r)` of the represented array. -/
theorem rsq_step_update (n : Nat) (s : LazySegmentTree (Int × Int) Int) (a : Nat → Int)
    (hsim : RsqSim n s a) (l r : Nat) (hlr : l < r) (hr : r ≤ n) (e : Int) :
    ∃ s', LazySegmentTree.Update rsqOps s (l : Int) (r : Int) e = some s' ∧
      RsqSim n s' (fun j => if (l : Int) ≤ (j : Int) ∧ (j : Int) < (r : Int) then a j + e
        else a j) := by
  obtain ⟨hgood, hn, hleaf⟩ := hsim
  subst hn
  have e0 : LazySegmentTree.Update rsqOps s (l : Int) (r : Int) e =
      LazySegmentTree.Update rsqOps0 s (l : Int) (r : Int) e :=
    Update_ti rsqOps0 (0, 1) s hgood.1 l r hlr hr e
  obtain ⟨s', e1, g1, n1, lv⟩ := LazySegmentTree.Update_spec rsqOps0 rsq0_laws s hgood l r hlr hr e
  refine ⟨s', by rw [e0, e1], g1, n1, ?_⟩
  intro j hj
  rw [lv j hj, hleaf j hj]
  beta_reduce
  by_cases c : l ≤ j ∧ j < r
  · rw [if_pos c, if_pos (by omega)]
    simp [rsqOps0, rsqOps]
  · rw [if_neg c, if_neg (by omega)]

/-- A valid `Query(l, r)` returns the sum over `[l, r)` of the represented
array in its `val` component and keeps the represented array. -/
theorem rsq_step_query (n : Nat) (s : LazySegmentTree (Int × Int) Int) (a : Nat → Int)
    (hsim : RsqSim n s a) (l r : Nat) (hlr : l < r) (hr : r ≤ n) :
    ∃ w s', LazySegmentTree.Query rsqOps s (l : Int) (r : Int) = some (w, s') ∧
      w.1 = ((List.range' l (r - l)).map a).sum ∧ RsqSim n s' a := by
  obtain ⟨hgood, hn, hleaf⟩ := hsim
  subst hn
  obtain ⟨s', e1, g1, n1, v1⟩ := LazySegmentTree.Query_spec rsqOps0 rsq0_laws s hgood l r hlr hr
  have q0 := LazySegmentTree.Query_eq rsqOps0 s l r hlr hr
  have q1 := LazySegmentTree.Query_eq rsqOps s l r hlr hr
  have hL : ∀ (t : LazySegmentTree (Int × Int) Int) (idx : Nat),
      LazySegmentTree.LazyPropagateFromRoot rsqOps t idx =
        LazySegmentTree.LazyPropagateFromRoot rsqOps0 t idx :=
    fun t idx => LPFR_ti rsqOps0 (0, 1) t idx
  rw [hL, hL] at q1
  rw [e1] at q0
  generalize LazySegmentTree.LazyPropagateFromRoot rsqOps0
    (LazySegmentTree.LazyPropagateFromRoot rsqOps0 s (l + s.n)) (r + (s.n - 1)) = s2 at q0 q1
  have hval := queryLoop_val s2.data (2 * s.n) (l + s.n) (r + (s.n - 1)) rsqOps.ti rsqOps.ti
    rsqOps0.ti rsqOps0.ti rfl rfl
  cases hq0 : queryLoop rsqOps0.f rsqOps0.ti s2.data (2 * s.n) (l + s.n) (r + (s.n - 1))
      rsqOps0.ti rsqOps0.ti with
  | none => rw [hq0] at q0; cases q0
  | some w0 =>
    rw [hq0] at q0 hval
    simp only [Option.map_some', Option.some.injEq, Prod.mk.injEq] at q0
    obtain ⟨hw0, hs2⟩ := q0
    cases hq1 : queryLoop rsqOps.f rsqOps.ti s2.data (2 * s.n) (l + s.n) (r + (s.n - 1))
        rsqOps.ti rsqOps.ti with
    | none => rw [hq1] at hval; cases hval
    | some w =>
      rw [hq1] at q1 hval
      simp only [Option.map_some', Option.some.injEq] at hval
      refine ⟨w, s', by rw [q1, ← hs2]; rfl, ?_, g1, n1, ?_⟩
      · rw [hval, ← hw0]
        exact rsq_fold_val _ a l (r - l) (fun j h1 h2 => hleaf j (by omega))
      · intro j hj
        have := v1 (s.n + j) (by omega)
        simp only [LazySegmentTree.nodeValue] at this
        simp only [LazySegmentTree.leafValue]
        rw [n1, this]
        exact hleaf j hj

/-- After the `SetVal` calls: valid `Update` and `Query` calls give the
results of the plain array. -/
theorem rsq_run_rest (n : Nat) (rest : List RsqCall) (s : LazySegmentTree (Int × Int) Int)
    (a : Nat → Int) (hsim : RsqSim n s a)
    (hrest : rest.all (fun c => !c.isSetVal) = true)
    (hvalid : ∀ c ∈ rest, RsqCall.valid n c) :
    runRsq s rest = some (runNaive a rest) := by
  induction rest generalizing s a with
  | nil => rfl
  | cons c cs ih =>
    have hv := hvalid c (List.mem_cons_self _ _)
    have hvs : ∀ c' ∈ cs, RsqCall.valid n c' := fun c' h => hvalid c' (List.mem_cons_of_mem _ h)
    simp only [List.all_cons, Bool.and_eq_true] at hrest
    cases c with
    | setVal i x => simp [RsqCall.isSetVal] at hrest
    | update l r e =>
      obtain ⟨⟨⟨h1, h2⟩, h3, h4⟩, h5⟩ := hv
      obtain ⟨ln, rfl⟩ := Int.eq_ofNat_of_zero_le h1
      obtain ⟨rn, rfl⟩ := Int.eq_ofNat_of_zero_le (Int.le_of_lt h3)
      obtain ⟨s', e1, sim'⟩ := rsq_step_update n s a hsim ln rn (by omega) (by omega) e
      simp only [runRsq, runNaive, e1, Option.some_bind]
      exact ih s' _ sim' hrest.2 hvs
    | query l r =>
      obtain ⟨⟨⟨h1, h2⟩, h3, h4⟩, h5⟩ := hv
      obtain ⟨ln, rfl⟩ := Int.eq_ofNat_of_zero_le h1
      obtain ⟨rn, rfl⟩ := Int.eq_ofNat_of_zero_le (Int.le_of_lt h3)
      obtain ⟨w, s', e1, hw, sim'⟩ := rsq_step_query n s a hsim ln rn (by omega) (by omega)
      simp only [runRsq, runNaive, e1, Option.some_bind, Int.toNat_ofNat,
        ih s' a sim' hrest.2 hvs, Option.map_some', hw]

/-- Valid `SetVal` calls on a tree without pending effects, followed by valid
`Update` and `Query` calls, give the results of the plain array. -/
theorem rsq_run_sets (n : Nat) (sets rest : List RsqCall)
    (s : LazySegmentTree (Int × Int) Int) (a : Nat → Int) (hsim : RsqSim n s a)
    (hclean : ∀ j, s.lazy.getD j rsqOps0.ei = rsqOps0.ei)
    (hsets : sets.all RsqCall.isSetVal = true)
    (hrest : rest.all (fun c => !c.isSetVal) = true)
    (hvalid : ∀ c ∈ sets ++ rest, RsqCall.valid n c) :
    runRsq s (sets ++ rest) = some (runNaive a (sets ++ rest)) := by
  induction sets generalizing s a with
  | nil => exact rsq_run_rest n rest s a hsim hrest hvalid
  | cons c cs ih =>
    have hv := hvalid c (List.mem_cons_self _ _)
    have hvs : ∀ c' ∈ cs ++ rest, RsqCall.valid n c' :=
      fun c' h => hvalid c' (List.mem_cons_of_mem _ h)
    simp only [List.all_cons, Bool.and_eq_true] at hsets
    cases c with
    | setVal i x =>
      obtain ⟨h1, h2⟩ := hv
      obtain ⟨k, rfl⟩ := Int.eq_ofNat_of_zero_le h1
      obtain ⟨s', e1, sim', clean'⟩ := rsq_step_setVal n s a hsim hclean k (by omega) x
      simp only [List.cons_append, runRsq, runNaive, e1, Option.some_bind]
      exact ih s' _ sim' clean' hsets.2 hvs
    | update l r e => simp [RsqCall.isSetVal] at hsets
    | query l r => simp [RsqCall.isSetVal] at hsets

/-- The tree built from `v`, each element paired with count `1`, represents
`v` padded with zeros and has no pending effect. -/
theorem rsq_construct (v : List Int) (hlen : v.length ≤ 2 ^ 30) (n : Nat)
    (hn : sizeLoop v.length 1 v.length = some n) :
    ∃ s, LazySegmentTree.construct rsqOps (v.map fun x => (x, 1)) = some s ∧
      RsqSim n s (fun j => v.getD j 0) ∧ ∀ j, s.lazy.getD j rsqOps0.ei = rsqOps0.ei := by
  obtain ⟨s, e1, wf, _, hclean, hleaf, hinv⟩ :=
    LazySegmentTree.construct_shape rsqOps (v.map fun x => (x, 1))
      (by rw [List.length_map]; exact hlen)
  have hsn : s.n = n := by
    have e2 := e1
    simp only [LazySegmentTree.construct, List.length_map, hn, Option.map_some',
      Option.some.injEq] at e2
    rw [← e2]
  have hpos := WF_pos s wf
  have hclean0 : ∀ j, s.lazy.getD j rsqOps0.ei = rsqOps0.ei := hclean
  refine ⟨s, e1, ⟨⟨wf, ?_⟩, hsn, ?_⟩, hclean⟩
  · intro i h1 h2
    have h0 := hinv i h1 h2
    simp only [LazySegmentTree.InvAt]
    rw [hclean0, hclean0, rsq0_laws.g_id, rsq0_laws.g_id,
      getD_default s.data i rsqOps0.ti rsqOps.ti (by rw [wf.1]; omega),
      getD_default s.data (2 * i) rsqOps0.ti rsqOps.ti (by rw [wf.1]; omega),
      getD_default s.data (2 * i + 1) rsqOps0.ti rsqOps.ti (by rw [wf.1]; omega)]
    exact h0
  · intro j hj
    simp only [LazySegmentTree.leafValue]
    rw [pendingUp_clean rsqOps0 rsq0_laws.g_id s.lazy (fun _ => True) (fun _ _ _ => trivial)
      (fun j _ => hclean0 j) _ trivial,
      getD_default s.data (s.n + j) rsqOps0.ti rsqOps.ti (by rw [wf.1]; omega),
      hleaf j (by omega)]
    show (List.map (fun x : Int => (x, (1 : Int))) v).getD j
      ((fun x : Int => (x, (1 : Int))) 0) = _
    rw [List.getD_map]

/-- C13. With the operators of the range-sum test over unbounded integers
(`ti = (0, 1)`, which is not an identity of `f`): for every integer input `v`
of at most `2^30` elements, each paired with count `1`, every sequence of
valid `SetVal(i, (x, 1))` calls followed by every sequence of valid `Update`
and `Query` calls runs without a failing assertion, and the `val` components
of the results of the `Query` calls are the sums over `[l, r)` of the array
`v` padded with zeros on which the same point writes and range additions are
performed. -/
theorem C13_range_sum_matches_naive_array (v : List Int) (hlen : v.length ≤ 2 ^ 30) (n : Nat)
    (hn : sizeLoop v.length 1 v.length = some n) (sets rest : List RsqCall)
    (hsets : sets.all RsqCall.isSetVal = true)
    (hrest : rest.all (fun c => !c.isSetVal) = true)
    (hvalid : ∀ c ∈ sets ++ rest, RsqCall.valid n c) :
    (LazySegmentTree.construct rsqOps (v.map fun x => (x, 1))).bind
        (fun s => runRsq s (sets ++ rest)) =
      some (runNaive (fun j => v.getD j 0) (sets ++ rest)) := by
  obtain ⟨s, e1, sim, clean⟩ := rsq_construct v hlen n hn
  rw [e1, Option.some_bind]
  exact rsq_run_sets n sets rest s _ sim clean hsets hrest hvalid

theorem C13_range_sum_matches_naive_array_witness :
    (LazySegmentTree.construct rsqOps (testInputInt.map fun x => (x, 1))).bind
        (fun s => runRsq s
          ([RsqCall.setVal 8 5, RsqCall.setVal 6 5] ++
            [RsqCall.update 6 10 6, RsqCall.query 5 9, RsqCall.update 3 5 3,
              RsqCall.query 0 10])) =
      some (runNaive (fun j => testInputInt.getD j 0)
        ([RsqCall.setVal 8 5, RsqCall.setVal 6 5] ++
          [RsqCall.update 6 10 6, RsqCall.query 5 9, RsqCall.update 3 5 3,
            RsqCall.query 0 10])) ∧
    runNaive (fun j => testInputInt.getD j 0)
        ([RsqCall.setVal 8 5, RsqCall.setVal 6 5] ++
          [RsqCall.update 6 10 6, RsqCall.query 5 9, RsqCall.update 3 5 3,
            RsqCall.query 0 10]) = [45, 70] :=
  ⟨C13_range_sum_matches_naive_array testInputInt (by decide) 16 (by decide)
      [RsqCall.setVal 8 5, RsqCall.setVal 6 5]
      [RsqCall.update 6 10 6, RsqCall.query 5 9, RsqCall.update 3 5 3, RsqCall.query 0 10]
      (by decide) (by decide) (by decide),
    by decide⟩

theorem C14_constructor_postcondition_witness :
    (∃ s, SegmentTree.construct rmqOps testInput = some s ∧
      (∃ k, s.n = 2 ^ k) ∧ testInput.length ≤ s.n ∧
      (∀ j, testInput.length ≤ 2 ^ j → s.n ≤ 2 ^ j) ∧
      s.data.length = 2 * s.n ∧
      (∀ i, i < testInput.length → s.data[s.n + i]? = testInput[i]?) ∧
      (∀ i, testInput.length ≤ i → i < s.n → s.data[s.n + i]? = some rmqOps.ti)) ∧
    (∃ s, LazySegmentTree.construct lazyRmqOps testInput = some s ∧
      (∃ k, s.n = 2 ^ k) ∧ testInput.length ≤ s.n ∧
      (∀ j, testInput.length ≤ 2 ^ j → s.n ≤ 2 ^ j) ∧
      s.data.length = 2 * s.n ∧
      (∀ i, i < testInput.length → s.data[s.n + i]? = testInput[i]?) ∧
      (∀ i, testInput.length ≤ i → i < s.n → s.data[s.n + i]? = some lazyRmqOps.ti) ∧
      s.lazy = List.replicate (2 * s.n) lazyRmqOps.ei) :=
  C14_constructor_postcondition rmqOps lazyRmqOps testInput
